import Mathlib

/-!
# A verification development for the heap allocator of `mem.c`

The allocator keeps one singly linked chain of block headers, embedded in the
memory it manages.  The embedding below represents that chain as a list of
headers, each carrying the address at which it is stored:

* the `next` link of a header is the address of the header that follows it in
  the list, and is `NULL` for the final header (`next_of`);
* a pointer to a header of the chain is a position in the list: a function of
  the source that takes `struct block_header* block` takes the part of the chain
  that starts at `block`, and a function that returns such a pointer returns the
  headers it passed over together with the chain from the returned header on;
* `size_t` arithmetic wraps modulo `2 ^ 64`; pointer arithmetic is taken in the
  natural numbers;
* reading or writing through `NULL`, or through an address at which the chain
  has no header, is undefined behaviour in C and is the outcome `fault`; what a
  run does from there on (a read through `NULL` traps, a read of an address
  outside the heap traps or yields whatever else the process has mapped there)
  is not followed.

`mem_internals.h`, `mem.h` and `util.h` are not part of the sources at hand: the
constants they define are the fields of `Platform`, and the small helpers they
define are modelled from the specification.
-/

namespace PL4

/-! ## Outcomes -/

/-- Result of running a piece of the allocator: a value; a fault, which stands
for undefined behaviour of the C code (it reads or writes through a null
pointer, or through an address at which the heap has no header) and ends what is
said about the run; or exhaustion of the iteration budget of a loop. -/
inductive Outcome (α : Type) where
  | ok : α → Outcome α
  | fault : Outcome α
  | out_of_fuel : Outcome α
deriving DecidableEq, Repr

/-! ## Machine integers -/

/-- Number of values of `size_t` (64 bits). -/
def SIZE_MOD : Nat := 18446744073709551616

/-- Addition of `size_t`. -/
def size_add (a b : Nat) : Nat := (a + b) % SIZE_MOD

/-- Subtraction of `size_t`. -/
def size_sub (a b : Nat) : Nat := (a + (SIZE_MOD - b % SIZE_MOD)) % SIZE_MOD

/-- Multiplication of `size_t`. -/
def size_mul (a b : Nat) : Nat := (a * b) % SIZE_MOD

/-! ## Constants and types of the missing headers -/

/-- Constants the sources take from headers that are not at hand:
`H = offsetof(struct block_header, contents)`, the fixed heap base, the minimum
region size, and the value of `getpagesize()`. -/
structure Platform where
  H : Nat
  HEAP_START : Nat
  REGION_MIN_SIZE : Nat
  pagesize : Nat
deriving DecidableEq, Repr

/-- The values of the constants on x86-64 Linux with the headers of the
assignment: a 17 byte header, base `0x04040000`, two pages as minimum region. -/
def linux64 : Platform :=
  { H := 17, HEAP_START := 67371008, REGION_MIN_SIZE := 8192, pagesize := 4096 }

/-- The constant of `#define BLOCK_MIN_CAPACITY 24`. -/
def BLOCK_MIN_CAPACITY : Nat := 24

/-- A block header together with the address it is stored at.  The `next`
field of the source is given by the position in the chain (`next_of`). -/
structure block_header where
  addr : Nat
  capacity : Nat
  is_free : Bool
deriving DecidableEq, Repr

/-- The `next` field of the first header of a chain: the address of the header
that follows, `NULL` (0) when there is none. -/
def next_of : List block_header → Nat
  | _ :: n :: _ => n.addr
  | _ => 0

/-- Modelled from the spec: `struct region` of `mem_internals.h`, one OS
mapping with its base address, its size and whether it landed at the
requested address. -/
structure region where
  addr : Nat
  size : Nat
  extends_ : Bool
deriving DecidableEq, Repr

/-- Modelled from the spec: `REGION_INVALID` of `mem_internals.h`, the explicit
invalid sentinel, whose address is null. -/
def REGION_INVALID : region := { addr := 0, size := 0, extends_ := false }

/-- Modelled from the spec: `region_is_invalid` of `mem_internals.h`. -/
def region_is_invalid (r : region) : Bool := r.addr == 0

/-- Modelled from the spec: `size_from_capacity(cap) = cap + header_overhead`
of `mem_internals.h`. -/
def size_from_capacity (P : Platform) (cap : Nat) : Nat := size_add cap P.H

/-- Modelled from the spec: `capacity_from_size(size) = size - header_overhead`
of `mem_internals.h`. -/
def capacity_from_size (P : Platform) (sz : Nat) : Nat := size_sub sz P.H

/-- Modelled from the spec: `size_max` of `util.h`, the larger of two sizes. -/
def size_max (a b : Nat) : Nat := if a ≥ b then a else b

/-- What the two `mmap` calls of one `alloc_region` answer: the address
returned by the call with `MAP_FIXED_NOREPLACE` and the address returned by the
call without it, `none` standing for `MAP_FAILED`. -/
structure mmap_outcome where
  noreplace : Option Nat
  anywhere : Option Nat
deriving DecidableEq, Repr

/-- State of the heap: the chain of headers that starts at the header of the
first region, and the log of the mappings obtained from the OS so far (base
address and size), which the code does not store. -/
structure heap where
  blocks : List block_header
  mapped : List (Nat × Nat)
deriving DecidableEq, Repr

/-! ## Regions -/

/-- The function `block_is_big_enough` of the source. -/
def block_is_big_enough (query : Nat) (block : block_header) : Bool :=
  decide (block.capacity ≥ query)

/-- The function `pages_count` of the source. -/
def pages_count (P : Platform) (mem : Nat) : Nat :=
  size_add (mem / P.pagesize) (if mem % P.pagesize > 0 then 1 else 0)

/-- The function `round_pages` of the source. -/
def round_pages (P : Platform) (mem : Nat) : Nat :=
  size_mul P.pagesize (pages_count P mem)

/-- The function `block_init`: the header written at `addr`; its `next` is
fixed by where the caller places it in the chain. -/
def block_init (P : Platform) (addr block_sz : Nat) : block_header :=
  { addr := addr, capacity := capacity_from_size P block_sz, is_free := true }

/-- The function `region_actual_size` of the source. -/
def region_actual_size (P : Platform) (query : Nat) : Nat :=
  size_max (round_pages P query) P.REGION_MIN_SIZE

/-- The function `alloc_region`: the region obtained for a hint address and a
payload size.  On success the header `block_init P r.addr r.size` is written at
the start of the region. -/
def alloc_region (P : Platform) (addr query : Nat) (os : mmap_outcome) : region :=
  let size := region_actual_size P (size_from_capacity P query)
  match os.noreplace with
  | some region_addr => { addr := region_addr, size := size, extends_ := region_addr == addr }
  | none =>
    match os.anywhere with
    | some region_addr => { addr := region_addr, size := size, extends_ := region_addr == addr }
    | none => REGION_INVALID

/-- The function `heap_init`: the returned pointer and the heap it leaves. -/
def heap_init (P : Platform) (initial : Nat) (os : mmap_outcome) : Nat × heap :=
  let r := alloc_region P P.HEAP_START initial os
  if region_is_invalid r then (0, { blocks := [], mapped := [] })
  else (r.addr, { blocks := [block_init P r.addr r.size], mapped := [(r.addr, r.size)] })

/-! ## Splitting -/

/-- The function `block_splittable` of the source. -/
def block_splittable (P : Platform) (block : block_header) (query : Nat) : Bool :=
  block.is_free &&
    decide (size_add (size_add query P.H) BLOCK_MIN_CAPACITY ≤ block.capacity)

/-- The function `split_if_too_big` on the chain that starts at `block`.  The first
component is the returned value: the source returns `true` after a split and
reaches the end of the function without a `return` otherwise, which is
`none`. -/
def split_if_too_big (P : Platform) (query : Nat) :
    List block_header → Outcome (Option Bool × List block_header)
  | [] => Outcome.fault
  | block :: rest =>
    if block_splittable P block query then
      let new_block := block.addr + P.H + query
      let new_size := size_sub block.capacity query
      Outcome.ok (some true,
        { block with capacity := query } :: block_init P new_block new_size :: rest)
    else Outcome.ok (none, block :: rest)

/-! ## Merging -/

/-- The function `block_after` of the source. -/
def block_after (P : Platform) (block : block_header) : Nat :=
  block.addr + P.H + block.capacity

/-- The function `blocks_continuous` of the source. -/
def blocks_continuous (P : Platform) (fst snd : block_header) : Bool :=
  snd.addr == block_after P fst

/-- The function `mergeable`, for a second header that exists. -/
def mergeable (P : Platform) (fst snd : block_header) : Bool :=
  fst.is_free && snd.is_free && blocks_continuous P fst snd

/-- The function `try_merge_with_next` on the chain that starts at `block`.  `mergeable`
reads `fst->is_free` first and `snd->is_free` only when the first is set, with
no test of `block->next` against `NULL`: a free header without a successor makes
the call read through a null pointer. -/
def try_merge_with_next (P : Platform) :
    List block_header → Outcome (Bool × List block_header)
  | [] => Outcome.fault
  | [block] => if block.is_free then Outcome.fault else Outcome.ok (false, [block])
  | block :: next :: rest =>
    if mergeable P block next then
      let snd_size := size_from_capacity P next.capacity
      let new_capacity := size_add block.capacity snd_size
      let new_size := size_from_capacity P new_capacity
      Outcome.ok (true, block_init P block.addr new_size :: rest)
    else Outcome.ok (false, block :: next :: rest)

/-! ## Search -/

/-- The tag of a search result. -/
inductive bsr_type where
  | BSR_FOUND_GOOD_BLOCK
  | BSR_REACHED_END_NOT_FOUND
  | BSR_CORRUPTED
deriving DecidableEq, Repr

/-- The type `struct block_search_result`: the tag, and the pointer `block` given as the
headers before it (from where the search started) and the chain from it on;
an empty chain is `NULL`. -/
structure block_search_result where
  type : bsr_type
  passed : List block_header
  block : List block_header
deriving DecidableEq, Repr

/-- The loop `while (try_merge_with_next(block));` with an iteration budget.
Every successful merge shortens the chain, so a budget of the length of the
chain is never exhausted (`merge_loop_fuel`). -/
def merge_loop (P : Platform) : Nat → List block_header → Outcome (List block_header)
  | 0, _ => Outcome.out_of_fuel
  | fuel + 1, chain =>
    match try_merge_with_next P chain with
    | Outcome.ok (true, chain1) => merge_loop P fuel chain1
    | Outcome.ok (false, chain1) => Outcome.ok chain1
    | Outcome.fault => Outcome.fault
    | Outcome.out_of_fuel => Outcome.out_of_fuel

/-- The loop `while (block) { ... }` of `find_good_or_last` with an iteration
budget; `passed` holds, in reverse, the headers the loop has left behind, whose
head is `last_block`.  A budget above the length of the chain is never
exhausted (`find_loop_fuel`). -/
def find_loop (P : Platform) (sz : Nat) :
    Nat → List block_header → List block_header → Outcome block_search_result
  | 0, _, _ => Outcome.out_of_fuel
  | _ + 1, [], [] =>
    Outcome.ok { type := bsr_type.BSR_REACHED_END_NOT_FOUND, passed := [], block := [] }
  | _ + 1, last_block :: before, [] =>
    Outcome.ok { type := bsr_type.BSR_REACHED_END_NOT_FOUND,
                 passed := before.reverse, block := [last_block] }
  | fuel + 1, passed, block :: rest =>
    match merge_loop P (rest.length + 1) (block :: rest) with
    | Outcome.ok [] => Outcome.fault
    | Outcome.ok (block1 :: rest1) =>
      if block1.is_free && block_is_big_enough sz block1 then
        Outcome.ok { type := bsr_type.BSR_FOUND_GOOD_BLOCK,
                     passed := passed.reverse, block := block1 :: rest1 }
      else find_loop P sz fuel (block1 :: passed) rest1
    | Outcome.fault => Outcome.fault
    | Outcome.out_of_fuel => Outcome.out_of_fuel

/-- The function `find_good_or_last` on the chain that starts at `block`. -/
def find_good_or_last (P : Platform) (chain : List block_header) (sz : Nat) :
    Outcome block_search_result :=
  match chain with
  | [] => Outcome.ok { type := bsr_type.BSR_CORRUPTED, passed := [], block := [] }
  | _ :: _ => find_loop P sz (chain.length + 1) [] chain

/-- The function `try_memalloc_existing` on the chain that starts at `block`. -/
def try_memalloc_existing (P : Platform) (query : Nat) (chain : List block_header) :
    Outcome block_search_result :=
  let adjusted_query := if query < BLOCK_MIN_CAPACITY then BLOCK_MIN_CAPACITY else query
  match find_good_or_last P chain adjusted_query with
  | Outcome.ok result =>
    if result.type = bsr_type.BSR_FOUND_GOOD_BLOCK then
      match split_if_too_big P adjusted_query result.block with
      | Outcome.ok (_, block :: rest) =>
        Outcome.ok { result with block := { block with is_free := false } :: rest }
      | Outcome.ok (_, []) => Outcome.fault
      | Outcome.fault => Outcome.fault
      | Outcome.out_of_fuel => Outcome.out_of_fuel
    else Outcome.ok result
  | Outcome.fault => Outcome.fault
  | Outcome.out_of_fuel => Outcome.out_of_fuel

/-! ## Growth and allocation -/

/-- A pointer into the chain returned by `grow_heap` or `memalloc`: the headers
before it, the chain from it on (empty for `NULL`), and the mappings the call
obtained from the OS. -/
structure alloc_result where
  passed : List block_header
  block : List block_header
  acquired : List (Nat × Nat)
deriving DecidableEq, Repr

/-- The function `grow_heap` on the chain that starts at `last`. -/
def grow_heap (P : Platform) (query : Nat) (os : mmap_outcome) :
    List block_header → Outcome alloc_result
  | [] => Outcome.fault
  | last :: rest =>
    let new_region := block_after P last
    let new := alloc_region P new_region (size_max query BLOCK_MIN_CAPACITY) os
    if region_is_invalid new then
      Outcome.ok { passed := last :: rest, block := [], acquired := [] }
    else
      let new_block := block_init P new.addr new.size
      if last.is_free then
        match try_merge_with_next P [last, new_block] with
        | Outcome.ok (true, chain) =>
          Outcome.ok { passed := [], block := chain, acquired := [(new.addr, new.size)] }
        | Outcome.ok (false, _) =>
          Outcome.ok { passed := [last], block := [new_block],
                       acquired := [(new.addr, new.size)] }
        | Outcome.fault => Outcome.fault
        | Outcome.out_of_fuel => Outcome.out_of_fuel
      else
        Outcome.ok { passed := [last], block := [new_block],
                     acquired := [(new.addr, new.size)] }

/-- The function `memalloc` on the chain that starts at `heap_start`. -/
def memalloc (P : Platform) (query : Nat) (os : mmap_outcome) (heap_start : Nat)
    (chain : List block_header) : Outcome alloc_result :=
  if heap_start = 0 then Outcome.ok { passed := chain, block := [], acquired := [] }
  else
    match try_memalloc_existing P query chain with
    | Outcome.ok res =>
      if res.type ≠ bsr_type.BSR_CORRUPTED then
        if res.type = bsr_type.BSR_FOUND_GOOD_BLOCK then
          Outcome.ok { passed := res.passed, block := res.block, acquired := [] }
        else
          match grow_heap P query os res.block with
          | Outcome.ok growed =>
            match growed.block with
            | [] =>
              Outcome.ok { passed := res.passed ++ growed.passed, block := [],
                           acquired := growed.acquired }
            | growed_block :: rest =>
              match try_memalloc_existing P query (growed_block :: rest) with
              | Outcome.ok res2 =>
                if res2.type = bsr_type.BSR_FOUND_GOOD_BLOCK then
                  Outcome.ok { passed := res.passed ++ growed.passed ++ res2.passed,
                               block := res2.block, acquired := growed.acquired }
                else
                  Outcome.ok { passed := res.passed ++ growed.passed ++ res2.passed ++ res2.block,
                               block := [], acquired := growed.acquired }
              | Outcome.fault => Outcome.fault
              | Outcome.out_of_fuel => Outcome.out_of_fuel
          | Outcome.fault => Outcome.fault
          | Outcome.out_of_fuel => Outcome.out_of_fuel
      else Outcome.ok { passed := res.passed ++ res.block, block := [], acquired := [] }
    | Outcome.fault => Outcome.fault
    | Outcome.out_of_fuel => Outcome.out_of_fuel

/-- The position in a chain of the header stored at address `a`: the headers
before it and the chain from it on; `none` when the chain has no header
there. -/
def locate (a : Nat) : List block_header → Option (List block_header × List block_header)
  | [] => none
  | b :: rest =>
    if b.addr = a then some ([], b :: rest)
    else
      match locate a rest with
      | some (before, chain) => some (b :: before, chain)
      | none => none

/-- The function `_malloc`: the returned pointer (0 is `NULL`) and the heap it
leaves.  The scan starts at the constant `HEAP_START`; when the chain has no
header there, the scan reads memory that is not part of the heap, which is the
outcome `fault`. -/
def _malloc (P : Platform) (query : Nat) (os : mmap_outcome) (s : heap) :
    Outcome (Nat × heap) :=
  if P.HEAP_START = 0 then Outcome.ok (0, s)
  else
    match locate P.HEAP_START s.blocks with
    | none => Outcome.fault
    | some (before, chain) =>
      match memalloc P query os P.HEAP_START chain with
      | Outcome.ok r =>
        let s1 : heap := { blocks := before ++ r.passed ++ r.block,
                           mapped := s.mapped ++ r.acquired }
        match r.block with
        | [] => Outcome.ok (0, s1)
        | addr :: _ => Outcome.ok (if addr.addr = 0 then 0 else addr.addr + P.H, s1)
      | Outcome.fault => Outcome.fault
      | Outcome.out_of_fuel => Outcome.out_of_fuel

/-- The function `_free`: the heap it leaves. -/
def _free (P : Platform) (mem : Nat) (s : heap) : Outcome heap :=
  if mem = 0 then Outcome.ok s
  else if mem < P.H then Outcome.fault
  else
    match locate (mem - P.H) s.blocks with
    | none => Outcome.fault
    | some (_, []) => Outcome.fault
    | some (before, header :: rest) =>
      match try_merge_with_next P ({ header with is_free := true } :: rest) with
      | Outcome.ok (_, chain) => Outcome.ok { s with blocks := before ++ chain }
      | Outcome.fault => Outcome.fault
      | Outcome.out_of_fuel => Outcome.out_of_fuel

/-! ## Teardown -/

/-- The inner loop of `heap_term`: from `block` with the running total
`region_size`, walk while the next header exists and is address-contiguous;
returns the total, the header the loop stops at and the chain after it. -/
def term_run (P : Platform) :
    Nat → block_header → List block_header → Nat × block_header × List block_header
  | region_size, block, [] => (region_size, block, [])
  | region_size, block, next :: rest =>
    if blocks_continuous P block next then
      term_run P (size_add region_size (size_from_capacity P block.capacity)) next rest
    else (region_size, block, next :: rest)

/-- The outer loop of `heap_term` with an iteration budget: the list of calls
`unmap_pages(region, region_size)` it makes, as pairs of address and length. -/
def term_loop (P : Platform) : Nat → List block_header → Outcome (List (Nat × Nat))
  | 0, _ => Outcome.out_of_fuel
  | _ + 1, [] => Outcome.ok []
  | fuel + 1, block :: rest =>
    match term_run P 0 block rest with
    | (region_size, last, rest1) =>
      let total := size_add region_size (size_from_capacity P last.capacity)
      match term_loop P fuel rest1 with
      | Outcome.ok released => Outcome.ok ((block.addr, total) :: released)
      | Outcome.fault => Outcome.fault
      | Outcome.out_of_fuel => Outcome.out_of_fuel

/-- The function `heap_term`: the spans handed to `unmap_pages`, in order.
The walk starts at the constant `HEAP_START`.  When the chain has no header
there (the heap was mapped elsewhere, or not at all), the first `block->next`
is read from memory that is not part of the heap, which is the outcome `fault`:
the walk through whatever else may be mapped at `HEAP_START` is not followed.
The budget of the outer loop is above the length of the chain and is never
exhausted (`term_loop_runs`). -/
def heap_term (P : Platform) (s : heap) : Outcome (List (Nat × Nat)) :=
  if P.HEAP_START = 0 then Outcome.ok []
  else
    match locate P.HEAP_START s.blocks with
    | none => Outcome.fault
    | some (_, chain) => term_loop P (chain.length + 1) chain

/-! ## Concrete heaps used to evaluate the code -/

/-- The answer of an OS that maps at the requested address `a`. -/
def os_at (a : Nat) : mmap_outcome := { noreplace := some a, anywhere := none }

/-- The answer of an OS on which both mapping attempts fail. -/
def os_fail : mmap_outcome := { noreplace := none, anywhere := none }

/-- The heap `heap_init(1024)` leaves on `linux64` when the region is mapped at
`HEAP_START`: one free block that fills a region of two pages. -/
def fresh_heap : heap := (heap_init linux64 1024 (os_at 67371008)).2

/-- A heap of two pages at `HEAP_START`: a free block followed by a used block
of 100 bytes that ends the region. -/
def heap_free_used : heap :=
  { blocks := [{ addr := 67371008, capacity := 8058, is_free := true },
               { addr := 67379083, capacity := 100, is_free := false }],
    mapped := [(67371008, 8192)] }

/-- A heap of two pages at `HEAP_START` whose only block is in use. -/
def heap_one_used : heap :=
  { blocks := [{ addr := 67371008, capacity := 8175, is_free := false }],
    mapped := [(67371008, 8192)] }

/-- The size `try_memalloc_existing` searches for. -/
def adjusted (query : Nat) : Nat :=
  if query < BLOCK_MIN_CAPACITY then BLOCK_MIN_CAPACITY else query

/-! ## The invariant of the heap -/

/-- The byte at address `x` belongs to the block: to its header or to its
payload. -/
def owns (P : Platform) (b : block_header) (x : Nat) : Bool :=
  decide (b.addr ≤ x ∧ x < block_after P b)

/-- Number of headers of the chain whose block holds the byte at `x`. -/
def cover (P : Platform) (l : List block_header) (x : Nat) : Nat :=
  l.countP (fun b => owns P b x)

/-- Sum of the sizes (header and payload) of the blocks of a chain. -/
def total_size (P : Platform) (l : List block_header) : Nat :=
  (l.map (fun b => b.capacity + P.H)).sum

/-- The block lies in the 64-bit address space, above its first 24 bytes. -/
def block_ok (P : Platform) (b : block_header) : Prop :=
  BLOCK_MIN_CAPACITY < b.addr ∧ block_after P b ≤ SIZE_MOD

instance (P : Platform) (b : block_header) : Decidable (block_ok P b) := by
  unfold block_ok
  exact inferInstance

/-- The chain `l1` is a rearrangement of the chain `l` into blocks: its blocks
lie in the address space, every byte is held by as many blocks as before, the
sizes add up to the same total, the headers in use are still there, and the
first header is at the same address. -/
structure Reshaped (P : Platform) (l l1 : List block_header) : Prop where
  ok : ∀ b ∈ l1, block_ok P b
  cover_eq : ∀ x, cover P l1 x = cover P l x
  total_eq : total_size P l1 = total_size P l
  used : ∀ b ∈ l, b.is_free = false → b ∈ l1
  head_eq : l1.head?.map (fun b => b.addr) = l.head?.map (fun b => b.addr)

/-! ## Sequences of calls -/

/-- A call of the public interface after `heap_init`: `_malloc(query)` together
with what the OS answers should the call ask for a region, or `_free(mem)`. -/
inductive call where
  | malloc (query : Nat) (os : mmap_outcome)
  | free (mem : Nat)
deriving DecidableEq, Repr

/-- The heap together with the payload pointers that successful `_malloc` calls
have returned and that have not been freed since. -/
structure session where
  h : heap
  live : List Nat
deriving DecidableEq, Repr

/-- One call.  A non-null pointer returned by `_malloc` becomes live; `_free` of
a live pointer ends its life; `_free` of a pointer that is neither null nor
live is undefined behaviour. -/
def step (P : Platform) (c : call) (st : session) : Outcome session :=
  match c with
  | call.malloc query os =>
    match _malloc P query os st.h with
    | Outcome.ok (p, h1) => Outcome.ok { h := h1, live := if p = 0 then st.live else p :: st.live }
    | Outcome.fault => Outcome.fault
    | Outcome.out_of_fuel => Outcome.out_of_fuel
  | call.free mem =>
    if mem = 0 ∨ mem ∈ st.live then
      match _free P mem st.h with
      | Outcome.ok h1 => Outcome.ok { h := h1, live := st.live.erase mem }
      | Outcome.fault => Outcome.fault
      | Outcome.out_of_fuel => Outcome.out_of_fuel
    else Outcome.fault

/-- A sequence of calls, one after the other. -/
def run (P : Platform) : List call → session → Outcome session
  | [], st => Outcome.ok st
  | c :: cs, st =>
    match step P c st with
    | Outcome.ok st1 => run P cs st1
    | Outcome.fault => Outcome.fault
    | Outcome.out_of_fuel => Outcome.out_of_fuel

/-- The invariant of a heap and its live pointers: every block lies in the
address space, no byte belongs to two blocks, every live pointer is the payload
of a header marked used, no pointer is live twice, and the sizes of the blocks
add up to the sizes of the mappings. -/
structure Inv (P : Platform) (st : session) : Prop where
  ok : ∀ b ∈ st.h.blocks, block_ok P b
  single : ∀ x, cover P st.h.blocks x ≤ 1
  live_used : ∀ p ∈ st.live, ∃ b ∈ st.h.blocks, b.addr + P.H = p ∧ b.is_free = false
  nodup : st.live.Nodup
  total : total_size P st.h.blocks = (st.h.mapped.map Prod.snd).sum

/-- Every address the OS answers leaves room for a region of `size` bytes in the
address space, above its first 24 bytes. -/
def os_sane (size : Nat) (os : mmap_outcome) : Prop :=
  ∀ a, (os.noreplace = some a ∨ os.anywhere = some a) →
    BLOCK_MIN_CAPACITY < a ∧ a + size ≤ SIZE_MOD

/-- The payloads at `a` and `b` are payloads of two headers of the chain marked
used, and their byte ranges `[payload, payload + capacity)` do not meet. -/
def payloads_apart (P : Platform) (l : List block_header) (a b : Nat) : Prop :=
  ∃ ba ∈ l, ∃ bb ∈ l, ba.addr + P.H = a ∧ bb.addr + P.H = b ∧
    ba.is_free = false ∧ bb.is_free = false ∧
    (a + ba.capacity ≤ b ∨ b + bb.capacity ≤ a)

/-- The heap `heap_free_used` with the payload of its used block live. -/
def session_free_used : session := { h := heap_free_used, live := [67379100] }

/-- Two allocations served by splitting the free block, then the release of
the first of them. -/
def calls_split_twice : List call :=
  [call.malloc 100 os_fail, call.malloc 200 os_fail, call.free 67371025]

/-- The session `calls_split_twice` leaves when run on `session_free_used`. -/
def session_after_calls : session :=
  { h := { blocks := [{ addr := 67371008, capacity := 100, is_free := true },
                      { addr := 67371125, capacity := 200, is_free := false },
                      { addr := 67371342, capacity := 7724, is_free := true },
                      { addr := 67379083, capacity := 100, is_free := false }],
           mapped := [(67371008, 8192)] },
    live := [67371142, 67379100] }

/-- A heap of two pages at `HEAP_START`: a free block of 4000 bytes, a used
block of 100 bytes and a free block of 4041 bytes that ends the region; the
payload of the used block is live. -/
def session_free_used_free : session :=
  { h := { blocks := [{ addr := 67371008, capacity := 4000, is_free := true },
                      { addr := 67375025, capacity := 100, is_free := false },
                      { addr := 67375142, capacity := 4041, is_free := true }],
           mapped := [(67371008, 8192)] },
    live := [67375042] }

/-- The session that `_malloc(100)`, which returns the payload 67371025 of the
first block, and the release of the payload 67375042 leave when run on
`session_free_used_free`: the first block is in use and live, and the blocks after
it are free. -/
def session_used_then_free : session :=
  { h := { blocks := [{ addr := 67371008, capacity := 100, is_free := false },
                      { addr := 67371125, capacity := 3883, is_free := true },
                      { addr := 67375025, capacity := 4158, is_free := true }],
           mapped := [(67371008, 8192)] },
    live := [67371025] }

/-! ## Runs of address-contiguous blocks -/

/-- The maximal address-contiguous runs of a chain, in the words of the
specification of teardown: a run goes on while the current and the next block
are address-contiguous and ends at a non-contiguous boundary or at the end of
the list. -/
def runs (P : Platform) : List block_header → List (List block_header)
  | [] => []
  | [b] => [[b]]
  | b :: n :: rest =>
    match runs P (n :: rest) with
    | run :: more =>
      if blocks_continuous P b n then (b :: run) :: more else [b] :: run :: more
    | [] => [[b]]

/-- The span of a run: the address of its first block and the sum of
`size_from_capacity(capacity)` over its blocks. -/
def run_span (P : Platform) (run : List block_header) : Nat × Nat :=
  (match run with
   | [] => 0
   | b :: _ => b.addr,
   (run.map (fun b => size_from_capacity P b.capacity)).sum)

/-- Two address spans, given by base and length, do not meet. -/
def spans_apart (s t : Nat × Nat) : Prop :=
  s.1 + s.2 ≤ t.1 ∨ t.1 + t.2 ≤ s.1

/-- The byte at `x` lies in the span. -/
def in_span (s : Nat × Nat) (x : Nat) : Bool :=
  decide (s.1 ≤ x ∧ x < s.1 + s.2)

/-- The last block of the first run and the first block of the second are not
address-contiguous. -/
def run_boundary (P : Platform) (r1 r2 : List block_header) : Prop :=
  ∃ a b, r1.getLast? = some a ∧ r2.head? = some b ∧ blocks_continuous P a b = false

/-- A heap of two regions of two pages that are not adjacent, each filled by one
used block, with both payloads live. -/
def session_two_regions : session :=
  { h := { blocks := [{ addr := 67371008, capacity := 8175, is_free := false },
                      { addr := 67387392, capacity := 8175, is_free := false }],
           mapped := [(67371008, 8192), (67387392, 8192)] },
    live := [67371025, 67387409] }

/-- The session `_free` of the first payload leaves when run on
`session_two_regions`. -/
def session_two_regions_freed : session :=
  { h := { blocks := [{ addr := 67371008, capacity := 8175, is_free := true },
                      { addr := 67387392, capacity := 8175, is_free := false }],
           mapped := [(67371008, 8192), (67387392, 8192)] },
    live := [67387409] }

/-! ## Properties of a scan -/

/-- The final header of the chain is in use. -/
def last_used (l : List block_header) : Prop :=
  ∃ b, l.getLast? = some b ∧ b.is_free = false

/-- The final header of the chain is free. -/
def last_free (l : List block_header) : Prop :=
  ∃ b, l.getLast? = some b ∧ b.is_free = true

/-- The header `a` has not, in `b`, a successor that is both free and
address-contiguous with it while `a` is free itself. -/
def settled (P : Platform) (a b : block_header) : Prop :=
  mergeable P a b = false

/-- A chain that fills two pages at `HEAP_START`: a used block, two free
neighbours of 100 and 200 bytes, a used block, a free block of 7557 bytes and a
used final block. -/
def chain_two_free : List block_header :=
  [{ addr := 67371008, capacity := 100, is_free := false },
   { addr := 67371125, capacity := 100, is_free := true },
   { addr := 67371242, capacity := 200, is_free := true },
   { addr := 67371459, capacity := 50, is_free := false },
   { addr := 67371526, capacity := 7557, is_free := true },
   { addr := 67379100, capacity := 83, is_free := false }]

/-- Three allocations of 100 bytes served from the free block, then the release
of the second, of the third and of the first. -/
def calls_free_backwards : List call :=
  [call.malloc 100 os_fail, call.malloc 100 os_fail, call.malloc 100 os_fail,
   call.free 67371142, call.free 67371259, call.free 67371025]

/-- The session `calls_free_backwards` leaves when run on `session_free_used`. -/
def session_after_free_backwards : session :=
  { h := { blocks := [{ addr := 67371008, capacity := 217, is_free := true },
                      { addr := 67371242, capacity := 7824, is_free := true },
                      { addr := 67379083, capacity := 100, is_free := false }],
           mapped := [(67371008, 8192)] },
    live := [67379100] }

/-! ## Counting the steps of a scan -/

/-- The loop `while (try_merge_with_next(block));` together with the number of
calls that returned `true`, counted up to the end of the loop or to the
fault. -/
def merge_loop_count (P : Platform) :
    Nat → List block_header → Nat × Outcome (List block_header)
  | 0, _ => (0, Outcome.out_of_fuel)
  | fuel + 1, chain =>
    match try_merge_with_next P chain with
    | Outcome.ok (true, chain1) =>
      ((merge_loop_count P fuel chain1).1 + 1, (merge_loop_count P fuel chain1).2)
    | Outcome.ok (false, chain1) => (0, Outcome.ok chain1)
    | Outcome.fault => (0, Outcome.fault)
    | Outcome.out_of_fuel => (0, Outcome.out_of_fuel)

/-- The counters of a scan: successful merges, and executions of
`block = block->next`. -/
structure scan_steps where
  merges : Nat
  advances : Nat
deriving DecidableEq, Repr

/-- The loop of `find_good_or_last` together with its counters, counted up to
the return or to the fault. -/
def find_loop_count (P : Platform) (sz : Nat) :
    Nat → List block_header → List block_header → scan_steps × Outcome block_search_result
  | 0, _, _ => ({ merges := 0, advances := 0 }, Outcome.out_of_fuel)
  | _ + 1, [], [] =>
    ({ merges := 0, advances := 0 },
      Outcome.ok { type := bsr_type.BSR_REACHED_END_NOT_FOUND, passed := [], block := [] })
  | _ + 1, last_block :: before, [] =>
    ({ merges := 0, advances := 0 },
      Outcome.ok { type := bsr_type.BSR_REACHED_END_NOT_FOUND,
                   passed := before.reverse, block := [last_block] })
  | fuel + 1, passed, block :: rest =>
    match merge_loop_count P (rest.length + 1) (block :: rest) with
    | (m, Outcome.ok []) => ({ merges := m, advances := 0 }, Outcome.fault)
    | (m, Outcome.ok (block1 :: rest1)) =>
      if block1.is_free && block_is_big_enough sz block1 then
        ({ merges := m, advances := 0 },
          Outcome.ok { type := bsr_type.BSR_FOUND_GOOD_BLOCK,
                       passed := passed.reverse, block := block1 :: rest1 })
      else
        ({ merges := m + (find_loop_count P sz fuel (block1 :: passed) rest1).1.merges,
           advances := (find_loop_count P sz fuel (block1 :: passed) rest1).1.advances + 1 },
          (find_loop_count P sz fuel (block1 :: passed) rest1).2)
    | (m, Outcome.fault) => ({ merges := m, advances := 0 }, Outcome.fault)
    | (m, Outcome.out_of_fuel) => ({ merges := m, advances := 0 }, Outcome.out_of_fuel)

/-- The function `find_good_or_last` together with the counters of its
loops. -/
def find_good_or_last_count (P : Platform) (chain : List block_header) (sz : Nat) :
    scan_steps × Outcome block_search_result :=
  match chain with
  | [] => ({ merges := 0, advances := 0 },
      Outcome.ok { type := bsr_type.BSR_CORRUPTED, passed := [], block := [] })
  | _ :: _ => find_loop_count P sz (chain.length + 1) [] chain

/-! ## The size of a region, in the words of the specification -/

/-- The quotient of `x` by `p` rounded up. -/
def ceil_div (x p : Nat) : Nat := (x + p - 1) / p

/-- The mapped size as the specification states it, in unbounded arithmetic:
the header overhead plus the requested bytes, rounded up to a multiple of the
page size, and at least the minimum region size. -/
def spec_region_size (P : Platform) (q : Nat) : Nat :=
  max (ceil_div (q + P.H) P.pagesize * P.pagesize) P.REGION_MIN_SIZE

/-! ## Shape of search results -/

theorem find_loop_found (P : Platform) (sz : Nat) :
    ∀ (fuel : Nat) (passed chain : List block_header) (r : block_search_result),
      find_loop P sz fuel passed chain = Outcome.ok r →
      r.type = bsr_type.BSR_FOUND_GOOD_BLOCK →
      ∃ b rest, r.block = b :: rest ∧ b.is_free = true ∧ sz ≤ b.capacity := by
  intro fuel
  induction fuel with
  | zero => intro passed chain r h; simp [find_loop] at h
  | succ fuel ih =>
    intro passed chain r h ht
    cases chain with
    | nil =>
      cases passed with
      | nil => simp [find_loop] at h; subst h; simp at ht
      | cons l before => simp [find_loop] at h; subst h; simp at ht
    | cons block rest =>
      simp only [find_loop] at h
      split at h
      · simp at h
      · rename_i block1 rest1 hm
        split at h
        · rename_i hgood
          simp at h; subst h
          simp [block_is_big_enough] at hgood
          exact ⟨block1, rest1, rfl, hgood.1, hgood.2⟩
        · exact ih _ _ _ h ht
      · simp at h
      · simp at h

theorem find_loop_end (P : Platform) (sz : Nat) :
    ∀ (fuel : Nat) (passed chain : List block_header) (r : block_search_result),
      find_loop P sz fuel passed chain = Outcome.ok r →
      r.type = bsr_type.BSR_REACHED_END_NOT_FOUND →
      (passed ≠ [] ∨ chain ≠ []) →
      ∃ last, r.block = [last] := by
  intro fuel
  induction fuel with
  | zero => intro passed chain r h; simp [find_loop] at h
  | succ fuel ih =>
    intro passed chain r h ht hne
    cases chain with
    | nil =>
      cases passed with
      | nil => simp at hne
      | cons l before => simp [find_loop] at h; subst h; exact ⟨l, rfl⟩
    | cons block rest =>
      simp only [find_loop] at h
      split at h
      · simp at h
      · rename_i block1 rest1 hm
        split at h
        · simp at h; subst h; simp at ht
        · exact ih _ _ _ h ht (Or.inl (by simp))
      · simp at h
      · simp at h

/-! ## The iteration budgets are never exhausted -/

theorem try_merge_with_next_length (P : Platform) (chain chain1 : List block_header)
    (flag : Bool) (h : try_merge_with_next P chain = Outcome.ok (flag, chain1)) :
    chain1 ≠ [] ∧ (flag = true → chain1.length + 1 = chain.length) ∧
      (flag = false → chain1 = chain) := by
  match chain, h with
  | [], h => simp [try_merge_with_next] at h
  | [block], h =>
    simp only [try_merge_with_next] at h
    split at h
    · simp at h
    · simp only [Outcome.ok.injEq, Prod.mk.injEq] at h
      obtain ⟨hf, hc⟩ := h
      subst hf; subst hc
      simp
  | block :: next :: rest, h =>
    simp only [try_merge_with_next] at h
    split at h
    · simp only [Outcome.ok.injEq, Prod.mk.injEq] at h
      obtain ⟨hf, hc⟩ := h
      subst hf; subst hc
      simp
    · simp only [Outcome.ok.injEq, Prod.mk.injEq] at h
      obtain ⟨hf, hc⟩ := h
      subst hf; subst hc
      simp

theorem try_merge_with_next_fuel (P : Platform) (chain : List block_header) :
    try_merge_with_next P chain ≠ Outcome.out_of_fuel := by
  match chain with
  | [] => simp [try_merge_with_next]
  | [block] => simp only [try_merge_with_next]; split <;> simp
  | block :: next :: rest => simp only [try_merge_with_next]; split <;> simp

theorem merge_loop_fuel (P : Platform) :
    ∀ (fuel : Nat) (chain : List block_header), chain ≠ [] → chain.length ≤ fuel →
      merge_loop P fuel chain ≠ Outcome.out_of_fuel ∧
      ∀ chain1, merge_loop P fuel chain = Outcome.ok chain1 →
        chain1 ≠ [] ∧ chain1.length ≤ chain.length := by
  intro fuel
  induction fuel with
  | zero =>
    intro chain hne hlen
    cases chain with
    | nil => exact absurd rfl hne
    | cons b rest => simp at hlen
  | succ fuel ih =>
    intro chain hne hlen
    simp only [merge_loop]
    cases hm : try_merge_with_next P chain with
    | ok res =>
      obtain ⟨flag, chain1⟩ := res
      obtain ⟨h1, h2, h3⟩ := try_merge_with_next_length P chain chain1 flag hm
      cases flag with
      | true =>
        have hl := h2 rfl
        obtain ⟨i1, i2⟩ := ih chain1 h1 (by omega)
        refine ⟨i1, ?_⟩
        intro chain2 hc2
        obtain ⟨j1, j2⟩ := i2 chain2 hc2
        exact ⟨j1, by omega⟩
      | false =>
        have := h3 rfl
        subst this
        refine ⟨by simp, ?_⟩
        intro chain2 hc2
        simp only [Outcome.ok.injEq] at hc2
        subst hc2
        exact ⟨hne, le_refl _⟩
    | fault => simp
    | out_of_fuel => exact absurd hm (try_merge_with_next_fuel P chain)

theorem find_loop_fuel (P : Platform) (sz : Nat) :
    ∀ (fuel : Nat) (passed chain : List block_header), chain.length < fuel →
      find_loop P sz fuel passed chain ≠ Outcome.out_of_fuel := by
  intro fuel
  induction fuel with
  | zero => intro passed chain h; omega
  | succ fuel ih =>
    intro passed chain hlen
    cases chain with
    | nil =>
      cases passed with
      | nil => simp [find_loop]
      | cons l before => simp [find_loop]
    | cons block rest =>
      simp only [find_loop]
      obtain ⟨m1, m2⟩ := merge_loop_fuel P (rest.length + 1) (block :: rest) (by simp)
        (by simp)
      cases hm : merge_loop P (rest.length + 1) (block :: rest) with
      | ok chain1 =>
        obtain ⟨n1, n2⟩ := m2 chain1 hm
        cases chain1 with
        | nil => exact absurd rfl n1
        | cons block1 rest1 =>
          simp only
          split
          · simp
          · apply ih
            simp only [List.length_cons] at hlen n2
            omega
      | fault => simp
      | out_of_fuel => exact absurd hm m1

/-- The search always ends within its budget: `find_good_or_last` returns a
result or faults. -/
theorem find_good_or_last_fuel (P : Platform) (sz : Nat) (chain : List block_header) :
    find_good_or_last P chain sz ≠ Outcome.out_of_fuel := by
  cases chain with
  | nil => simp [find_good_or_last]
  | cons b rest => exact find_loop_fuel P sz _ [] (b :: rest) (Nat.lt_succ_self _)

theorem find_good_or_last_found (P : Platform) (sz : Nat) (chain : List block_header)
    (r : block_search_result) (h : find_good_or_last P chain sz = Outcome.ok r)
    (ht : r.type = bsr_type.BSR_FOUND_GOOD_BLOCK) :
    ∃ b rest, r.block = b :: rest ∧ b.is_free = true ∧ sz ≤ b.capacity := by
  cases chain with
  | nil => simp [find_good_or_last] at h; subst h; simp at ht
  | cons b rest => exact find_loop_found P sz _ _ _ r h ht

theorem find_good_or_last_end (P : Platform) (sz : Nat) (chain : List block_header)
    (r : block_search_result) (h : find_good_or_last P chain sz = Outcome.ok r)
    (ht : r.type = bsr_type.BSR_REACHED_END_NOT_FOUND) :
    ∃ last, r.block = [last] := by
  cases chain with
  | nil => simp [find_good_or_last] at h; subst h; simp at ht
  | cons b rest => exact find_loop_end P sz _ _ _ r h ht (Or.inr (by simp))

theorem adjusted_ge (query : Nat) : query ≤ adjusted query ∧ BLOCK_MIN_CAPACITY ≤ adjusted query := by
  unfold adjusted
  split <;> constructor <;> omega

/-- The function `try_memalloc_existing` with the call of `split_if_too_big` unfolded. -/
theorem try_memalloc_existing_eq (P : Platform) (query : Nat) (chain : List block_header) :
    try_memalloc_existing P query chain =
      match find_good_or_last P chain (adjusted query) with
      | Outcome.ok result =>
        if result.type = bsr_type.BSR_FOUND_GOOD_BLOCK then
          match result.block with
          | [] => Outcome.fault
          | b :: rest =>
            if block_splittable P b (adjusted query) then
              Outcome.ok { result with
                block := { addr := b.addr, capacity := adjusted query, is_free := false } ::
                  block_init P (b.addr + P.H + adjusted query)
                    (size_sub b.capacity (adjusted query)) :: rest }
            else Outcome.ok { result with block := { b with is_free := false } :: rest }
        else Outcome.ok result
      | Outcome.fault => Outcome.fault
      | Outcome.out_of_fuel => Outcome.out_of_fuel := by
  simp only [try_memalloc_existing, adjusted]
  cases hf : find_good_or_last P chain
      (if query < BLOCK_MIN_CAPACITY then BLOCK_MIN_CAPACITY else query) with
  | ok result =>
    simp only
    by_cases hty : result.type = bsr_type.BSR_FOUND_GOOD_BLOCK
    · simp only [hty, if_true]
      cases hb : result.block with
      | nil => simp [split_if_too_big]
      | cons b rest =>
        simp only [split_if_too_big]
        by_cases hs : block_splittable P b
            (if query < BLOCK_MIN_CAPACITY then BLOCK_MIN_CAPACITY else query) = true
        · simp [hs]
        · simp [hs]
    · simp [hty]
  | fault => simp
  | out_of_fuel => simp

theorem try_memalloc_existing_fuel (P : Platform) (query : Nat) (chain : List block_header) :
    try_memalloc_existing P query chain ≠ Outcome.out_of_fuel := by
  rw [try_memalloc_existing_eq]
  cases hf : find_good_or_last P chain (adjusted query) with
  | ok result =>
    simp only
    split
    · split
      · simp
      · split <;> simp
    · simp
  | fault => simp
  | out_of_fuel => exact absurd hf (find_good_or_last_fuel P _ chain)

theorem grow_heap_fuel (P : Platform) (query : Nat) (os : mmap_outcome)
    (l : List block_header) : grow_heap P query os l ≠ Outcome.out_of_fuel := by
  cases l with
  | nil => simp [grow_heap]
  | cons last rest =>
    simp only [grow_heap]
    split
    · simp
    · split
      · split
        · simp
        · simp
        · simp
        · rename_i hm
          exact absurd hm (try_merge_with_next_fuel P _)
      · simp

theorem memalloc_fuel (P : Platform) (query : Nat) (os : mmap_outcome) (heap_start : Nat)
    (chain : List block_header) :
    memalloc P query os heap_start chain ≠ Outcome.out_of_fuel := by
  simp only [memalloc]
  split
  · simp
  · split
    · split
      · split
        · simp
        · split
          · split
            · simp
            · split
              · split <;> simp
              · simp
              · rename_i hm
                exact absurd hm (try_memalloc_existing_fuel P _ _)
          · simp
          · rename_i hm
            exact absurd hm (grow_heap_fuel P _ _ _)
      · simp
    · simp
    · rename_i hm
      exact absurd hm (try_memalloc_existing_fuel P _ _)

/-- The allocation always ends within the budgets of its loops: `_malloc` returns
or faults. -/
theorem malloc_fuel (P : Platform) (query : Nat) (os : mmap_outcome) (s : heap) :
    _malloc P query os s ≠ Outcome.out_of_fuel := by
  simp only [_malloc]
  split
  · simp
  · split
    · simp
    · split
      · split <;> simp
      · simp
      · rename_i hm
        exact absurd hm (memalloc_fuel P _ _ _ _)

/-- The release always ends: `_free` returns or faults. -/
theorem free_fuel (P : Platform) (mem : Nat) (s : heap) :
    _free P mem s ≠ Outcome.out_of_fuel := by
  simp only [_free]
  split
  · simp
  · split
    · simp
    · split
      · simp
      · simp
      · split
        · simp
        · simp
        · rename_i hm
          exact absurd hm (try_merge_with_next_fuel P _)

theorem try_memalloc_existing_found (P : Platform) (query : Nat) (chain : List block_header)
    (r : block_search_result) (h : try_memalloc_existing P query chain = Outcome.ok r)
    (ht : r.type = bsr_type.BSR_FOUND_GOOD_BLOCK) :
    ∃ b rest, r.block = b :: rest ∧ b.is_free = false ∧ adjusted query ≤ b.capacity := by
  rw [try_memalloc_existing_eq] at h
  cases hf : find_good_or_last P chain (adjusted query) with
  | ok result =>
    rw [hf] at h
    simp only at h
    by_cases hty : result.type = bsr_type.BSR_FOUND_GOOD_BLOCK
    · obtain ⟨b, rest, hb, _, hcap⟩ := find_good_or_last_found P _ chain result hf hty
      simp only [hty, if_true, hb] at h
      by_cases hs : block_splittable P b (adjusted query) = true
      · simp only [hs, if_true, Outcome.ok.injEq] at h
        subst h
        exact ⟨_, _, rfl, rfl, le_refl _⟩
      · simp only [hs, Bool.false_eq_true, if_false, Outcome.ok.injEq] at h
        subst h
        exact ⟨_, _, rfl, rfl, hcap⟩
    · simp only [hty, if_false, Outcome.ok.injEq] at h
      subst h
      contradiction
  | fault => rw [hf] at h; simp at h
  | out_of_fuel => rw [hf] at h; simp at h

theorem try_memalloc_existing_end (P : Platform) (query : Nat) (chain : List block_header)
    (r : block_search_result) (h : try_memalloc_existing P query chain = Outcome.ok r)
    (ht : r.type = bsr_type.BSR_REACHED_END_NOT_FOUND) :
    find_good_or_last P chain (adjusted query) = Outcome.ok r ∧ ∃ last, r.block = [last] := by
  rw [try_memalloc_existing_eq] at h
  cases hf : find_good_or_last P chain (adjusted query) with
  | ok result =>
    rw [hf] at h
    simp only at h
    by_cases hty : result.type = bsr_type.BSR_FOUND_GOOD_BLOCK
    · simp only [hty, if_true] at h
      cases hb : result.block with
      | nil => rw [hb] at h; simp at h
      | cons b rest =>
        rw [hb] at h
        simp only at h
        by_cases hs : block_splittable P b (adjusted query) = true
        · simp only [hs, if_true, Outcome.ok.injEq] at h
          subst h
          simp [hty] at ht
        · simp only [hs, Bool.false_eq_true, if_false, Outcome.ok.injEq] at h
          subst h
          simp [hty] at ht
    · simp only [hty, if_false, Outcome.ok.injEq] at h
      subst h
      exact ⟨rfl, find_good_or_last_end P _ chain result hf ht⟩
  | fault => rw [hf] at h; simp at h
  | out_of_fuel => rw [hf] at h; simp at h

theorem memalloc_block (P : Platform) (query : Nat) (os : mmap_outcome) (heap_start : Nat)
    (chain : List block_header) (r : alloc_result)
    (h : memalloc P query os heap_start chain = Outcome.ok r) (b : block_header)
    (rest : List block_header) (hb : r.block = b :: rest) :
    b.is_free = false ∧ adjusted query ≤ b.capacity := by
  simp only [memalloc] at h
  split at h
  · simp at h; subst h; simp at hb
  · split at h
    · rename_i res hres
      split at h
      · split at h
        · rename_i hty
          simp at h; subst h
          obtain ⟨b1, rest1, hb1, hfree, hcap⟩ :=
            try_memalloc_existing_found P query chain res hres hty
          simp only at hb
          rw [hb1] at hb
          cases hb
          exact ⟨hfree, hcap⟩
        · split at h
          · rename_i growed hg
            split at h
            · simp at h; subst h; simp at hb
            · rename_i gb grest hgb
              split at h
              · rename_i res2 hres2
                split at h
                · rename_i hty2
                  simp at h; subst h
                  obtain ⟨b1, rest1, hb1, hfree, hcap⟩ :=
                    try_memalloc_existing_found P query _ res2 hres2 hty2
                  simp only at hb
                  rw [hb1] at hb
                  cases hb
                  exact ⟨hfree, hcap⟩
                · simp at h; subst h; simp at hb
              · simp at h
              · simp at h
          · simp at h
          · simp at h
      · simp at h; subst h; simp at hb
    · simp at h
    · simp at h

/-! ## Rearrangements of a chain -/

theorem cover_append (P : Platform) (l1 l2 : List block_header) (x : Nat) :
    cover P (l1 ++ l2) x = cover P l1 x + cover P l2 x := by
  simp [cover, List.countP_append]

theorem cover_cons (P : Platform) (b : block_header) (l : List block_header) (x : Nat) :
    cover P (b :: l) x = cover P l x + (if owns P b x then 1 else 0) := by
  simp [cover, List.countP_cons]

theorem cover_nil (P : Platform) (x : Nat) : cover P [] x = 0 := rfl

theorem cover_reverse (P : Platform) (l : List block_header) (x : Nat) :
    cover P l.reverse x = cover P l x := by
  simp [cover]

theorem total_size_append (P : Platform) (l1 l2 : List block_header) :
    total_size P (l1 ++ l2) = total_size P l1 + total_size P l2 := by
  simp [total_size]

theorem total_size_cons (P : Platform) (b : block_header) (l : List block_header) :
    total_size P (b :: l) = b.capacity + P.H + total_size P l := by
  simp [total_size]

theorem Reshaped.refl (P : Platform) (l : List block_header) (h : ∀ b ∈ l, block_ok P b) :
    Reshaped P l l :=
  ⟨h, fun _ => rfl, rfl, fun _ hb _ => hb, rfl⟩

theorem Reshaped.trans {P : Platform} {l l1 l2 : List block_header}
    (h1 : Reshaped P l l1) (h2 : Reshaped P l1 l2) : Reshaped P l l2 :=
  ⟨h2.ok, fun x => (h2.cover_eq x).trans (h1.cover_eq x), h2.total_eq.trans h1.total_eq,
    fun b hb hf => h2.used b (h1.used b hb hf) hf, h2.head_eq.trans h1.head_eq⟩

theorem Reshaped.append_left {P : Platform} {l l1 : List block_header}
    (before : List block_header) (hb : ∀ b ∈ before, block_ok P b) (h : Reshaped P l l1) :
    Reshaped P (before ++ l) (before ++ l1) := by
  refine ⟨?_, ?_, ?_, ?_, ?_⟩
  · intro b hmem
    rcases List.mem_append.1 hmem with h1 | h1
    · exact hb b h1
    · exact h.ok b h1
  · intro x
    rw [cover_append, cover_append, h.cover_eq]
  · rw [total_size_append, total_size_append, h.total_eq]
  · intro b hmem hf
    rcases List.mem_append.1 hmem with h1 | h1
    · exact List.mem_append.2 (Or.inl h1)
    · exact List.mem_append.2 (Or.inr (h.used b h1 hf))
  · cases before with
    | nil => simpa using h.head_eq
    | cons c cs => rfl

theorem try_merge_with_next_reshaped (P : Platform) (chain chain1 : List block_header)
    (flag : Bool) (hok : ∀ b ∈ chain, block_ok P b)
    (h : try_merge_with_next P chain = Outcome.ok (flag, chain1)) :
    Reshaped P chain chain1 ∧ (flag = true → chain1.length < chain.length) ∧
      (flag = false → chain1 = chain) := by
  match chain, h, hok with
  | [], h, _ => simp [try_merge_with_next] at h
  | [block], h, hok =>
    simp only [try_merge_with_next] at h
    split at h
    · simp at h
    · simp only [Outcome.ok.injEq, Prod.mk.injEq] at h
      obtain ⟨hf, hc⟩ := h
      subst hf; subst hc
      exact ⟨Reshaped.refl P _ hok, by simp, by simp⟩
  | block :: next :: rest, h, hok =>
    simp only [try_merge_with_next] at h
    split at h
    · rename_i hm
      simp only [Outcome.ok.injEq, Prod.mk.injEq] at h
      obtain ⟨hf, hc⟩ := h
      subst hf; subst hc
      simp only [mergeable, blocks_continuous, Bool.and_eq_true, beq_iff_eq] at hm
      obtain ⟨⟨hbf, hnf⟩, hcont⟩ := hm
      have hb := hok block (by simp)
      have hn := hok next (by simp)
      simp only [block_ok, block_after, BLOCK_MIN_CAPACITY, SIZE_MOD] at hb hn
      simp only [block_after] at hcont
      have hcap : (block_init P block.addr
          (size_from_capacity P (size_add block.capacity
            (size_from_capacity P next.capacity)))).capacity =
          block.capacity + next.capacity + P.H := by
        simp only [block_init, capacity_from_size, size_from_capacity, size_add, size_sub,
          SIZE_MOD]
        omega
      refine ⟨⟨?_, ?_, ?_, ?_, ?_⟩, by simp, by simp⟩
      · intro b hmem
        rcases List.mem_cons.1 hmem with h1 | h1
        · subst h1
          simp only [block_ok, block_after, BLOCK_MIN_CAPACITY, SIZE_MOD, hcap]
          simp only [block_init]
          omega
        · exact hok b (by simp [h1])
      · intro x
        simp only [cover_cons, owns, block_after, hcap]
        simp only [block_init]
        simp only [decide_eq_true_eq]
        split_ifs <;> omega
      · simp only [total_size_cons, hcap]
        omega
      · intro b hmem hf
        rcases List.mem_cons.1 hmem with h1 | h1
        · subst h1; simp [hbf] at hf
        · rcases List.mem_cons.1 h1 with h2 | h2
          · subst h2; simp [hnf] at hf
          · simp [h2]
      · simp [block_init]
    · simp only [Outcome.ok.injEq, Prod.mk.injEq] at h
      obtain ⟨hf, hc⟩ := h
      subst hf; subst hc
      exact ⟨Reshaped.refl P _ hok, by simp, by simp⟩

theorem merge_loop_reshaped (P : Platform) :
    ∀ (fuel : Nat) (chain chain1 : List block_header), (∀ b ∈ chain, block_ok P b) →
      merge_loop P fuel chain = Outcome.ok chain1 → Reshaped P chain chain1 := by
  intro fuel
  induction fuel with
  | zero => intro chain chain1 _ h; simp [merge_loop] at h
  | succ fuel ih =>
    intro chain chain1 hok h
    simp only [merge_loop] at h
    split at h
    · rename_i chain2 hm
      have h2 := (try_merge_with_next_reshaped P chain chain2 true hok hm).1
      exact h2.trans (ih chain2 chain1 h2.ok h)
    · rename_i chain2 hm
      simp only [Outcome.ok.injEq] at h
      subst h
      exact (try_merge_with_next_reshaped P chain chain2 false hok hm).1
    · simp at h
    · simp at h

theorem find_loop_reshaped (P : Platform) (sz : Nat) :
    ∀ (fuel : Nat) (passed chain : List block_header) (r : block_search_result),
      (∀ b ∈ passed, block_ok P b) → (∀ b ∈ chain, block_ok P b) →
      find_loop P sz fuel passed chain = Outcome.ok r →
      Reshaped P (passed.reverse ++ chain) (r.passed ++ r.block) := by
  intro fuel
  induction fuel with
  | zero => intro passed chain r _ _ h; simp [find_loop] at h
  | succ fuel ih =>
    intro passed chain r hp hc h
    have hrev : ∀ b ∈ passed.reverse, block_ok P b := fun b hb => hp b (List.mem_reverse.1 hb)
    cases chain with
    | nil =>
      cases passed with
      | nil =>
        simp only [find_loop, Outcome.ok.injEq] at h
        subst h
        exact Reshaped.refl P _ (by simp)
      | cons l before =>
        simp only [find_loop, Outcome.ok.injEq] at h
        subst h
        have : (l :: before).reverse ++ [] = before.reverse ++ [l] := by simp
        rw [this]
        exact Reshaped.refl P _ (by
          intro b hb
          apply hp
          simpa [or_comm] using hb)
    | cons block rest =>
      simp only [find_loop] at h
      split at h
      · simp at h
      · rename_i block1 rest1 hm
        have hr := merge_loop_reshaped P _ _ _ hc hm
        split at h
        · simp only [Outcome.ok.injEq] at h
          subst h
          exact Reshaped.append_left _ hrev hr
        · have hp1 : ∀ b ∈ block1 :: passed, block_ok P b := by
            intro b hb
            rcases List.mem_cons.1 hb with h1 | h1
            · subst h1; exact hr.ok _ (by simp)
            · exact hp b h1
          have hc1 : ∀ b ∈ rest1, block_ok P b := fun b hb => hr.ok b (by simp [hb])
          have h2 := ih (block1 :: passed) rest1 r hp1 hc1 h
          have h1 := Reshaped.append_left passed.reverse hrev hr
          have e : (block1 :: passed).reverse ++ rest1 = passed.reverse ++ block1 :: rest1 := by
            simp
          rw [e] at h2
          exact h1.trans h2
      · simp at h
      · simp at h

theorem find_good_or_last_reshaped (P : Platform) (sz : Nat) (chain : List block_header)
    (r : block_search_result) (hok : ∀ b ∈ chain, block_ok P b)
    (h : find_good_or_last P chain sz = Outcome.ok r) :
    Reshaped P chain (r.passed ++ r.block) := by
  cases chain with
  | nil =>
    simp only [find_good_or_last, Outcome.ok.injEq] at h
    subst h
    exact Reshaped.refl P _ (by simp)
  | cons b rest =>
    have := find_loop_reshaped P sz _ [] (b :: rest) r (by simp) hok h
    simpa using this

theorem split_reshaped (P : Platform) (b : block_header) (rest : List block_header) (q : Nat)
    (hok : ∀ x ∈ b :: rest, block_ok P x) (hq : q ≤ b.capacity)
    (hs : block_splittable P b q = true) :
    Reshaped P (b :: rest)
      ({ addr := b.addr, capacity := q, is_free := true } ::
        block_init P (b.addr + P.H + q) (size_sub b.capacity q) :: rest) := by
  have hb := hok b (by simp)
  simp only [block_ok, block_after, BLOCK_MIN_CAPACITY, SIZE_MOD] at hb
  simp only [block_splittable, Bool.and_eq_true, decide_eq_true_eq, size_add, SIZE_MOD,
    BLOCK_MIN_CAPACITY] at hs
  obtain ⟨hfree, hs⟩ := hs
  have hs1 : q + P.H + 24 ≤ b.capacity := by omega
  have hcap : (block_init P (b.addr + P.H + q) (size_sub b.capacity q)).capacity =
      b.capacity - q - P.H := by
    simp only [block_init, capacity_from_size, size_sub, SIZE_MOD]
    omega
  have haddr : (block_init P (b.addr + P.H + q) (size_sub b.capacity q)).addr =
      b.addr + P.H + q := rfl
  refine ⟨?_, ?_, ?_, ?_, ?_⟩
  · intro x hmem
    rcases List.mem_cons.1 hmem with h1 | h1
    · subst h1
      simp only [block_ok, block_after, BLOCK_MIN_CAPACITY, SIZE_MOD]
      omega
    · rcases List.mem_cons.1 h1 with h2 | h2
      · subst h2
        simp only [block_ok, block_after, BLOCK_MIN_CAPACITY, SIZE_MOD, hcap, haddr]
        omega
      · exact hok x (by simp [h2])
  · intro x
    simp only [cover_cons, owns, block_after, hcap, haddr, decide_eq_true_eq]
    split_ifs <;> omega
  · simp only [total_size_cons, hcap]
    omega
  · intro x hmem hf
    rcases List.mem_cons.1 hmem with h1 | h1
    · subst h1; simp [hfree] at hf
    · simp [h1]
  · rfl

theorem try_memalloc_existing_reshaped (P : Platform) (query : Nat)
    (chain : List block_header) (r : block_search_result)
    (hok : ∀ b ∈ chain, block_ok P b)
    (h : try_memalloc_existing P query chain = Outcome.ok r) :
    (r.type = bsr_type.BSR_FOUND_GOOD_BLOCK →
      ∃ b1 rest, r.block = { b1 with is_free := false } :: rest ∧ b1.is_free = true ∧
        adjusted query ≤ b1.capacity ∧ Reshaped P chain (r.passed ++ b1 :: rest)) ∧
    (r.type ≠ bsr_type.BSR_FOUND_GOOD_BLOCK → Reshaped P chain (r.passed ++ r.block)) := by
  rw [try_memalloc_existing_eq] at h
  cases hf : find_good_or_last P chain (adjusted query) with
  | ok result =>
    rw [hf] at h
    simp only at h
    have hr := find_good_or_last_reshaped P _ chain result hok hf
    by_cases hty : result.type = bsr_type.BSR_FOUND_GOOD_BLOCK
    · obtain ⟨b, rest, hb, hfree, hcap⟩ := find_good_or_last_found P _ chain result hf hty
      simp only [hty, if_true, hb] at h
      rw [hb] at hr
      have hokb : ∀ x ∈ b :: rest, block_ok P x :=
        fun x hx => hr.ok x (List.mem_append.2 (Or.inr hx))
      have hokp : ∀ x ∈ result.passed, block_ok P x :=
        fun x hx => hr.ok x (List.mem_append.2 (Or.inl hx))
      by_cases hs : block_splittable P b (adjusted query) = true
      · simp only [hs, if_true, Outcome.ok.injEq] at h
        subst h
        refine ⟨fun _ => ⟨{ addr := b.addr, capacity := adjusted query, is_free := true }, _,
          rfl, rfl, le_refl _, ?_⟩, fun hne => absurd rfl hne⟩
        exact hr.trans (Reshaped.append_left _ hokp (split_reshaped P b rest _ hokb hcap hs))
      · simp only [hs, Bool.false_eq_true, if_false, Outcome.ok.injEq] at h
        subst h
        refine ⟨fun _ => ⟨b, rest, rfl, hfree, hcap, hr⟩, fun hne => absurd rfl hne⟩
    · simp only [hty, if_false, Outcome.ok.injEq] at h
      subst h
      exact ⟨fun ht => absurd ht hty, fun _ => hr⟩
  | fault => rw [hf] at h; simp at h
  | out_of_fuel => rw [hf] at h; simp at h

/-! ## Allocation and release keep the invariant -/

theorem locate_some (a : Nat) :
    ∀ (l before chain : List block_header), locate a l = some (before, chain) →
      l = before ++ chain ∧ (∀ x ∈ before, x.addr ≠ a) ∧
        ∃ b rest, chain = b :: rest ∧ b.addr = a := by
  intro l
  induction l with
  | nil => intro before chain h; simp [locate] at h
  | cons c cs ih =>
    intro before chain h
    simp only [locate] at h
    split at h
    · rename_i hc
      simp only [Option.some.injEq, Prod.mk.injEq] at h
      obtain ⟨h1, h2⟩ := h
      subst h1; subst h2
      exact ⟨rfl, by simp, c, cs, rfl, hc⟩
    · rename_i hc
      split at h
      · rename_i before1 chain1 hl
        simp only [Option.some.injEq, Prod.mk.injEq] at h
        obtain ⟨h1, h2⟩ := h
        subst h1; subst h2
        obtain ⟨e, hb, hx⟩ := ih _ _ hl
        refine ⟨by rw [e]; rfl, ?_, hx⟩
        intro x hx1
        rcases List.mem_cons.1 hx1 with h3 | h3
        · subst h3; exact hc
        · exact hb x h3
      · simp at h

theorem scan_of_single_free_faults (P : Platform) (query : Nat) (b : block_header)
    (hb : b.is_free = true) : try_memalloc_existing P query [b] = Outcome.fault := by
  simp [try_memalloc_existing, find_good_or_last, find_loop, merge_loop,
    try_merge_with_next, hb]

theorem grow_heap_cases (P : Platform) (query : Nat) (os : mmap_outcome)
    (l : List block_header) (g : alloc_result)
    (h : grow_heap P query os l = Outcome.ok g) :
    (g.block = [] ∧ g.passed = l ∧ g.acquired = []) ∨
      ∃ b, g.block = [b] ∧ b.is_free = true := by
  cases l with
  | nil => simp [grow_heap] at h
  | cons last rest =>
    simp only [grow_heap] at h
    split at h
    · simp only [Outcome.ok.injEq] at h
      subst h
      exact Or.inl ⟨rfl, rfl, rfl⟩
    · split at h
      · simp only [try_merge_with_next] at h
        split at h
        · rename_i chain hm
          simp only [Outcome.ok.injEq] at h
          subst h
          split at hm
          · simp only [Outcome.ok.injEq, Prod.mk.injEq, true_and] at hm
            subst hm
            exact Or.inr ⟨_, rfl, rfl⟩
          · simp at hm
        · simp only [Outcome.ok.injEq] at h
          subst h
          exact Or.inr ⟨_, rfl, rfl⟩
        · simp at h
        · simp at h
      · simp only [Outcome.ok.injEq] at h
        subst h
        exact Or.inr ⟨_, rfl, rfl⟩

/-- A `memalloc` that returns has either found its block in the first scan, or
has failed to obtain a region: after a region has been obtained the second scan
starts at a free header without a successor and reads through its null
`next`. -/
theorem memalloc_cases (P : Platform) (query : Nat) (os : mmap_outcome) (heap_start : Nat)
    (chain : List block_header) (r : alloc_result) (h0 : heap_start ≠ 0)
    (hok : ∀ b ∈ chain, block_ok P b)
    (h : memalloc P query os heap_start chain = Outcome.ok r) :
    r.acquired = [] ∧
    ((∃ b1 rest, r.block = { b1 with is_free := false } :: rest ∧ b1.is_free = true ∧
        adjusted query ≤ b1.capacity ∧ Reshaped P chain (r.passed ++ b1 :: rest)) ∨
      (r.block = [] ∧ Reshaped P chain r.passed)) := by
  simp only [memalloc, h0, if_false] at h
  split at h
  · rename_i res hres
    have hr := try_memalloc_existing_reshaped P query chain res hok hres
    split at h
    · rename_i hnc
      split at h
      · rename_i hty
        simp only [Outcome.ok.injEq] at h
        subst h
        exact ⟨rfl, Or.inl (hr.1 hty)⟩
      · rename_i hty
        have hre := hr.2 hty
        split at h
        · rename_i growed hg
          rcases grow_heap_cases P query os res.block growed hg with ⟨g1, g2, g3⟩ | ⟨b, g1, g2⟩
          · rw [g1] at h
            simp only [Outcome.ok.injEq] at h
            subst h
            refine ⟨g3, Or.inr ⟨rfl, ?_⟩⟩
            simp only [g2]
            exact hre
          · rw [g1] at h
            simp only [scan_of_single_free_faults P query b g2] at h
            simp at h
        · simp at h
        · simp at h
    · simp only [Outcome.ok.injEq] at h
      subst h
      rename_i hc
      refine ⟨rfl, Or.inr ⟨rfl, ?_⟩⟩
      apply hr.2
      intro hf
      simp only [ne_eq, Decidable.not_not] at hc
      rw [hc] at hf
      cases hf
  · simp at h
  · simp at h

theorem cover_pos_of_mem (P : Platform) (l : List block_header) (b : block_header) (x : Nat)
    (hb : b ∈ l) (hx : owns P b x = true) : 1 ≤ cover P l x := by
  have : 0 < List.countP (fun b => owns P b x) l := List.countP_pos_iff.2 ⟨b, hb, hx⟩
  exact this

theorem owns_own_addr (P : Platform) (hH : 0 < P.H) (b : block_header) :
    owns P b b.addr = true := by
  simp only [owns, block_after, decide_eq_true_eq]
  omega

/-- Two different headers of a chain in which no byte belongs to two blocks do
not hold a common byte. -/
theorem blocks_apart (P : Platform) (hH : 0 < P.H) :
    ∀ (l : List block_header), (∀ x, cover P l x ≤ 1) →
      ∀ a ∈ l, ∀ b ∈ l, a ≠ b → block_after P a ≤ b.addr ∨ block_after P b ≤ a.addr := by
  intro l
  induction l with
  | nil => intro _ a ha; simp at ha
  | cons c cs ih =>
    intro hs a ha b hb hne
    have hcs : ∀ x, cover P cs x ≤ 1 := by
      intro x
      have := hs x
      rw [cover_cons] at this
      omega
    have key : ∀ d ∈ cs, block_after P c ≤ d.addr ∨ block_after P d ≤ c.addr := by
      intro d hd
      by_contra hcon
      have h1 : owns P c (max c.addr d.addr) = true := by
        simp only [owns, block_after, decide_eq_true_eq] at *
        omega
      have h2 : owns P d (max c.addr d.addr) = true := by
        simp only [owns, block_after, decide_eq_true_eq] at *
        omega
      have h3 := cover_pos_of_mem P cs d _ hd h2
      have h4 := hs (max c.addr d.addr)
      rw [cover_cons, h1] at h4
      simp at h4
      omega
    rcases List.mem_cons.1 ha with h1 | h1 <;> rcases List.mem_cons.1 hb with h2 | h2
    · exact absurd (h1.trans h2.symm) hne
    · subst h1; exact key b h2
    · subst h2; exact (key a h1).symm
    · exact ih hcs a h1 b h2 hne

theorem inv_live_apart (P : Platform) (hH : 0 < P.H) (st : session) (hinv : Inv P st) :
    st.live.Pairwise (payloads_apart P st.h.blocks) := by
  apply hinv.nodup.pairwise_of_forall_ne
  intro a ha b hb hne
  obtain ⟨ba, hba, ea, fa⟩ := hinv.live_used a ha
  obtain ⟨bb, hbb, eb, fb⟩ := hinv.live_used b hb
  have hdiff : ba ≠ bb := by
    intro e
    apply hne
    rw [← ea, ← eb, e]
  have := blocks_apart P hH _ hinv.single ba hba bb hbb hdiff
  refine ⟨ba, hba, bb, hbb, ea, eb, fa, fb, ?_⟩
  simp only [block_after] at this
  omega

theorem malloc_keeps_inv (P : Platform) (hH : 0 < P.H) (st : session) (query : Nat)
    (os : mmap_outcome) (p : Nat) (h1 : heap) (hinv : Inv P st)
    (h : _malloc P query os st.h = Outcome.ok (p, h1)) :
    Inv P { h := h1, live := if p = 0 then st.live else p :: st.live } ∧
      h1.blocks.head?.map (fun b => b.addr) = st.h.blocks.head?.map (fun b => b.addr) ∧
      h1.mapped = st.h.mapped := by
  simp only [_malloc] at h
  split at h
  · simp only [Outcome.ok.injEq, Prod.mk.injEq] at h
    obtain ⟨hp, hh⟩ := h
    subst hp; subst hh
    exact ⟨by simpa using hinv, rfl, rfl⟩
  · rename_i hstart
    split at h
    · simp at h
    · rename_i before chain hloc
      obtain ⟨hsplit, _, _⟩ := locate_some _ _ _ _ hloc
      have hokb : ∀ b ∈ before, block_ok P b :=
        fun b hb => hinv.ok b (by rw [hsplit]; exact List.mem_append.2 (Or.inl hb))
      have hokc : ∀ b ∈ chain, block_ok P b :=
        fun b hb => hinv.ok b (by rw [hsplit]; exact List.mem_append.2 (Or.inr hb))
      split at h
      · rename_i r hm
        obtain ⟨hacq, hcases⟩ := memalloc_cases P query os _ chain r hstart hokc hm
        rcases hcases with ⟨b1, rest, hblock, hfree, _, hre⟩ | ⟨hblock, hre⟩
        · have hmid := Reshaped.append_left before hokb hre
          rw [← hsplit] at hmid
          have hb1 : block_ok P b1 := hmid.ok b1 (by simp)
          rw [hblock] at h
          simp only [Outcome.ok.injEq, Prod.mk.injEq] at h
          obtain ⟨hp, hh⟩ := h
          have hp1 : p = b1.addr + P.H := by
            rw [← hp]
            simp only [block_ok, BLOCK_MIN_CAPACITY] at hb1
            have : ¬ b1.addr = 0 := by omega
            simp [this]
          have hp0 : ¬ p = 0 := by omega
          subst hh
          simp only [hp0, if_false, hacq, List.append_nil]
          have hmem : ∀ b, b ∈ before ++ r.passed ++ { b1 with is_free := false } :: rest ↔
              (b ∈ before ∨ b ∈ r.passed ∨ b ∈ rest) ∨ b = { b1 with is_free := false } := by
            intro b; simp only [List.mem_append, List.mem_cons]; tauto
          have hmemmid : ∀ b, b ∈ before ++ (r.passed ++ b1 :: rest) ↔
              (b ∈ before ∨ b ∈ r.passed ∨ b ∈ rest) ∨ b = b1 := by
            intro b; simp only [List.mem_append, List.mem_cons]; tauto
          refine ⟨⟨?_, ?_, ?_, ?_, ?_⟩, ?_, trivial⟩
          · intro b hb
            rcases (hmem b).1 hb with h2 | h2
            · exact hmid.ok b ((hmemmid b).2 (Or.inl h2))
            · subst h2; exact hb1
          · intro x
            have := hmid.cover_eq x
            have h3 := hinv.single x
            simp only [cover_append, cover_cons, owns, block_after] at this ⊢
            omega
          · intro q hq
            rcases List.mem_cons.1 hq with h2 | h2
            · subst h2
              exact ⟨{ b1 with is_free := false }, (hmem _).2 (Or.inr rfl), hp1.symm, rfl⟩
            · obtain ⟨bq, hbq, eq, fq⟩ := hinv.live_used q h2
              have hbq1 := hmid.used bq hbq fq
              rcases (hmemmid bq).1 hbq1 with h3 | h3
              · exact ⟨bq, (hmem bq).2 (Or.inl h3), eq, fq⟩
              · subst h3; rw [hfree] at fq; cases fq
          · refine List.nodup_cons.2 ⟨?_, hinv.nodup⟩
            intro hq
            obtain ⟨bq, hbq, eq, fq⟩ := hinv.live_used p hq
            have hbq1 := hmid.used bq hbq fq
            have hne : bq ≠ b1 := by
              intro e; rw [e, hfree] at fq; cases fq
            have := blocks_apart P hH _
              (fun x => by rw [hmid.cover_eq]; exact hinv.single x)
              bq hbq1 b1 ((hmemmid b1).2 (Or.inr rfl)) hne
            simp only [block_after] at this
            omega
          · have := hmid.total_eq
            simp only [total_size_append, total_size_cons] at this ⊢
            rw [← hinv.total]
            omega
          · have := hmid.head_eq
            rw [← this]
            cases before with
            | nil =>
              cases hpass : r.passed with
              | nil => simp
              | cons c cs => simp
            | cons c cs => simp
        · have hmid := Reshaped.append_left before hokb hre
          rw [← hsplit] at hmid
          rw [hblock] at h
          simp only [Outcome.ok.injEq, Prod.mk.injEq] at h
          obtain ⟨hp, hh⟩ := h
          subst hp; subst hh
          simp only [if_true, hacq, List.append_nil, hblock]
          refine ⟨⟨hmid.ok, ?_, ?_, hinv.nodup, ?_⟩, hmid.head_eq, trivial⟩
          · intro x; rw [hmid.cover_eq]; exact hinv.single x
          · intro q hq
            obtain ⟨bq, hbq, eq, fq⟩ := hinv.live_used q hq
            exact ⟨bq, hmid.used bq hbq fq, eq, fq⟩
          · rw [hmid.total_eq]; exact hinv.total
      · simp at h
      · simp at h

theorem free_keeps_inv (P : Platform) (st : session) (mem : Nat) (h1 : heap)
    (hinv : Inv P st) (h : _free P mem st.h = Outcome.ok h1) :
    Inv P { h := h1, live := st.live.erase mem } ∧
      h1.blocks.head?.map (fun b => b.addr) = st.h.blocks.head?.map (fun b => b.addr) ∧
      h1.mapped = st.h.mapped := by
  have hsub : ∀ q ∈ st.live.erase mem, q ∈ st.live ∧ q ≠ mem := by
    intro q hq
    have := (hinv.nodup.mem_erase_iff).1 hq
    exact ⟨this.2, this.1⟩
  have hnd : (st.live.erase mem).Nodup := hinv.nodup.erase mem
  simp only [_free] at h
  split at h
  · simp only [Outcome.ok.injEq] at h
    subst h
    exact ⟨⟨hinv.ok, hinv.single, fun q hq => hinv.live_used q (hsub q hq).1, hnd, hinv.total⟩,
      rfl, rfl⟩
  · split at h
    · simp at h
    · rename_i hmem0 hge
      split at h
      · simp at h
      · simp at h
      · rename_i before header rest hloc
        obtain ⟨hsplit, _, b, rest0, hchain, haddr⟩ := locate_some _ _ _ _ hloc
        cases hchain
        split at h
        · rename_i flag chain1 hm
          simp only [Outcome.ok.injEq] at h
          subst h
          have hokb : ∀ b ∈ before, block_ok P b :=
            fun b hb => hinv.ok b (by rw [hsplit]; exact List.mem_append.2 (Or.inl hb))
          have hokh : block_ok P header := hinv.ok header (by rw [hsplit]; simp)
          have hokc : ∀ b ∈ ({ header with is_free := true } : block_header) :: rest,
              block_ok P b := by
            intro b hb
            rcases List.mem_cons.1 hb with h2 | h2
            · subst h2; exact hokh
            · exact hinv.ok b (by rw [hsplit]; simp [h2])
          have hre := (try_merge_with_next_reshaped P _ chain1 flag hokc hm).1
          have hmid := Reshaped.append_left before hokb hre
          refine ⟨⟨hmid.ok, ?_, ?_, hnd, ?_⟩, ?_, rfl⟩
          · intro x
            have := hmid.cover_eq x
            have h3 := hinv.single x
            rw [hsplit] at h3
            simp only [cover_append, cover_cons, owns, block_after] at this h3 ⊢
            omega
          · intro q hq
            obtain ⟨hq1, hq2⟩ := hsub q hq
            obtain ⟨bq, hbq, eq, fq⟩ := hinv.live_used q hq1
            rw [hsplit] at hbq
            refine ⟨bq, ?_, eq, fq⟩
            apply hmid.used bq _ fq
            rcases List.mem_append.1 hbq with h2 | h2
            · exact List.mem_append.2 (Or.inl h2)
            · rcases List.mem_cons.1 h2 with h3 | h3
              · subst h3; omega
              · exact List.mem_append.2 (Or.inr (List.mem_cons_of_mem _ h3))
          · have := hmid.total_eq
            rw [← hinv.total, hsplit]
            simp only [total_size_append, total_size_cons] at this ⊢
            omega
          · have := hmid.head_eq
            rw [this, hsplit]
            cases before with
            | nil => simp
            | cons c cs => simp
        · simp at h
        · simp at h

theorem step_keeps_inv (P : Platform) (hH : 0 < P.H) (c : call) (st st1 : session)
    (hinv : Inv P st) (h : step P c st = Outcome.ok st1) :
    Inv P st1 ∧
      st1.h.blocks.head?.map (fun b => b.addr) = st.h.blocks.head?.map (fun b => b.addr) ∧
      st1.h.mapped = st.h.mapped := by
  cases c with
  | malloc query os =>
    simp only [step] at h
    split at h
    · rename_i p h1 hm
      simp only [Outcome.ok.injEq] at h
      subst h
      exact malloc_keeps_inv P hH st query os p h1 hinv hm
    · simp at h
    · simp at h
  | free mem =>
    simp only [step] at h
    split at h
    · split at h
      · rename_i h1 hf
        simp only [Outcome.ok.injEq] at h
        subst h
        exact free_keeps_inv P st mem h1 hinv hf
      · simp at h
      · simp at h
    · simp at h

theorem run_keeps_inv (P : Platform) (hH : 0 < P.H) :
    ∀ (calls : List call) (st st1 : session), Inv P st →
      run P calls st = Outcome.ok st1 →
      Inv P st1 ∧
        st1.h.blocks.head?.map (fun b => b.addr) = st.h.blocks.head?.map (fun b => b.addr) ∧
        st1.h.mapped = st.h.mapped := by
  intro calls
  induction calls with
  | nil =>
    intro st st1 hinv h
    simp only [run, Outcome.ok.injEq] at h
    subst h
    exact ⟨hinv, rfl, rfl⟩
  | cons c cs ih =>
    intro st st1 hinv h
    simp only [run] at h
    split at h
    · rename_i st2 hs
      obtain ⟨i2, e2, m2⟩ := step_keeps_inv P hH c st st2 hinv hs
      obtain ⟨i1, e1, m1⟩ := ih st2 st1 i2 h
      exact ⟨i1, e1.trans e2, m1.trans m2⟩
    · simp at h
    · simp at h

theorem heap_init_inv (P : Platform) (initial : Nat) (os : mmap_outcome)
    (hmin : P.H ≤ P.REGION_MIN_SIZE)
    (hos : os_sane (region_actual_size P (size_from_capacity P initial)) os) :
    Inv P { h := (heap_init P initial os).2, live := [] } := by
  have hsz : P.REGION_MIN_SIZE ≤ region_actual_size P (size_from_capacity P initial) := by
    simp only [region_actual_size, size_max]
    split <;> omega
  have key : ∀ a, BLOCK_MIN_CAPACITY < a →
      a + region_actual_size P (size_from_capacity P initial) ≤ SIZE_MOD →
      Inv P { h := { blocks := [block_init P a
                (region_actual_size P (size_from_capacity P initial))],
                     mapped := [(a, region_actual_size P (size_from_capacity P initial))] },
              live := [] } := by
    intro a h1 h2
    have hcap : (block_init P a
        (region_actual_size P (size_from_capacity P initial))).capacity =
        region_actual_size P (size_from_capacity P initial) - P.H := by
      simp only [block_init, capacity_from_size, size_sub, SIZE_MOD] at *
      omega
    refine ⟨?_, ?_, by simp, by simp, ?_⟩
    · intro b hb
      simp only [List.mem_singleton] at hb
      subst hb
      simp only [block_ok, block_after, hcap]
      simp only [block_init]
      exact ⟨h1, by omega⟩
    · intro x
      simp only [cover_cons, cover_nil]
      split <;> omega
    · simp only [total_size_cons, hcap, total_size, List.map_nil, List.sum_nil,
        List.map_cons, List.sum_cons]
      omega
  simp only [heap_init, alloc_region]
  cases hn : os.noreplace with
  | some a =>
    obtain ⟨h1, h2⟩ := hos a (Or.inl hn)
    have ha : ¬ a = 0 := by
      simp only [BLOCK_MIN_CAPACITY] at h1; omega
    simp only [region_is_invalid, beq_iff_eq, ha, if_false]
    exact key a h1 h2
  | none =>
    cases hm : os.anywhere with
    | some a =>
      obtain ⟨h1, h2⟩ := hos a (Or.inr hm)
      have ha : ¬ a = 0 := by
        simp only [BLOCK_MIN_CAPACITY] at h1; omega
      simp only [region_is_invalid, beq_iff_eq, ha, if_false]
      exact key a h1 h2
    | none =>
      simp only [region_is_invalid, REGION_INVALID, beq_self_eq_true, if_true]
      exact ⟨by simp, by simp [cover], by simp, by simp, by simp [total_size]⟩

theorem session_free_used_inv : Inv linux64 session_free_used := by
  refine ⟨by decide, ?_, by decide, by decide, by decide⟩
  intro x
  simp only [session_free_used, heap_free_used, cover_cons, cover_nil, owns, block_after,
    linux64, decide_eq_true_eq]
  split_ifs <;> omega

/-! ## Teardown -/

theorem runs_cons_cases (P : Platform) (b : block_header) (rest : List block_header) :
    (rest = [] ∧ runs P (b :: rest) = [[b]]) ∨
    (∃ n rest1 run more, rest = n :: rest1 ∧ runs P rest = (n :: run) :: more ∧
      ((blocks_continuous P b n = true ∧ runs P (b :: rest) = (b :: n :: run) :: more) ∨
       (blocks_continuous P b n = false ∧
         runs P (b :: rest) = [b] :: (n :: run) :: more))) := by
  induction rest generalizing b with
  | nil => left; exact ⟨rfl, rfl⟩
  | cons n rest1 ih =>
    right
    have hn : ∃ run more, runs P (n :: rest1) = (n :: run) :: more := by
      rcases ih n with ⟨_, h2⟩ | ⟨m, rest2, run, more, _, _, h3 | h3⟩
      · exact ⟨[], [], h2⟩
      · exact ⟨_, _, h3.2⟩
      · exact ⟨_, _, h3.2⟩
    obtain ⟨run, more, hr⟩ := hn
    refine ⟨n, rest1, run, more, rfl, hr, ?_⟩
    cases hc : blocks_continuous P b n with
    | true =>
      left
      refine ⟨rfl, ?_⟩
      simp only [runs, hr, hc, if_true]
    | false =>
      right
      refine ⟨rfl, ?_⟩
      simp only [runs, hr, hc, Bool.false_eq_true, if_false]

theorem runs_flatten (P : Platform) (l : List block_header) : (runs P l).flatten = l := by
  induction l with
  | nil => rfl
  | cons b rest ih =>
    rcases runs_cons_cases P b rest with ⟨h1, h2⟩ | ⟨n, rest1, run, more, h1, h2, h3 | h3⟩
    · rw [h2, h1]; rfl
    · rw [h3.2]
      rw [h2] at ih
      simp only [List.flatten_cons, List.cons_append] at ih ⊢
      rw [ih]
    · rw [h3.2]
      rw [h2] at ih
      simp only [List.flatten_cons, List.cons_append, List.nil_append] at ih ⊢
      rw [ih]

theorem runs_contiguous (P : Platform) (l : List block_header) :
    ∀ run ∈ runs P l, run.Chain' (fun a b => blocks_continuous P a b = true) := by
  induction l with
  | nil => intro run h; simp [runs] at h
  | cons b rest ih =>
    intro r hr
    rcases runs_cons_cases P b rest with ⟨h1, h2⟩ | ⟨n, rest1, run, more, h1, h2, h3 | h3⟩
    · rw [h2] at hr
      simp only [List.mem_singleton] at hr
      subst hr
      exact List.chain'_singleton b
    · rw [h3.2] at hr
      rw [h2] at ih
      rcases List.mem_cons.1 hr with h4 | h4
      · subst h4
        exact List.chain'_cons.2 ⟨h3.1, ih _ (by simp)⟩
      · exact ih _ (by simp [h4])
    · rw [h3.2] at hr
      rw [h2] at ih
      rcases List.mem_cons.1 hr with h4 | h4
      · subst h4
        exact List.chain'_singleton b
      · exact ih _ h4

theorem runs_maximal (P : Platform) (l : List block_header) :
    (runs P l).Chain' (run_boundary P) := by
  induction l with
  | nil => simp [runs]
  | cons b rest ih =>
    rcases runs_cons_cases P b rest with ⟨h1, h2⟩ | ⟨n, rest1, run, more, h1, h2, h3 | h3⟩
    · rw [h2]
      exact List.chain'_singleton _
    · rw [h3.2]
      rw [h2] at ih
      cases more with
      | nil => exact List.chain'_singleton _
      | cons m ms =>
        rw [List.chain'_cons] at ih ⊢
        refine ⟨?_, ih.2⟩
        obtain ⟨x, y, hx, hy, hxy⟩ := ih.1
        refine ⟨x, y, ?_, hy, hxy⟩
        rw [List.getLast?_cons_cons]
        exact hx
    · rw [h3.2]
      rw [h2] at ih
      rw [List.chain'_cons]
      exact ⟨⟨b, n, rfl, rfl, h3.1⟩, ih⟩

theorem size_of_ok (P : Platform) (b : block_header) (hb : block_ok P b) :
    size_from_capacity P b.capacity = b.capacity + P.H := by
  simp only [block_ok, block_after, BLOCK_MIN_CAPACITY, SIZE_MOD] at hb
  simp only [size_from_capacity, size_add, SIZE_MOD]
  omega

theorem run_span_nil (P : Platform) : run_span P [] = (0, 0) := rfl

theorem run_span_cons (P : Platform) (b : block_header) (run : List block_header) :
    run_span P (b :: run) =
      (b.addr, size_from_capacity P b.capacity + (run_span P run).2) := by
  simp [run_span]

/-- The spans of the runs of a chain hold each byte as often as its blocks do, and
are as long in total. -/
theorem spans_of_runs (P : Platform) (l : List block_header) (hok : ∀ b ∈ l, block_ok P b) :
    (∀ x, ((runs P l).map (run_span P)).countP (fun s => in_span s x) = cover P l x) ∧
    (((runs P l).map (run_span P)).map Prod.snd).sum = total_size P l := by
  induction l with
  | nil => exact ⟨fun x => rfl, rfl⟩
  | cons b rest ih =>
    have hb := hok b (by simp)
    have hsz := size_of_ok P b hb
    obtain ⟨ih1, ih2⟩ := ih (fun c hc => hok c (by simp [hc]))
    rcases runs_cons_cases P b rest with ⟨h1, h2⟩ | ⟨n, rest1, run, more, h1, h2, h3 | h3⟩
    · subst h1
      rw [h2]
      constructor
      · intro x
        simp only [List.map_cons, List.map_nil, List.countP_cons, List.countP_nil, run_span_cons,
          run_span_nil, hsz, in_span, cover_cons, cover_nil, owns, block_after,
          decide_eq_true_eq]
        split_ifs <;> omega
      · simp [run_span, hsz, total_size]
    · rw [h3.2]
      rw [h2] at ih1 ih2
      have hc := h3.1
      simp only [blocks_continuous, block_after, beq_iff_eq] at hc
      constructor
      · intro x
        have := ih1 x
        simp only [List.map_cons, List.countP_cons, run_span_cons, in_span, hsz,
          decide_eq_true_eq] at this ⊢
        rw [cover_cons, ← this]
        simp only [owns, block_after, decide_eq_true_eq]
        split_ifs <;> omega
      · simp only [List.map_cons, List.sum_cons, run_span_cons, hsz] at ih2 ⊢
        rw [total_size_cons, ← ih2]
        omega
    · rw [h3.2]
      rw [h2] at ih1 ih2
      constructor
      · intro x
        have := ih1 x
        rw [List.map_cons, List.countP_cons, this, cover_cons]
        simp only [run_span_cons, run_span_nil, hsz, in_span, owns, block_after,
          decide_eq_true_eq]
        split_ifs <;> omega
      · rw [List.map_cons, List.map_cons, List.sum_cons, ih2, total_size_cons]
        simp [run_span, hsz]

theorem spans_positive (P : Platform) (hH : 0 < P.H) (l : List block_header)
    (hok : ∀ b ∈ l, block_ok P b) : ∀ s ∈ (runs P l).map (run_span P), 0 < s.2 := by
  induction l with
  | nil => intro s hs; simp [runs] at hs
  | cons b rest ih =>
    have hb := hok b (by simp)
    have hsz := size_of_ok P b hb
    have ih1 := ih (fun c hc => hok c (by simp [hc]))
    intro s hs
    rcases runs_cons_cases P b rest with ⟨h1, h2⟩ | ⟨n, rest1, run, more, h1, h2, h3 | h3⟩
    · rw [h2] at hs
      simp only [List.map_cons, List.map_nil, List.mem_singleton] at hs
      subst hs
      simp only [run_span_cons, hsz]
      omega
    · rw [h3.2] at hs
      rw [h2] at ih1
      simp only [List.map_cons, List.mem_cons] at hs ih1
      rcases hs with h4 | h4
      · subst h4
        simp only [run_span_cons, hsz]
        omega
      · exact ih1 s (Or.inr h4)
    · rw [h3.2] at hs
      rw [h2] at ih1
      simp only [List.map_cons, List.mem_cons] at hs ih1
      rcases hs with h4 | h4
      · subst h4
        simp only [run_span_cons, hsz]
        omega
      · exact ih1 s h4

/-- Spans of positive length that hold no byte twice are pairwise disjoint. -/
theorem spans_pairwise_apart :
    ∀ (l : List (Nat × Nat)), (∀ s ∈ l, 0 < s.2) →
      (∀ x, l.countP (fun s => in_span s x) ≤ 1) → l.Pairwise spans_apart := by
  intro l
  induction l with
  | nil => intro _ _; exact List.Pairwise.nil
  | cons s rest ih =>
    intro hpos hone
    have hrest : ∀ x, rest.countP (fun s => in_span s x) ≤ 1 := by
      intro x
      have := hone x
      rw [List.countP_cons] at this
      omega
    refine List.Pairwise.cons ?_ (ih (fun t ht => hpos t (by simp [ht])) hrest)
    intro t ht
    by_contra hcon
    have hs := hpos s (by simp)
    have ht0 := hpos t (by simp [ht])
    simp only [spans_apart, not_or, not_le] at hcon
    have h1 : in_span s (max s.1 t.1) = true := by
      simp only [in_span, decide_eq_true_eq]
      omega
    have h2 : in_span t (max s.1 t.1) = true := by
      simp only [in_span, decide_eq_true_eq]
      omega
    have h3 : 0 < rest.countP (fun u => in_span u (max s.1 t.1)) :=
      List.countP_pos_iff.2 ⟨t, ht, h2⟩
    have h4 := hone (max s.1 t.1)
    rw [List.countP_cons] at h4
    simp only [h1, if_true] at h4
    omega

/-- The inner loop of `heap_term` walks one run: it stops in front of the first
run of the rest of the chain with the sizes of the run added up. -/
theorem term_run_runs (P : Platform) :
    ∀ (rest : List block_header) (acc : Nat) (b : block_header),
      (∀ x ∈ b :: rest, block_ok P x) → acc + BLOCK_MIN_CAPACITY < b.addr →
      ∃ run, runs P (b :: rest) = (b :: run) :: runs P (term_run P acc b rest).2.2 ∧
        size_add (term_run P acc b rest).1
            (size_from_capacity P (term_run P acc b rest).2.1.capacity) =
          acc + (run_span P (b :: run)).2 ∧
        (term_run P acc b rest).2.2.length ≤ rest.length ∧
        ∀ x ∈ (term_run P acc b rest).2.2, x ∈ rest := by
  intro rest
  induction rest with
  | nil =>
    intro acc b hok hacc
    have hb := hok b (by simp)
    have hsz := size_of_ok P b hb
    refine ⟨[], rfl, ?_, by simp [term_run], by simp [term_run]⟩
    simp only [term_run, run_span_cons, run_span_nil, hsz]
    simp only [block_ok, block_after, BLOCK_MIN_CAPACITY, SIZE_MOD] at hb hacc
    simp only [size_add, SIZE_MOD]
    omega
  | cons n rest1 ih =>
    intro acc b hok hacc
    have hb := hok b (by simp)
    have hsz := size_of_ok P b hb
    have hokn : ∀ x ∈ n :: rest1, block_ok P x := fun x hx => hok x (by simp [hx])
    rcases runs_cons_cases P b (n :: rest1) with ⟨h1, _⟩ | ⟨m, rest2, run, more, h1, h2, h3 | h3⟩
    · cases h1
    · cases h1
      have hc := h3.1
      have hcont := h3.1
      simp only [blocks_continuous, block_after, beq_iff_eq] at hc
      have hacc1 : size_add acc (size_from_capacity P b.capacity) = acc + b.capacity + P.H := by
        simp only [block_ok, block_after, BLOCK_MIN_CAPACITY, SIZE_MOD] at hb hacc
        simp only [hsz, size_add, SIZE_MOD]
        omega
      have hacc2 : acc + b.capacity + P.H + BLOCK_MIN_CAPACITY < n.addr := by
        simp only [BLOCK_MIN_CAPACITY] at hacc ⊢
        omega
      obtain ⟨run1, hr1, ht1, hl1, hs1⟩ := ih (acc + b.capacity + P.H) n hokn hacc2
      have hstep : term_run P acc b (n :: rest1) =
          term_run P (acc + b.capacity + P.H) n rest1 := by
        simp only [term_run, hcont, if_true, hacc1]
      rw [hstep]
      rw [h2] at hr1
      simp only [List.cons.injEq] at hr1
      obtain ⟨⟨_, hrun⟩, hmore⟩ := hr1
      refine ⟨n :: run1, ?_, ?_, ?_, ?_⟩
      · rw [h3.2, hrun, hmore]
      · rw [ht1, run_span_cons P b, hsz]
        simp only
        omega
      · simp only [List.length_cons]
        omega
      · intro x hx
        exact List.mem_cons_of_mem _ (hs1 x hx)
    · cases h1
      have hcont := h3.1
      have hstep : term_run P acc b (n :: rest1) = (acc, b, n :: rest1) := by
        simp only [term_run, hcont, Bool.false_eq_true, if_false]
      rw [hstep]
      refine ⟨[], ?_, ?_, le_refl _, fun x hx => hx⟩
      · rw [h3.2, h2]
      · simp only [run_span_cons, run_span_nil, hsz]
        simp only [block_ok, block_after, BLOCK_MIN_CAPACITY, SIZE_MOD] at hb hacc
        simp only [size_add, SIZE_MOD]
        omega

/-- With a budget above the length of the chain, the outer loop of `heap_term`
hands to `unmap_pages` the spans of the runs of the chain, in order. -/
theorem term_loop_runs (P : Platform) :
    ∀ (fuel : Nat) (chain : List block_header), (∀ x ∈ chain, block_ok P x) →
      chain.length < fuel →
      term_loop P fuel chain = Outcome.ok ((runs P chain).map (run_span P)) := by
  intro fuel
  induction fuel with
  | zero => intro chain _ h; omega
  | succ fuel ih =>
    intro chain hok hlen
    cases chain with
    | nil => rfl
    | cons b rest =>
      have hb := hok b (by simp)
      have hacc : 0 + BLOCK_MIN_CAPACITY < b.addr := by
        simp only [block_ok] at hb
        omega
      obtain ⟨run, hr, ht, hl, hs⟩ := term_run_runs P rest 0 b hok hacc
      have hrec := ih (term_run P 0 b rest).2.2
        (fun x hx => hok x (List.mem_cons_of_mem _ (hs x hx)))
        (by simp only [List.length_cons] at hlen; omega)
      simp only [term_loop]
      rw [hrec, hr, ht]
      simp only [List.map_cons, zero_add]
      rw [run_span_cons]

theorem locate_head (a : Nat) (l : List block_header)
    (h : l.head?.map (fun b => b.addr) = some a) : locate a l = some ([], l) := by
  cases l with
  | nil => simp at h
  | cons b rest =>
    simp only [List.head?_cons, Option.map_some', Option.some.injEq] at h
    simp [locate, h]

/-- On a heap that satisfies the invariant and has its first header at
`HEAP_START`, `heap_term` releases the spans of the runs of the chain; these are
pairwise disjoint and as long in total as the mappings. -/
theorem heap_term_runs (P : Platform) (hH : 0 < P.H) (h0 : P.HEAP_START ≠ 0) (st : session)
    (hinv : Inv P st)
    (hhead : st.h.blocks.head?.map (fun b => b.addr) = some P.HEAP_START) :
    heap_term P st.h = Outcome.ok ((runs P st.h.blocks).map (run_span P)) ∧
    ((runs P st.h.blocks).map (run_span P)).Pairwise spans_apart ∧
    (((runs P st.h.blocks).map (run_span P)).map Prod.snd).sum =
      (st.h.mapped.map Prod.snd).sum := by
  obtain ⟨hc, ht⟩ := spans_of_runs P st.h.blocks hinv.ok
  refine ⟨?_, ?_, ?_⟩
  · simp only [heap_term, h0, if_false, locate_head _ _ hhead]
    exact term_loop_runs P _ _ hinv.ok (Nat.lt_succ_self _)
  · apply spans_pairwise_apart _ (spans_positive P hH _ hinv.ok)
    intro x
    rw [hc x]
    exact hinv.single x
  · rw [ht, hinv.total]

theorem session_two_regions_inv : Inv linux64 session_two_regions := by
  refine ⟨by decide, ?_, by decide, by decide, by decide⟩
  intro x
  simp only [session_two_regions, cover_cons, cover_nil, owns, block_after,
    linux64, decide_eq_true_eq]
  split_ifs <;> omega

/-! ## A free header without a successor -/

theorem grow_heap_valid (P : Platform) (query : Nat) (os : mmap_outcome)
    (last : block_header) (rest : List block_header)
    (hvalid : region_is_invalid
      (alloc_region P (block_after P last) (size_max query BLOCK_MIN_CAPACITY) os) = false) :
    ∃ g b, grow_heap P query os (last :: rest) = Outcome.ok g ∧ g.block = [b] ∧
      b.is_free = true ∧ g.acquired.length = 1 := by
  simp only [grow_heap, hvalid, Bool.false_eq_true, if_false]
  cases hfree : last.is_free with
  | true =>
    simp only [if_true, try_merge_with_next]
    cases hm : mergeable P last (block_init P
        (alloc_region P (block_after P last) (size_max query BLOCK_MIN_CAPACITY) os).addr
        (alloc_region P (block_after P last) (size_max query BLOCK_MIN_CAPACITY) os).size) with
    | true =>
      simp only [if_true]
      exact ⟨_, _, rfl, rfl, rfl, rfl⟩
    | false =>
      simp only [Bool.false_eq_true, if_false]
      exact ⟨_, _, rfl, rfl, rfl, rfl⟩
  | false =>
    simp only [Bool.false_eq_true, if_false]
    exact ⟨_, _, rfl, rfl, rfl, rfl⟩

/-- Once the scan has not found a block and the OS has mapped a region,
`memalloc` does not return: the scan it repeats starts at a free header without
a successor. -/
theorem memalloc_growth_faults (P : Platform) (query : Nat) (os : mmap_outcome)
    (heap_start : Nat) (chain : List block_header) (h0 : heap_start ≠ 0)
    (hscan : ∀ res, try_memalloc_existing P query chain = Outcome.ok res →
      res.type = bsr_type.BSR_REACHED_END_NOT_FOUND)
    (hmap : ∀ addr q, region_is_invalid (alloc_region P addr q os) = false) :
    memalloc P query os heap_start chain = Outcome.fault := by
  simp only [memalloc, h0, if_false]
  cases hres : try_memalloc_existing P query chain with
  | ok res =>
    have hty := hscan res hres
    obtain ⟨_, last, hlast⟩ := try_memalloc_existing_end P query chain res hres hty
    obtain ⟨g, b, hg, hb, hfree, _⟩ := grow_heap_valid P query os last [] (hmap _ _)
    simp only [hty, hlast, hg, hb, scan_of_single_free_faults P query b hfree]
    simp
  | fault => rfl
  | out_of_fuel => exact absurd hres (try_memalloc_existing_fuel P query chain)

/-! ## The claims -/

/-- C1: the heap `heap_init` creates satisfies the invariant `Inv` with no live
pointer, and for every heap that satisfies it and every finite sequence of
`_malloc` and `_free` calls that return, any two pointers returned by `_malloc`
and not freed since are payloads of two headers marked used whose byte ranges
`[payload, payload + capacity)` are disjoint. -/
theorem C1_live_payloads_never_overlap (P : Platform) (hH : 0 < P.H)
    (hmin : P.H ≤ P.REGION_MIN_SIZE) :
    (∀ initial os, os_sane (region_actual_size P (size_from_capacity P initial)) os →
      Inv P { h := (heap_init P initial os).2, live := [] }) ∧
    (∀ st0 calls st, Inv P st0 → run P calls st0 = Outcome.ok st →
      st.live.Pairwise (payloads_apart P st.h.blocks)) :=
  ⟨fun initial os hos => heap_init_inv P initial os hmin hos,
   fun st0 calls st hinv hrun =>
     inv_live_apart P hH st (run_keeps_inv P hH calls st0 st hinv hrun).1⟩

/-- Witness of C1: on a heap with a free block before a live used one, two
allocations and one release leave two live payloads, 200 and 100 bytes long,
which do not meet. -/
theorem C1_witness :
    run linux64 calls_split_twice session_free_used = Outcome.ok session_after_calls ∧
    List.Pairwise (payloads_apart linux64 session_after_calls.h.blocks)
      [67371142, 67379100] :=
  ⟨by decide,
   (C1_live_payloads_never_overlap linux64 (by decide) (by decide)).2
     session_free_used calls_split_twice session_after_calls session_free_used_inv
     (by decide)⟩

/-- C2 (the code faults): for every heap with a header at `HEAP_START` on which
the scan finds no free block large enough, and every OS answer that maps a
region, `_malloc` does not return: either the scan itself reads through the null
`next` of a free final block, or the region is mapped and linked and the scan
that follows starts at a free header without a successor and reads through its
null `next`. -/
theorem C2_growth_reads_through_null (P : Platform) (size : Nat) (os : mmap_outcome)
    (s : heap) (before chain : List block_header) (h0 : P.HEAP_START ≠ 0)
    (hloc : locate P.HEAP_START s.blocks = some (before, chain))
    (hscan : ∀ res, try_memalloc_existing P size chain = Outcome.ok res →
      res.type = bsr_type.BSR_REACHED_END_NOT_FOUND)
    (hmap : ∀ addr q, region_is_invalid (alloc_region P addr q os) = false) :
    _malloc P size os s = Outcome.fault := by
  simp [_malloc, h0, hloc, memalloc_growth_faults P size os _ chain h0 hscan hmap]

/-- Witness of C2: on the heap `heap_init(1024)` leaves, `_malloc(10000)` faults;
on the heap whose only block, of 8175 bytes, is in use, `_malloc(10000)` with an
OS that maps the new region right after the heap faults as well, although
`grow_heap` has mapped and linked a region of three pages. -/
theorem C2_witness :
    _malloc linux64 10000 (os_at 67379200) fresh_heap = Outcome.fault ∧
    grow_heap linux64 10000 (os_at 67379200) heap_one_used.blocks =
      Outcome.ok { passed := [{ addr := 67371008, capacity := 8175, is_free := false }],
                   block := [{ addr := 67379200, capacity := 12271, is_free := true }],
                   acquired := [(67379200, 12288)] } ∧
    _malloc linux64 10000 (os_at 67379200) heap_one_used = Outcome.fault :=
  ⟨by decide, by decide,
   C2_growth_reads_through_null linux64 10000 (os_at 67379200) heap_one_used []
     heap_one_used.blocks (by decide) (by decide)
     (by
       intro res h
       have e : try_memalloc_existing linux64 10000 heap_one_used.blocks =
           Outcome.ok { type := bsr_type.BSR_REACHED_END_NOT_FOUND, passed := [],
                        block := heap_one_used.blocks } := by decide
       rw [e] at h
       cases h
       rfl)
     (by
       intro addr q
       simp [alloc_region, os_at, region_is_invalid])⟩

/-- C3 (the code faults): on every platform, after `heap_init` has mapped its
region at `HEAP_START`, the first `_malloc` does not return, whatever its size:
the heap is one free block without a successor, and `try_merge_with_next` reads
`is_free` through its null `next`. -/
theorem C3_first_malloc_reads_through_null (P : Platform) (initial query : Nat)
    (os os1 : mmap_outcome) (h0 : P.HEAP_START ≠ 0)
    (hat : (heap_init P initial os).1 = P.HEAP_START) :
    _malloc P query os1 (heap_init P initial os).2 = Outcome.fault := by
  simp only [heap_init] at hat ⊢
  split
  · rename_i hinvalid
    simp only [hinvalid, if_true] at hat
    exact absurd hat.symm h0
  · rename_i hvalid
    simp only [hvalid, Bool.false_eq_true, if_false] at hat
    simp [_malloc, h0, locate, block_init, hat, memalloc, try_memalloc_existing,
      find_good_or_last, find_loop, merge_loop, try_merge_with_next]

/-- Witness of C3: with the constants of `linux64`, `heap_init(1024)` leaves one
free block of 8175 bytes at `HEAP_START`, and `_malloc(100)` on it faults. -/
theorem C3_witness :
    heap_init linux64 1024 (os_at 67371008) =
      (67371008, { blocks := [{ addr := 67371008, capacity := 8175, is_free := true }],
                   mapped := [(67371008, 8192)] }) ∧
    _malloc linux64 100 os_fail (heap_init linux64 1024 (os_at 67371008)).2 = Outcome.fault :=
  ⟨by decide,
   C3_first_malloc_reads_through_null linux64 1024 100 (os_at 67371008) os_fail
     (by decide) (by decide)⟩

/-! ## Reuse of the first block -/

theorem free_of_final_block_faults (P : Platform) (s : heap)
    (before : List block_header) (b : block_header) (p : Nat) (hp : p ≠ 0)
    (hb : b.addr + P.H = p)
    (hloc : locate (p - P.H) s.blocks = some (before, [b])) :
    _free P p s = Outcome.fault := by
  have hge : ¬ p < P.H := by omega
  simp [_free, hp, hge, hloc, try_merge_with_next]

theorem merged_capacity (P : Platform) (block next : block_header)
    (hb : block_ok P block) (hn : block_ok P next)
    (hcont : blocks_continuous P block next = true) :
    capacity_from_size P (size_from_capacity P (size_add block.capacity
        (size_from_capacity P next.capacity))) =
      block.capacity + next.capacity + P.H := by
  simp only [blocks_continuous, block_after, beq_iff_eq] at hcont
  simp only [block_ok, block_after, BLOCK_MIN_CAPACITY, SIZE_MOD] at hb hn
  simp only [capacity_from_size, size_from_capacity, size_add, size_sub, SIZE_MOD]
  omega

theorem merged_block_after (P : Platform) (block next : block_header)
    (hcont : blocks_continuous P block next = true) :
    block_after P { addr := block.addr, capacity := block.capacity + next.capacity + P.H,
                    is_free := true } = block_after P next := by
  simp only [blocks_continuous, block_after, beq_iff_eq] at hcont
  simp only [block_after]
  omega

theorem try_merge_with_next_merges (P : Platform) (block next : block_header)
    (rest : List block_header) (hb : block_ok P block) (hn : block_ok P next)
    (hm : mergeable P block next = true) :
    try_merge_with_next P (block :: next :: rest) =
      Outcome.ok (true, { addr := block.addr,
                          capacity := block.capacity + next.capacity + P.H,
                          is_free := true } :: rest) := by
  have hcont : blocks_continuous P block next = true := by
    simp only [mergeable, Bool.and_eq_true] at hm
    exact hm.2
  simp only [try_merge_with_next, hm, if_true, block_init, merged_capacity P block next hb hn hcont]

theorem merge_loop_all_free (P : Platform) :
    ∀ (fuel : Nat) (chain : List block_header), chain ≠ [] → chain.length ≤ fuel →
      (∀ b ∈ chain, block_ok P b) → (∀ b ∈ chain, b.is_free = true) →
      chain.Chain' (fun x y => blocks_continuous P x y = true) →
      merge_loop P fuel chain = Outcome.fault := by
  intro fuel
  induction fuel with
  | zero =>
    intro chain hne hlen
    cases chain with
    | nil => exact absurd rfl hne
    | cons b rest => simp at hlen
  | succ fuel ih =>
    intro chain hne hlen hok hfree hcont
    match chain, hne, hlen, hok, hfree, hcont with
    | [b], _, _, _, hfree, _ =>
      have hb := hfree b (by simp)
      simp [merge_loop, try_merge_with_next, hb]
    | b :: n :: r, _, hlen, hok, hfree, hcont =>
      have hbn : blocks_continuous P b n = true := (List.chain'_cons.1 hcont).1
      have hnr := (List.chain'_cons.1 hcont).2
      have hm : mergeable P b n = true := by
        simp [mergeable, hfree b (by simp), hfree n (by simp), hbn]
      have hokb := hok b (by simp)
      have hokn := hok n (by simp)
      simp only [merge_loop, try_merge_with_next_merges P b n r hokb hokn hm]
      have hafter := merged_block_after P b n hbn
      apply ih
      · simp
      · simp only [List.length_cons] at hlen ⊢
        omega
      · intro x hx
        rcases List.mem_cons.1 hx with h1 | h1
        · subst h1
          simp only [block_ok, hafter]
          exact ⟨hokb.1, hokn.2⟩
        · exact hok x (by simp [h1])
      · intro x hx
        rcases List.mem_cons.1 hx with h1 | h1
        · subst h1; rfl
        · exact hfree x (by simp [h1])
      · cases r with
        | nil => simp
        | cons x r1 =>
          have hnx := (List.chain'_cons.1 hnr).1
          refine List.chain'_cons.2 ⟨?_, (List.chain'_cons.1 hnr).2⟩
          simp only [blocks_continuous, beq_iff_eq] at hnx ⊢
          rw [hafter]
          exact hnx

theorem merge_loop_head (P : Platform) :
    ∀ (fuel : Nat) (b : block_header) (rest chain1 : List block_header),
      (∀ x ∈ b :: rest, block_ok P x) →
      merge_loop P fuel (b :: rest) = Outcome.ok chain1 →
      ∃ b1 rest1, chain1 = b1 :: rest1 ∧ b1.addr = b.addr ∧ b1.is_free = b.is_free ∧
        b.capacity ≤ b1.capacity := by
  intro fuel
  induction fuel with
  | zero =>
    intro b rest chain1 _ h
    simp [merge_loop] at h
  | succ fuel ih =>
    intro b rest chain1 hok h
    simp only [merge_loop] at h
    cases rest with
    | nil =>
      by_cases hf : b.is_free = true
      · simp [try_merge_with_next, hf] at h
      · simp only [try_merge_with_next, hf, Bool.false_eq_true, if_false,
          Outcome.ok.injEq] at h
        exact ⟨b, [], h.symm, rfl, rfl, le_refl _⟩
    | cons n r =>
      cases hm : mergeable P b n with
      | true =>
        have hokb := hok b (by simp)
        have hokn := hok n (by simp)
        have hfree : b.is_free = true := by
          simp only [mergeable, Bool.and_eq_true] at hm
          exact hm.1.1
        have hbn : blocks_continuous P b n = true := by
          simp only [mergeable, Bool.and_eq_true] at hm
          exact hm.2
        rw [try_merge_with_next_merges P b n r hokb hokn hm] at h
        simp only at h
        have hafter := merged_block_after P b n hbn
        obtain ⟨b1, rest1, e, ha, hf, hc⟩ := ih _ r chain1 (by
          intro x hx
          rcases List.mem_cons.1 hx with h1 | h1
          · subst h1
            simp only [block_ok, hafter]
            exact ⟨hokb.1, hokn.2⟩
          · exact hok x (by simp [h1])) h
        refine ⟨b1, rest1, e, ha, ?_, ?_⟩
        · rw [hf, hfree]
        · simp only at hc
          omega
      | false =>
        simp only [try_merge_with_next, hm, Bool.false_eq_true, if_false] at h
        simp only [Outcome.ok.injEq] at h
        exact ⟨b, n :: r, h.symm, rfl, rfl, le_refl _⟩

theorem free_of_first_block (P : Platform) (s : heap) (b : block_header)
    (rest : List block_header) (p : Nat) (hblocks : s.blocks = b :: rest)
    (hp : p = b.addr + P.H) (hb : block_ok P b) :
    _free P p s =
      match try_merge_with_next P ({ b with is_free := true } :: rest) with
      | Outcome.ok (_, chain) => Outcome.ok { s with blocks := chain }
      | Outcome.fault => Outcome.fault
      | Outcome.out_of_fuel => Outcome.out_of_fuel := by
  have h1 : p ≠ 0 := by
    have := hb.1
    simp only [BLOCK_MIN_CAPACITY] at this
    omega
  have h2 : ¬ p < P.H := by omega
  have h3 : p - P.H = b.addr := by omega
  simp only [_free, h1, h2, h3, hblocks, locate, if_true, if_false, List.nil_append]

theorem try_merge_with_next_first (P : Platform) (b : block_header)
    (rest chain1 : List block_header) (flag : Bool)
    (hok : ∀ x ∈ b :: rest, block_ok P x)
    (h : try_merge_with_next P (b :: rest) = Outcome.ok (flag, chain1)) :
    ∃ b1 rest1, chain1 = b1 :: rest1 ∧ b1.addr = b.addr ∧ b1.is_free = b.is_free ∧
      b.capacity ≤ b1.capacity := by
  cases rest with
  | nil =>
    by_cases hf : b.is_free = true
    · simp [try_merge_with_next, hf] at h
    · simp only [try_merge_with_next, hf, Bool.false_eq_true, if_false,
        Outcome.ok.injEq, Prod.mk.injEq] at h
      exact ⟨b, [], h.2.symm, rfl, rfl, le_refl _⟩
  | cons n r =>
    cases hm : mergeable P b n with
    | true =>
      have hfree : b.is_free = true := by
        simp only [mergeable, Bool.and_eq_true] at hm
        exact hm.1.1
      rw [try_merge_with_next_merges P b n r (hok b (by simp)) (hok n (by simp)) hm] at h
      simp only [Outcome.ok.injEq, Prod.mk.injEq] at h
      refine ⟨_, r, h.2.symm, rfl, hfree.symm, ?_⟩
      simp only
      omega
    | false =>
      simp only [try_merge_with_next, hm, Bool.false_eq_true, if_false,
        Outcome.ok.injEq, Prod.mk.injEq] at h
      exact ⟨b, n :: r, h.2.symm, rfl, rfl, le_refl _⟩

theorem malloc_of_merge_fault (P : Platform) (h0 : P.HEAP_START ≠ 0) (s : heap)
    (b : block_header) (rest : List block_header) (m : Nat) (os : mmap_outcome)
    (hblocks : s.blocks = b :: rest) (hat : b.addr = P.HEAP_START)
    (hml : merge_loop P (rest.length + 1) (b :: rest) = Outcome.fault) :
    _malloc P m os s = Outcome.fault := by
  have hloc : locate P.HEAP_START s.blocks = some ([], b :: rest) := by
    simp [hblocks, locate, hat]
  simp [_malloc, h0, hloc, memalloc, try_memalloc_existing, find_good_or_last, find_loop, hml]

theorem malloc_at_free_first_block (P : Platform) (h0 : P.HEAP_START ≠ 0) (s : heap)
    (b : block_header) (rest : List block_header) (m : Nat) (os : mmap_outcome)
    (hblocks : s.blocks = b :: rest) (hat : b.addr = P.HEAP_START)
    (hok : ∀ x ∈ b :: rest, block_ok P x) (hfree : b.is_free = true)
    (hm : adjusted m ≤ b.capacity) :
    _malloc P m os s = Outcome.fault ∨
    ∃ s2, _malloc P m os s = Outcome.ok (b.addr + P.H, s2) ∧ s2.mapped = s.mapped := by
  have hloc : locate P.HEAP_START s.blocks = some ([], b :: rest) := by
    simp [hblocks, locate, hat]
  cases hml : merge_loop P (rest.length + 1) (b :: rest) with
  | ok chain1 =>
    right
    obtain ⟨b1, rest1, e, ha, hf, hc⟩ := merge_loop_head P _ b rest chain1 hok hml
    subst e
    have hbig : (b1.is_free && block_is_big_enough (adjusted m) b1) = true := by
      simp only [block_is_big_enough, hf, hfree, Bool.true_and, decide_eq_true_eq]
      omega
    have hfind : find_good_or_last P (b :: rest) (adjusted m) =
        Outcome.ok { type := bsr_type.BSR_FOUND_GOOD_BLOCK, passed := [],
                     block := b1 :: rest1 } := by
      simp only [find_good_or_last, List.length_cons, find_loop, hml, hbig, if_true,
        List.reverse_nil]
    have ha0 : ¬ b1.addr = 0 := by rw [ha, hat]; exact h0
    have hb0 : ¬ b.addr = 0 := by rw [hat]; exact h0
    by_cases hs : block_splittable P b1 (adjusted m) = true
    · simp only [_malloc, h0, if_false, hloc, memalloc, try_memalloc_existing_eq, hfind, hs,
        if_true]
      simp [ha0, ha, hb0]
    · simp only [_malloc, h0, if_false, hloc, memalloc, try_memalloc_existing_eq, hfind, hs,
        if_true, Bool.false_eq_true]
      simp [ha0, ha, hb0]
  | fault =>
    left
    exact malloc_of_merge_fault P h0 s b rest m os hblocks hat hml
  | out_of_fuel =>
    exact absurd hml (merge_loop_fuel P _ (b :: rest) (by simp) (by simp)).1

/-- C4 (the code faults): the sequence of the claim does not get as far as the
reuse, and where the premises of the claim are met the reuse can read through a
null pointer.  First, after `heap_init` has mapped its region at `HEAP_START`,
every sequence of calls that starts with a `_malloc` faults at that call.
Second, for every session in which `p` is live and is the payload of the first
block `b` of the chain, at `HEAP_START`: when all the blocks after `b` are free
and the chain is address-contiguous, `_free(p)` returns and the `_malloc` that
follows faults whatever its size, because its merge loop makes the freed block
the final block of the chain and then reads `is_free` through its null `next`;
and in every case, for a size `m` up to the capacity of `b`, the two calls either
fault or the `_malloc` returns exactly `p` and maps no region. -/
theorem C4_reuse_of_freed_first_block_reads_through_null (P : Platform)
    (h0 : P.HEAP_START ≠ 0) :
    (∀ initial os query os1 calls, (heap_init P initial os).1 = P.HEAP_START →
      run P (call.malloc query os1 :: calls)
        { h := (heap_init P initial os).2, live := [] } = Outcome.fault) ∧
    (∀ (st : session) (b : block_header) (rest : List block_header) (p : Nat),
      p ∈ st.live → st.h.blocks = b :: rest → b.addr = P.HEAP_START → p = b.addr + P.H →
      (∀ x ∈ b :: rest, block_ok P x) →
      (rest ≠ [] → (∀ x ∈ rest, x.is_free = true) →
        (b :: rest).Chain' (fun x y => blocks_continuous P x y = true) →
        (∃ st1, run P [call.free p] st = Outcome.ok st1) ∧
        ∀ m os, run P [call.free p, call.malloc m os] st = Outcome.fault) ∧
      (∀ m os, BLOCK_MIN_CAPACITY ≤ b.capacity → m ≤ b.capacity →
        run P [call.free p, call.malloc m os] st = Outcome.fault ∨
        ∃ h2, run P [call.free p, call.malloc m os] st =
            Outcome.ok { h := h2, live := p :: st.live.erase p } ∧
          h2.mapped = st.h.mapped)) := by
  constructor
  · intro initial os query os1 calls hat
    have hm : _malloc P query os1 (heap_init P initial os).2 = Outcome.fault := by
      simp only [heap_init] at hat ⊢
      split
      · rename_i hinvalid
        simp only [hinvalid, if_true] at hat
        exact absurd hat.symm h0
      · rename_i hvalid
        simp only [hvalid, Bool.false_eq_true, if_false] at hat
        simp [_malloc, h0, locate, block_init, hat, memalloc, try_memalloc_existing,
          find_good_or_last, find_loop, merge_loop, try_merge_with_next]
    simp [run, step, hm]
  · intro st b rest p hlive hblocks hat hp hok
    have hokb := hok b (by simp)
    have hfreeeq := free_of_first_block P st.h b rest p hblocks hp hokb
    have hp0 : p ≠ 0 := by
      have := hokb.1
      simp only [BLOCK_MIN_CAPACITY] at this
      omega
    have hok1 : ∀ x ∈ { b with is_free := true } :: rest, block_ok P x := by
      intro x hx
      rcases List.mem_cons.1 hx with h1 | h1
      · subst h1; exact hokb
      · exact hok x (by simp [h1])
    constructor
    · intro hne hfree hcont
      cases rest with
      | nil => exact absurd rfl hne
      | cons n r =>
        have hbn : blocks_continuous P b n = true := (List.chain'_cons.1 hcont).1
        have hnr := (List.chain'_cons.1 hcont).2
        have hokn := hok n (by simp)
        have hm : mergeable P { b with is_free := true } n = true := by
          simp only [mergeable, hfree n (by simp), Bool.true_and]
          exact hbn
        rw [try_merge_with_next_merges P { b with is_free := true } n r
          (hok1 _ (by simp)) hokn hm] at hfreeeq
        simp only at hfreeeq
        have hafter := merged_block_after P b n hbn
        have hml : merge_loop P (r.length + 1)
            ({ addr := b.addr, capacity := b.capacity + n.capacity + P.H, is_free := true } ::
              r) = Outcome.fault := by
          apply merge_loop_all_free P _ _ (by simp) (by simp)
          · intro x hx
            rcases List.mem_cons.1 hx with h1 | h1
            · subst h1
              simp only [block_ok, hafter]
              exact ⟨hokb.1, hokn.2⟩
            · exact hok x (by simp [h1])
          · intro x hx
            rcases List.mem_cons.1 hx with h1 | h1
            · subst h1; rfl
            · exact hfree x (by simp [h1])
          · cases r with
            | nil => simp
            | cons x r1 =>
              have hnx := (List.chain'_cons.1 hnr).1
              refine List.chain'_cons.2 ⟨?_, (List.chain'_cons.1 hnr).2⟩
              simp only [blocks_continuous, beq_iff_eq] at hnx ⊢
              rw [hafter]
              exact hnx
        constructor
        · simp [run, step, hlive, hfreeeq]
        · intro m os
          have hmal := malloc_of_merge_fault P h0
            { st.h with blocks := { addr := b.addr,
                                    capacity := b.capacity + n.capacity + P.H,
                                    is_free := true } :: r }
            _ r m os rfl hat hml
          simp [run, step, hlive, hfreeeq, hmal]
    · intro m os hcap hmle
      cases hmerge : try_merge_with_next P ({ b with is_free := true } :: rest) with
      | fault =>
        left
        rw [hmerge] at hfreeeq
        simp [run, step, hlive, hfreeeq]
      | out_of_fuel => exact absurd hmerge (try_merge_with_next_fuel P _)
      | ok res =>
        obtain ⟨flag, chain⟩ := res
        rw [hmerge] at hfreeeq
        simp only at hfreeeq
        obtain ⟨c, rest1, e, ha, hf, hc⟩ :=
          try_merge_with_next_first P _ rest chain flag hok1 hmerge
        subst e
        have hokc : ∀ x ∈ c :: rest1, block_ok P x :=
          (try_merge_with_next_reshaped P _ _ flag hok1 hmerge).1.ok
        have hadj : adjusted m ≤ c.capacity := by
          simp only at hc
          simp only [adjusted, BLOCK_MIN_CAPACITY] at hcap ⊢
          split <;> omega
        have hpc : c.addr + P.H = p := by rw [ha, hp]
        rcases malloc_at_free_first_block P h0 { st.h with blocks := c :: rest1 } c rest1 m os
            rfl (ha.trans hat) hokc (hf.trans rfl) hadj with hmal | ⟨s2, hmal, hmap⟩
        · left
          simp [run, step, hlive, hfreeeq, hmal]
        · right
          refine ⟨s2, ?_, by simpa using hmap⟩
          simp [run, step, hlive, hfreeeq, hmal, hpc, hp0]

/-- Witness of C4: the sequence of the claim, run after `heap_init(1024)`, faults
(at its first allocation).  On a heap of a free block, a used block and a free
final block, `_malloc(100)` returns the payload 67371025 of the first block, and
the release of the used block leaves that block followed by free blocks only;
then `_free(67371025)` returns and `_malloc(90)` faults.  On `heap_free_used`,
whose final block is in use, the same allocation, release and allocation of 90
bytes return 67371025 again. -/
theorem C4_witness :
    run linux64
      [call.malloc 100 os_fail, call.malloc 100 os_fail, call.free 67371025,
       call.malloc 90 os_fail]
      { h := (heap_init linux64 1024 (os_at 67371008)).2, live := [] } = Outcome.fault ∧
    run linux64 [call.malloc 100 os_fail] session_free_used_free =
      Outcome.ok
        { h := { blocks := [{ addr := 67371008, capacity := 100, is_free := false },
                            { addr := 67371125, capacity := 3883, is_free := true },
                            { addr := 67375025, capacity := 100, is_free := false },
                            { addr := 67375142, capacity := 4041, is_free := true }],
                 mapped := [(67371008, 8192)] },
          live := [67371025, 67375042] } ∧
    run linux64 [call.malloc 100 os_fail, call.free 67375042] session_free_used_free =
      Outcome.ok session_used_then_free ∧
    67371025 ∈ session_used_then_free.live ∧
    (∃ st1, run linux64 [call.free 67371025] session_used_then_free = Outcome.ok st1) ∧
    run linux64 [call.free 67371025, call.malloc 90 os_fail] session_used_then_free =
      Outcome.fault ∧
    run linux64 [call.malloc 100 os_fail, call.free 67371025, call.malloc 90 os_fail]
      session_free_used =
      Outcome.ok
        { h := { blocks := [{ addr := 67371008, capacity := 90, is_free := false },
                            { addr := 67371115, capacity := 7951, is_free := true },
                            { addr := 67379083, capacity := 100, is_free := false }],
                 mapped := [(67371008, 8192)] },
          live := [67371025, 67379100] } :=
  ⟨(C4_reuse_of_freed_first_block_reads_through_null linux64 (by decide)).1
      1024 (os_at 67371008) 100 os_fail _ (by decide),
   by decide, by decide, by decide,
   (((C4_reuse_of_freed_first_block_reads_through_null linux64 (by decide)).2
      session_used_then_free { addr := 67371008, capacity := 100, is_free := false }
      [{ addr := 67371125, capacity := 3883, is_free := true },
       { addr := 67375025, capacity := 4158, is_free := true }]
      67371025 (by decide) rfl rfl rfl (by decide)).1
      (by decide) (by decide)
      (List.chain'_cons.2 ⟨by decide, List.chain'_cons.2 ⟨by decide, List.chain'_singleton _⟩⟩)).1,
   (((C4_reuse_of_freed_first_block_reads_through_null linux64 (by decide)).2
      session_used_then_free { addr := 67371008, capacity := 100, is_free := false }
      [{ addr := 67371125, capacity := 3883, is_free := true },
       { addr := 67375025, capacity := 4158, is_free := true }]
      67371025 (by decide) rfl rfl rfl (by decide)).1
      (by decide) (by decide)
      (List.chain'_cons.2 ⟨by decide, List.chain'_cons.2 ⟨by decide, List.chain'_singleton _⟩⟩)).2
      90 os_fail,
   by decide⟩

/-- C5: whenever `_malloc(size)` returns a non-null pointer `p`, the heap it
leaves has a header `b` with `p = b.addr + H` (so `p` is not the header address),
`b` is marked used and its capacity is at least `size` and at least 24; this
holds for every value of `size`. -/
theorem C5_malloc_returns_payload_of_used_block (P : Platform) (size : Nat)
    (os : mmap_outcome) (s s1 : heap) (p : Nat) (hH : 0 < P.H)
    (h : _malloc P size os s = Outcome.ok (p, s1)) (hp : p ≠ 0) :
    ∃ before b rest, s1.blocks = before ++ b :: rest ∧ p = b.addr + P.H ∧ p ≠ b.addr ∧
      b.is_free = false ∧ size ≤ b.capacity ∧ BLOCK_MIN_CAPACITY ≤ b.capacity := by
  simp only [_malloc] at h
  split at h
  · simp at h; exact absurd h.1.symm hp
  · split at h
    · simp at h
    · rename_i before chain hloc
      split at h
      · rename_i r hm
        split at h
        · simp at h; exact absurd h.1.symm hp
        · rename_i b rest hb
          simp only [Outcome.ok.injEq, Prod.mk.injEq] at h
          obtain ⟨hpe, hs⟩ := h
          obtain ⟨hfree, hcap⟩ := memalloc_block P size os _ chain r hm b rest hb
          have hadj := adjusted_ge size
          split at hpe
          · exact absurd hpe.symm hp
          · refine ⟨before ++ r.passed, b, rest, ?_, hpe.symm, ?_, hfree, ?_, ?_⟩
            · rw [← hs, hb]
            · omega
            · omega
            · omega
      · simp at h
      · simp at h

/-- Witness of C5: on a heap with a free block of 8058 bytes before a used one,
`_malloc(100)` returns the payload of a used block of capacity 100. -/
theorem C5_witness :
    ∃ before b rest,
      [({ addr := 67371008, capacity := 100, is_free := false } : block_header),
       { addr := 67371125, capacity := 7941, is_free := true },
       { addr := 67379083, capacity := 100, is_free := false }] = before ++ b :: rest ∧
      67371025 = b.addr + linux64.H ∧ 67371025 ≠ b.addr ∧
      b.is_free = false ∧ 100 ≤ b.capacity ∧ BLOCK_MIN_CAPACITY ≤ b.capacity :=
  C5_malloc_returns_payload_of_used_block linux64 100 os_fail heap_free_used
    { blocks := [{ addr := 67371008, capacity := 100, is_free := false },
                 { addr := 67371125, capacity := 7941, is_free := true },
                 { addr := 67379083, capacity := 100, is_free := false }],
      mapped := [(67371008, 8192)] }
    67371025 (by decide) (by decide) (by decide)

/-- C6 (as stated, refuted): when `heap_init` has mapped its region away from
`HEAP_START`, `heap_term` does not release it: it reads the heap head at
`HEAP_START`, where the heap has no header, and the mapping of 8192 bytes
stays. -/
theorem C6_teardown_misses_relocated_heap :
    (heap_init linux64 1024 { noreplace := none, anywhere := some 139637976727552 }).1 =
      139637976727552 ∧
    (heap_init linux64 1024 { noreplace := none, anywhere := some 139637976727552 }).2.mapped =
      [(139637976727552, 8192)] ∧
    heap_term linux64
      (heap_init linux64 1024 { noreplace := none, anywhere := some 139637976727552 }).2 =
      Outcome.fault := by
  decide

/-- C6 (amended): a heap that `heap_init` has mapped at `HEAP_START` satisfies
the invariant `Inv` and has its first header at `HEAP_START`; for every such
heap and every finite sequence of `_malloc` and `_free` calls that return,
`heap_term` releases exactly the spans of the maximal address-contiguous runs
of the block list, each from the first block of its run and as long as the sum
of `size_from_capacity(capacity)` over the run; the spans are pairwise disjoint
and their lengths add up to the sizes of the mappings of the heap. -/
theorem C6_heap_term_releases_the_runs (P : Platform) (hH : 0 < P.H)
    (hmin : P.H ≤ P.REGION_MIN_SIZE) (h0 : P.HEAP_START ≠ 0) :
    (∀ initial os, os_sane (region_actual_size P (size_from_capacity P initial)) os →
      (heap_init P initial os).1 = P.HEAP_START →
      Inv P { h := (heap_init P initial os).2, live := [] } ∧
      (heap_init P initial os).2.blocks.head?.map (fun b => b.addr) = some P.HEAP_START) ∧
    (∀ st0 calls st, Inv P st0 →
      st0.h.blocks.head?.map (fun b => b.addr) = some P.HEAP_START →
      run P calls st0 = Outcome.ok st →
      heap_term P st.h = Outcome.ok ((runs P st.h.blocks).map (run_span P)) ∧
      ((runs P st.h.blocks).map (run_span P)).Pairwise spans_apart ∧
      (((runs P st.h.blocks).map (run_span P)).map Prod.snd).sum =
        (st.h.mapped.map Prod.snd).sum ∧
      st.h.mapped = st0.h.mapped ∧
      (runs P st.h.blocks).flatten = st.h.blocks ∧
      (∀ r ∈ runs P st.h.blocks, r.Chain' (fun a b => blocks_continuous P a b = true)) ∧
      (runs P st.h.blocks).Chain' (run_boundary P)) := by
  constructor
  · intro initial os hos hat
    refine ⟨heap_init_inv P initial os hmin hos, ?_⟩
    simp only [heap_init] at hat ⊢
    split
    · rename_i hinvalid
      simp only [hinvalid, if_true] at hat
      exact absurd hat.symm h0
    · rename_i hvalid
      simp only [hvalid, Bool.false_eq_true, if_false] at hat
      simp [block_init, hat]
  · intro st0 calls st hinv hhead hrun
    obtain ⟨hinv1, hhead1, hmapped⟩ := run_keeps_inv P hH calls st0 st hinv hrun
    obtain ⟨t1, t2, t3⟩ := heap_term_runs P hH h0 st hinv1 (hhead1.trans hhead)
    exact ⟨t1, t2, t3, hmapped, runs_flatten P _, runs_contiguous P _, runs_maximal P _⟩

/-- Witness of C6 (amended): on a heap of two regions that are not adjacent,
after the release of the first payload, `heap_term` releases the two regions,
8192 bytes each. -/
theorem C6_witness :
    run linux64 [call.free 67371025] session_two_regions =
      Outcome.ok session_two_regions_freed ∧
    (runs linux64 session_two_regions_freed.h.blocks).map (run_span linux64) =
      [(67371008, 8192), (67387392, 8192)] ∧
    heap_term linux64 session_two_regions_freed.h =
      Outcome.ok ((runs linux64 session_two_regions_freed.h.blocks).map (run_span linux64)) :=
  ⟨by decide, by decide,
   ((C6_heap_term_releases_the_runs linux64 (by decide) (by decide) (by decide)).2
     session_two_regions [call.free 67371025] session_two_regions_freed
     session_two_regions_inv (by decide) (by decide)).1⟩

/-- C7: when both mapping attempts fail, `alloc_region` returns the invalid
region and `grow_heap` returns `NULL` with the chain as it was; a `_malloc` whose
scan reached the end of the chain then returns `NULL`, and the heap it leaves is
the heap as the scan left it: the same headers, the final one still without a
successor, and no mapping added. -/
theorem C7_failed_mapping_leaves_heap (P : Platform) (query : Nat) (os : mmap_outcome)
    (s : heap) (before chain : List block_header) (res : block_search_result)
    (hno : os.noreplace = none) (han : os.anywhere = none)
    (h0 : P.HEAP_START ≠ 0)
    (hloc : locate P.HEAP_START s.blocks = some (before, chain))
    (hscan : try_memalloc_existing P query chain = Outcome.ok res)
    (hend : res.type = bsr_type.BSR_REACHED_END_NOT_FOUND) :
    (∀ addr q, alloc_region P addr q os = REGION_INVALID) ∧
    region_is_invalid REGION_INVALID = true ∧
    grow_heap P query os res.block =
      Outcome.ok { passed := res.block, block := [], acquired := [] } ∧
    _malloc P query os s =
      Outcome.ok (0, { blocks := before ++ res.passed ++ res.block, mapped := s.mapped }) ∧
    next_of res.block = 0 := by
  have hall : ∀ addr q, alloc_region P addr q os = REGION_INVALID := by
    intro addr q
    simp [alloc_region, hno, han]
  obtain ⟨_, last, hlast⟩ := try_memalloc_existing_end P query chain res hscan hend
  have hgrow : grow_heap P query os res.block =
      Outcome.ok { passed := res.block, block := [], acquired := [] } := by
    rw [hlast]
    simp [grow_heap, hall, region_is_invalid, REGION_INVALID]
  refine ⟨hall, by decide, hgrow, ?_, ?_⟩
  · simp [_malloc, h0, hloc, memalloc, hscan, hend, hgrow]
  · rw [hlast]; rfl

/-- Witness of C7: on a heap whose only block is in use, `_malloc(100)` with a
failing OS returns `NULL` and leaves the heap as it was. -/
theorem C7_witness :
    _malloc linux64 100 os_fail heap_one_used = Outcome.ok (0, heap_one_used) :=
  (C7_failed_mapping_leaves_heap linux64 100 os_fail heap_one_used []
    heap_one_used.blocks
    { type := bsr_type.BSR_REACHED_END_NOT_FOUND, passed := [],
      block := heap_one_used.blocks }
    rfl rfl (by decide) (by decide) (by decide) rfl).2.2.2.1

/-- C9 (as stated, refuted): for the query `2^64 - 41` the sum
`query + H + 24` that `block_splittable` compares with the capacity wraps around
to 0.  A free block of 100 bytes, whose remainder `capacity - query - H` is below
24, is then split: its header is rewritten with the capacity `2^64 - 41`, and a
free tail header of capacity 124 is written after it. -/
theorem C9_wrapped_sum_splits_small_block :
    100 < 18446744073709551575 + linux64.H + BLOCK_MIN_CAPACITY ∧
    block_splittable linux64 { addr := 67371008, capacity := 100, is_free := true }
      18446744073709551575 = true ∧
    ∃ tail, split_if_too_big linux64 18446744073709551575
        [{ addr := 67371008, capacity := 100, is_free := true }] =
      Outcome.ok (some true,
        [{ addr := 67371008, capacity := 18446744073709551575, is_free := true }, tail]) ∧
      tail.capacity = 124 ∧ tail.is_free = true :=
  ⟨by decide, by decide,
   block_init linux64 (67371008 + linux64.H + 18446744073709551575)
     (size_sub 100 18446744073709551575),
   by decide, by decide, by decide⟩

/-- C9 (amended): for every block and every query whose sum with `H + 24` does
not overflow `size_t`: when `split_if_too_big` splits, the tail it creates is
free and has capacity at least 24; when the remainder `capacity - query - H`
would be below 24, `split_if_too_big` leaves the chain as it is, and
`try_memalloc_existing` returns the block it found with its capacity unreduced,
marked used, in front of the same successors. -/
theorem C9_split_respects_minimum (P : Platform) (b : block_header)
    (rest : List block_header) (q : Nat) (hcap : b.capacity < SIZE_MOD)
    (hq : q + P.H + BLOCK_MIN_CAPACITY < SIZE_MOD) :
    (∀ l, split_if_too_big P q (b :: rest) = Outcome.ok (some true, l) →
      ∃ b1 t, l = b1 :: t :: rest ∧ t.is_free = true ∧ BLOCK_MIN_CAPACITY ≤ t.capacity) ∧
    (b.capacity < q + P.H + BLOCK_MIN_CAPACITY →
      split_if_too_big P q (b :: rest) = Outcome.ok (none, b :: rest)) ∧
    (∀ query chain r, q = adjusted query →
      find_good_or_last P chain q = Outcome.ok r →
      r.type = bsr_type.BSR_FOUND_GOOD_BLOCK → r.block = b :: rest →
      b.capacity < q + P.H + BLOCK_MIN_CAPACITY →
      try_memalloc_existing P query chain =
        Outcome.ok { r with block := { b with is_free := false } :: rest }) := by
  have hnosplit : b.capacity < q + P.H + BLOCK_MIN_CAPACITY →
      block_splittable P b q = false := by
    intro h2
    simp only [block_splittable, size_add, SIZE_MOD, BLOCK_MIN_CAPACITY] at *
    simp only [Bool.and_eq_false_imp, decide_eq_false_iff_not]
    intro _
    omega
  refine ⟨?_, ?_, ?_⟩
  · intro l h
    simp only [split_if_too_big] at h
    split at h
    · rename_i hs
      simp only [Outcome.ok.injEq, Prod.mk.injEq, true_and] at h
      subst h
      refine ⟨_, _, rfl, rfl, ?_⟩
      simp only [block_splittable, Bool.and_eq_true, decide_eq_true_eq] at hs
      obtain ⟨_, hs⟩ := hs
      simp only [block_init, capacity_from_size, size_sub, size_add, SIZE_MOD,
        BLOCK_MIN_CAPACITY] at *
      omega
    · simp at h
  · intro h2
    simp [split_if_too_big, hnosplit h2]
  · intro query chain r hqa hf hty hblock h2
    rw [try_memalloc_existing_eq, ← hqa, hf]
    simp [hty, hblock, hnosplit h2]

/-- Witness of C9 (amended): a free block of 8058 bytes split for a query of 100 bytes
gets a free tail of at least 24 bytes, and a free block of 120 bytes is left
whole. -/
theorem C9_witness :
    (∃ b1 t,
      [({ addr := 67371008, capacity := 100, is_free := true } : block_header),
       { addr := 67371125, capacity := 7941, is_free := true }] = b1 :: t :: [] ∧
      t.is_free = true ∧ BLOCK_MIN_CAPACITY ≤ t.capacity) ∧
    split_if_too_big linux64 100 [{ addr := 67371008, capacity := 120, is_free := true }] =
      Outcome.ok (none, [{ addr := 67371008, capacity := 120, is_free := true }]) :=
  ⟨(C9_split_respects_minimum linux64 { addr := 67371008, capacity := 8058, is_free := true }
      [] 100 (by decide) (by decide)).1 _ (by decide),
   (C9_split_respects_minimum linux64 { addr := 67371008, capacity := 120, is_free := true }
      [] 100 (by decide) (by decide)).2.1 (by decide)⟩

/-- C10: `_free(NULL)` returns at once: the heap after the call is the heap
before it. -/
theorem C10_free_null_is_noop (P : Platform) (s : heap) : _free P 0 s = Outcome.ok s := by
  simp [_free]

/-! ## What a scan leaves behind -/

theorem find_loop_first_fit (P : Platform) (sz : Nat) :
    ∀ (fuel : Nat) (passed chain : List block_header) (r : block_search_result),
      (∀ x ∈ passed, x.is_free = false ∨ x.capacity < sz) →
      find_loop P sz fuel passed chain = Outcome.ok r →
      ∀ x ∈ r.passed, x.is_free = false ∨ x.capacity < sz := by
  intro fuel
  induction fuel with
  | zero => intro passed chain r _ h; simp [find_loop] at h
  | succ fuel ih =>
    intro passed chain r hp h
    cases chain with
    | nil =>
      cases passed with
      | nil =>
        simp only [find_loop, Outcome.ok.injEq] at h
        subst h
        simp
      | cons l before =>
        simp only [find_loop, Outcome.ok.injEq] at h
        subst h
        intro x hx
        exact hp x (List.mem_cons_of_mem _ (List.mem_reverse.1 hx))
    | cons block rest =>
      simp only [find_loop] at h
      split at h
      · simp at h
      · rename_i block1 rest1 hm
        split at h
        · simp only [Outcome.ok.injEq] at h
          subst h
          intro x hx
          exact hp x (List.mem_reverse.1 hx)
        · rename_i hgood
          apply ih (block1 :: passed) rest1 r _ h
          intro x hx
          rcases List.mem_cons.1 hx with h1 | h1
          · subst h1
            simp only [block_is_big_enough, Bool.and_eq_true, decide_eq_true_eq, not_and,
              not_le] at hgood
            cases hf : x.is_free with
            | false => exact Or.inl rfl
            | true => exact Or.inr (hgood hf)
          · exact hp x h1
      · simp at h
      · simp at h

/-- C11: whenever `find_good_or_last` returns `BSR_FOUND_GOOD_BLOCK`, the block
it returns is free and has capacity at least `sz`, and every header that
precedes it in the chain as the scan leaves it is used or has capacity below
`sz`: the block is the first fit in traversal order. -/
theorem C11_found_block_is_first_fit (P : Platform) (chain : List block_header) (sz : Nat)
    (r : block_search_result) (h : find_good_or_last P chain sz = Outcome.ok r)
    (ht : r.type = bsr_type.BSR_FOUND_GOOD_BLOCK) :
    ∃ b rest, r.block = b :: rest ∧ b.is_free = true ∧ sz ≤ b.capacity ∧
      ∀ x ∈ r.passed, x.is_free = false ∨ x.capacity < sz := by
  obtain ⟨b, rest, hb, hfree, hcap⟩ := find_good_or_last_found P sz chain r h ht
  refine ⟨b, rest, hb, hfree, hcap, ?_⟩
  cases chain with
  | nil => simp [find_good_or_last] at h; subst h; simp at ht
  | cons c cs => exact find_loop_first_fit P sz _ [] (c :: cs) r (by simp) h

/-- Witness of C11: in `chain_two_free` the scan for 400 bytes passes the used
first block, merges the two free neighbours into 317 bytes and passes them,
passes the used block and returns the free block of 7557 bytes. -/
theorem C11_witness :
    find_good_or_last linux64 chain_two_free 400 =
      Outcome.ok { type := bsr_type.BSR_FOUND_GOOD_BLOCK,
                   passed := [{ addr := 67371008, capacity := 100, is_free := false },
                              { addr := 67371125, capacity := 317, is_free := true },
                              { addr := 67371459, capacity := 50, is_free := false }],
                   block := [{ addr := 67371526, capacity := 7557, is_free := true },
                             { addr := 67379100, capacity := 83, is_free := false }] } ∧
    ∃ b rest,
      [({ addr := 67371526, capacity := 7557, is_free := true } : block_header),
       { addr := 67379100, capacity := 83, is_free := false }] = b :: rest ∧
      b.is_free = true ∧ 400 ≤ b.capacity ∧
      ∀ x ∈ [({ addr := 67371008, capacity := 100, is_free := false } : block_header),
             { addr := 67371125, capacity := 317, is_free := true },
             { addr := 67371459, capacity := 50, is_free := false }],
        x.is_free = false ∨ x.capacity < 400 :=
  ⟨by decide,
   C11_found_block_is_first_fit linux64 chain_two_free 400
     { type := bsr_type.BSR_FOUND_GOOD_BLOCK,
       passed := [{ addr := 67371008, capacity := 100, is_free := false },
                  { addr := 67371125, capacity := 317, is_free := true },
                  { addr := 67371459, capacity := 50, is_free := false }],
       block := [{ addr := 67371526, capacity := 7557, is_free := true },
                 { addr := 67379100, capacity := 83, is_free := false }] }
     (by decide) rfl⟩

theorem try_merge_with_next_head (P : Platform) (chain chain1 : List block_header)
    (flag : Bool) (h : try_merge_with_next P chain = Outcome.ok (flag, chain1)) :
    ∃ b b1 rest rest1, chain = b :: rest ∧ chain1 = b1 :: rest1 ∧ b1.addr = b.addr ∧
      b1.is_free = b.is_free := by
  match chain, h with
  | [], h => simp [try_merge_with_next] at h
  | [block], h =>
    simp only [try_merge_with_next] at h
    split at h
    · simp at h
    · simp only [Outcome.ok.injEq, Prod.mk.injEq] at h
      obtain ⟨_, hc⟩ := h
      subst hc
      exact ⟨_, _, _, _, rfl, rfl, rfl, rfl⟩
  | block :: next :: rest, h =>
    simp only [try_merge_with_next] at h
    split at h
    · rename_i hm
      simp only [Outcome.ok.injEq, Prod.mk.injEq] at h
      obtain ⟨_, hc⟩ := h
      subst hc
      simp only [mergeable, Bool.and_eq_true] at hm
      exact ⟨_, _, _, _, rfl, rfl, rfl, hm.1.1.symm⟩
    · simp only [Outcome.ok.injEq, Prod.mk.injEq] at h
      obtain ⟨_, hc⟩ := h
      subst hc
      exact ⟨_, _, _, _, rfl, rfl, rfl, rfl⟩

theorem try_merge_with_next_false (P : Platform) (chain chain1 : List block_header)
    (h : try_merge_with_next P chain = Outcome.ok (false, chain1)) :
    chain1 = chain ∧ (∀ b n rest, chain = b :: n :: rest → mergeable P b n = false) ∧
      (∀ b, chain = [b] → b.is_free = false) := by
  match chain, h with
  | [], h => simp [try_merge_with_next] at h
  | [block], h =>
    simp only [try_merge_with_next] at h
    split at h
    · simp at h
    · rename_i hf
      simp only [Outcome.ok.injEq, Prod.mk.injEq, true_and] at h
      subst h
      refine ⟨rfl, ?_, ?_⟩
      · intro b n rest e; simp at e
      · intro b e
        simp only [List.cons.injEq, and_true] at e
        subst e
        simpa using hf
  | block :: next :: rest, h =>
    simp only [try_merge_with_next] at h
    split at h
    · simp at h
    · rename_i hm
      simp only [Outcome.ok.injEq, Prod.mk.injEq, true_and] at h
      subst h
      refine ⟨rfl, ?_, ?_⟩
      · intro b n rest1 e
        simp only [List.cons.injEq] at e
        obtain ⟨e1, e2, _⟩ := e
        subst e1; subst e2
        simpa using hm
      · intro b e; simp at e

/-- When the loop `while (try_merge_with_next(block));` ends, a further call
on the chain it leaves returns `false`; the first header keeps its address and
its flag. -/
theorem merge_loop_settled (P : Platform) :
    ∀ (fuel : Nat) (chain chain1 : List block_header),
      merge_loop P fuel chain = Outcome.ok chain1 →
      try_merge_with_next P chain1 = Outcome.ok (false, chain1) ∧
      ∃ b b1 rest rest1, chain = b :: rest ∧ chain1 = b1 :: rest1 ∧ b1.addr = b.addr ∧
        b1.is_free = b.is_free := by
  intro fuel
  induction fuel with
  | zero => intro chain chain1 h; simp [merge_loop] at h
  | succ fuel ih =>
    intro chain chain1 h
    simp only [merge_loop] at h
    split at h
    · rename_i chain2 hm
      obtain ⟨b, b2, rest, rest2, e, e2, ha, hf⟩ := try_merge_with_next_head P _ _ _ hm
      obtain ⟨i1, c, c1, r, r1, f, f1, ga, gf⟩ := ih chain2 chain1 h
      refine ⟨i1, b, c1, rest, r1, e, f1, ?_, ?_⟩
      · rw [e2] at f; cases f; rw [ga, ha]
      · rw [e2] at f; cases f; rw [gf, hf]
    · rename_i chain2 hm
      simp only [Outcome.ok.injEq] at h
      subst h
      have := (try_merge_with_next_false P chain chain2 hm).1
      subst this
      exact ⟨hm, try_merge_with_next_head P _ _ _ hm⟩
    · simp at h
    · simp at h

theorem mergeable_congr (P : Platform) (a b c : block_header) (haddr : c.addr = b.addr)
    (hfree : c.is_free = b.is_free) : mergeable P a c = mergeable P a b := by
  simp [mergeable, blocks_continuous, haddr, hfree]

theorem find_loop_settled (P : Platform) (sz : Nat) :
    ∀ (fuel : Nat) (passed chain : List block_header) (r : block_search_result),
      (passed.reverse ++ chain.take 1).Chain' (settled P) →
      find_loop P sz fuel passed chain = Outcome.ok r →
      (r.passed ++ r.block.take 2).Chain' (settled P) := by
  intro fuel
  induction fuel with
  | zero => intro passed chain r _ h; simp [find_loop] at h
  | succ fuel ih =>
    intro passed chain r hc h
    cases chain with
    | nil =>
      cases passed with
      | nil =>
        simp only [find_loop, Outcome.ok.injEq] at h
        subst h
        simp
      | cons l before =>
        simp only [find_loop, Outcome.ok.injEq] at h
        subst h
        simpa using hc
    | cons block rest =>
      simp only [find_loop] at h
      split at h
      · simp at h
      · rename_i block1 rest1 hm
        obtain ⟨hfix, b, b1, t, t1, e, e1, ha, hf⟩ := merge_loop_settled P _ _ _ hm
        cases e; cases e1
        have hnext := (try_merge_with_next_false P _ _ hfix).2.1
        have key : (passed.reverse ++ (block1 :: rest1).take 2).Chain' (settled P) := by
          simp only [List.take_succ_cons, List.take_zero] at hc
          rw [List.chain'_append] at hc ⊢
          obtain ⟨c1, _, c3⟩ := hc
          refine ⟨c1, ?_, ?_⟩
          · cases rest1 with
            | nil => simp
            | cons n t2 =>
              simp only [List.take_succ_cons, List.take_zero]
              exact List.chain'_cons.2 ⟨hnext block1 n t2 rfl, List.chain'_singleton _⟩
          · intro x hx y hy
            simp only [List.take_succ_cons, List.head?_cons, Option.mem_def,
              Option.some.injEq] at hy
            subst hy
            have := c3 x hx block (by simp)
            simp only [settled] at this ⊢
            rw [mergeable_congr P x block block1 ha hf]
            exact this
        split at h
        · simp only [Outcome.ok.injEq] at h
          subst h
          exact key
        · apply ih (block1 :: passed) rest1 r _ h
          have e : (block1 :: passed).reverse ++ rest1.take 1 =
              passed.reverse ++ (block1 :: rest1).take 2 := by
            simp
          rw [e]
          exact key
      · simp at h
      · simp at h

/-- C16: when `find_good_or_last` returns, no header it visited, from the head
up to and including the returned block, is free with a successor that is both
free and address-contiguous with it: in the chain of the visited headers
followed by the successor of the returned block, `mergeable` is false for
every header and its successor. -/
theorem C16_visited_blocks_are_coalesced (P : Platform) (chain : List block_header)
    (sz : Nat) (r : block_search_result)
    (h : find_good_or_last P chain sz = Outcome.ok r) :
    (r.passed ++ r.block.take 2).Chain'
      (fun a b => ¬ (a.is_free = true ∧ b.is_free = true ∧ b.addr = block_after P a)) := by
  have hs : (r.passed ++ r.block.take 2).Chain' (settled P) := by
    cases chain with
    | nil =>
      simp only [find_good_or_last, Outcome.ok.injEq] at h
      subst h
      simp
    | cons c cs =>
      apply find_loop_settled P sz _ [] (c :: cs) r _ h
      simp
  refine List.Chain'.imp ?_ hs
  intro a b hab
  simp only [settled, mergeable, blocks_continuous] at hab
  intro hcon
  obtain ⟨h1, h2, h3⟩ := hcon
  simp [h1, h2, h3] at hab

/-- Witness of C16: after the scan of `chain_two_free` for 400 bytes, which has
merged the two free neighbours, none of the visited blocks is free in front of
a free, address-contiguous successor. -/
theorem C16_witness :
    [({ addr := 67371008, capacity := 100, is_free := false } : block_header),
     { addr := 67371125, capacity := 317, is_free := true },
     { addr := 67371459, capacity := 50, is_free := false },
     { addr := 67371526, capacity := 7557, is_free := true },
     { addr := 67379100, capacity := 83, is_free := false }].Chain'
      (fun a b => ¬ (a.is_free = true ∧ b.is_free = true ∧ b.addr = block_after linux64 a)) :=
  C16_visited_blocks_are_coalesced linux64 chain_two_free 400
    { type := bsr_type.BSR_FOUND_GOOD_BLOCK,
      passed := [{ addr := 67371008, capacity := 100, is_free := false },
                 { addr := 67371125, capacity := 317, is_free := true },
                 { addr := 67371459, capacity := 50, is_free := false }],
      block := [{ addr := 67371526, capacity := 7557, is_free := true },
                { addr := 67379100, capacity := 83, is_free := false }] }
    (by decide)

/-! ## A scan that reaches a free final block -/

theorem try_merge_with_next_last_free (P : Platform) (chain chain1 : List block_header)
    (flag : Bool) (hl : last_free chain)
    (h : try_merge_with_next P chain = Outcome.ok (flag, chain1)) : last_free chain1 := by
  match chain, h, hl with
  | [], h, _ => simp [try_merge_with_next] at h
  | [block], h, hl =>
    obtain ⟨b, hb, hf⟩ := hl
    simp only [List.getLast?_singleton, Option.some.injEq] at hb
    subst hb
    simp [try_merge_with_next, hf] at h
  | block :: next :: rest, h, hl =>
    simp only [try_merge_with_next] at h
    split at h
    · simp only [Outcome.ok.injEq, Prod.mk.injEq] at h
      obtain ⟨_, hc⟩ := h
      subst hc
      cases rest with
      | nil => exact ⟨_, rfl, rfl⟩
      | cons c cs =>
        obtain ⟨b, hb, hf⟩ := hl
        refine ⟨b, ?_, hf⟩
        simpa [List.getLast?_cons_cons] using hb
    · simp only [Outcome.ok.injEq, Prod.mk.injEq] at h
      obtain ⟨_, hc⟩ := h
      subst hc
      exact hl

theorem merge_loop_last_free (P : Platform) :
    ∀ (fuel : Nat) (chain chain1 : List block_header), last_free chain →
      merge_loop P fuel chain = Outcome.ok chain1 → last_free chain1 := by
  intro fuel
  induction fuel with
  | zero => intro chain chain1 _ h; simp [merge_loop] at h
  | succ fuel ih =>
    intro chain chain1 hl h
    simp only [merge_loop] at h
    split at h
    · rename_i chain2 hm
      exact ih chain2 chain1 (try_merge_with_next_last_free P _ _ _ hl hm) h
    · rename_i chain2 hm
      simp only [Outcome.ok.injEq] at h
      subst h
      exact try_merge_with_next_last_free P _ _ _ hl hm
    · simp at h
    · simp at h

theorem find_loop_last_free (P : Platform) (sz : Nat) :
    ∀ (fuel : Nat) (passed chain : List block_header) (r : block_search_result),
      last_free chain → find_loop P sz fuel passed chain = Outcome.ok r →
      r.type = bsr_type.BSR_FOUND_GOOD_BLOCK := by
  intro fuel
  induction fuel with
  | zero => intro passed chain r _ h; simp [find_loop] at h
  | succ fuel ih =>
    intro passed chain r hl h
    cases chain with
    | nil =>
      obtain ⟨b, hb, _⟩ := hl
      simp at hb
    | cons block rest =>
      simp only [find_loop] at h
      split at h
      · simp at h
      · rename_i block1 rest1 hm
        have hl1 := merge_loop_last_free P _ _ _ hl hm
        have hfix := (merge_loop_settled P _ _ _ hm).1
        split at h
        · simp only [Outcome.ok.injEq] at h
          subst h
          rfl
        · cases rest1 with
          | nil =>
            obtain ⟨b, hb, hf⟩ := hl1
            simp only [List.getLast?_singleton, Option.some.injEq] at hb
            subst hb
            simp [try_merge_with_next, hf] at hfix
          | cons n t =>
            apply ih (block1 :: passed) (n :: t) r _ h
            obtain ⟨b, hb, hf⟩ := hl1
            exact ⟨b, by simpa [List.getLast?_cons_cons] using hb, hf⟩
      · simp at h
      · simp at h

/-! ## A scan of a chain whose final block is in use -/

theorem try_merge_with_next_last_used (P : Platform) (chain : List block_header)
    (hl : last_used chain) :
    ∃ flag chain1, try_merge_with_next P chain = Outcome.ok (flag, chain1) ∧
      last_used chain1 := by
  match chain, hl with
  | [], hl =>
    obtain ⟨b, hb, _⟩ := hl
    simp at hb
  | [block], hl =>
    obtain ⟨b, hb, hf⟩ := hl
    simp only [List.getLast?_singleton, Option.some.injEq] at hb
    subst hb
    exact ⟨false, [block], by simp [try_merge_with_next, hf], block, rfl, hf⟩
  | block :: next :: rest, hl =>
    simp only [try_merge_with_next]
    cases hm : mergeable P block next with
    | false => exact ⟨false, block :: next :: rest, by simp, hl⟩
    | true =>
      refine ⟨true, block_init P block.addr (size_from_capacity P
        (size_add block.capacity (size_from_capacity P next.capacity))) :: rest, by simp, ?_⟩
      obtain ⟨b, hb, hf⟩ := hl
      cases rest with
      | nil =>
        simp only [List.getLast?_cons_cons, List.getLast?_singleton, Option.some.injEq] at hb
        subst hb
        simp [mergeable, hf] at hm
      | cons c cs =>
        exact ⟨b, by simpa [List.getLast?_cons_cons] using hb, hf⟩

theorem merge_loop_last_used (P : Platform) :
    ∀ (fuel : Nat) (chain : List block_header), last_used chain → chain.length ≤ fuel →
      ∃ chain1, merge_loop P fuel chain = Outcome.ok chain1 ∧ last_used chain1 := by
  intro fuel
  induction fuel with
  | zero =>
    intro chain hl hlen
    obtain ⟨b, hb, _⟩ := hl
    cases chain with
    | nil => simp at hb
    | cons c cs => simp at hlen
  | succ fuel ih =>
    intro chain hl hlen
    obtain ⟨flag, chain1, hm, hl1⟩ := try_merge_with_next_last_used P chain hl
    obtain ⟨_, h2, h3⟩ := try_merge_with_next_length P chain chain1 flag hm
    simp only [merge_loop, hm]
    cases flag with
    | true =>
      have := h2 rfl
      exact ih chain1 hl1 (by omega)
    | false => exact ⟨chain1, rfl, hl1⟩

theorem find_loop_last_used (P : Platform) (sz : Nat) :
    ∀ (fuel : Nat) (passed chain : List block_header), last_used chain →
      chain.length < fuel →
      ∃ r, find_loop P sz fuel passed chain = Outcome.ok r := by
  intro fuel
  induction fuel with
  | zero => intro passed chain _ h; omega
  | succ fuel ih =>
    intro passed chain hl hlen
    cases chain with
    | nil =>
      obtain ⟨b, hb, _⟩ := hl
      simp at hb
    | cons block rest =>
      obtain ⟨chain1, hm, hl1⟩ := merge_loop_last_used P (rest.length + 1) (block :: rest) hl
        (by simp)
      obtain ⟨_, hlen1⟩ := (merge_loop_fuel P (rest.length + 1) (block :: rest) (by simp)
        (by simp)).2 chain1 hm
      simp only [find_loop, hm]
      cases chain1 with
      | nil =>
        obtain ⟨b, hb, _⟩ := hl1
        simp at hb
      | cons block1 rest1 =>
        simp only
        split
        · exact ⟨_, rfl⟩
        · cases rest1 with
          | nil =>
            cases fuel with
            | zero => simp only [List.length_cons] at hlen; omega
            | succ f => exact ⟨_, rfl⟩
          | cons n t =>
            apply ih (block1 :: passed) (n :: t)
            · obtain ⟨b, hb, hf⟩ := hl1
              exact ⟨b, by simpa [List.getLast?_cons_cons] using hb, hf⟩
            · simp only [List.length_cons] at hlen hlen1 ⊢
              omega

/-- On a chain whose final block is in use the scan never faults: it returns a
block it found, or `BSR_REACHED_END_NOT_FOUND` with the final header of the
chain. -/
theorem find_good_or_last_of_used_last (P : Platform) (chain : List block_header)
    (sz : Nat) (hl : last_used chain) :
    ∃ r, find_good_or_last P chain sz = Outcome.ok r ∧
      (r.type = bsr_type.BSR_FOUND_GOOD_BLOCK ∨
        (r.type = bsr_type.BSR_REACHED_END_NOT_FOUND ∧ ∃ last, r.block = [last])) := by
  cases chain with
  | nil =>
    obtain ⟨b, hb, _⟩ := hl
    simp at hb
  | cons c cs =>
    obtain ⟨r, hr⟩ := find_loop_last_used P sz ((c :: cs).length + 1) [] (c :: cs) hl
      (Nat.lt_succ_self _)
    have hr1 : find_good_or_last P (c :: cs) sz = Outcome.ok r := hr
    refine ⟨r, hr1, ?_⟩
    cases hty : r.type with
    | BSR_FOUND_GOOD_BLOCK => exact Or.inl rfl
    | BSR_REACHED_END_NOT_FOUND =>
      exact Or.inr ⟨rfl, find_good_or_last_end P sz _ r hr1 hty⟩
    | BSR_CORRUPTED =>
      exfalso
      have key : ∀ (fuel : Nat) (passed chain : List block_header)
          (r : block_search_result), find_loop P sz fuel passed chain = Outcome.ok r →
          r.type ≠ bsr_type.BSR_CORRUPTED := by
        intro fuel
        induction fuel with
        | zero => intro passed chain r h; simp [find_loop] at h
        | succ fuel ih =>
          intro passed chain r h
          cases chain with
          | nil =>
            cases passed with
            | nil => simp only [find_loop, Outcome.ok.injEq] at h; subst h; simp
            | cons l before => simp only [find_loop, Outcome.ok.injEq] at h; subst h; simp
          | cons block rest =>
            simp only [find_loop] at h
            split at h
            · simp at h
            · split at h
              · simp only [Outcome.ok.injEq] at h; subst h; simp
              · exact ih _ _ _ h
            · simp at h
            · simp at h
      exact key _ _ _ r hr hty

/-- C12 (the code faults): on every chain whose final block is free,
`find_good_or_last` never returns `BSR_REACHED_END_NOT_FOUND`: it either finds a
block before the end, or reads `is_free` through the null `next` of the free
final block.  On the single free block that `heap_init` leaves it reads through
`NULL` whatever the size. -/
theorem C12_scan_reads_through_null_at_free_final_block (P : Platform)
    (chain : List block_header) (sz : Nat) (hl : last_free chain) :
    (find_good_or_last P chain sz = Outcome.fault ∨
      ∃ r, find_good_or_last P chain sz = Outcome.ok r ∧
        r.type = bsr_type.BSR_FOUND_GOOD_BLOCK) ∧
    (∀ b, chain = [b] → find_good_or_last P chain sz = Outcome.fault) := by
  constructor
  · cases hf : find_good_or_last P chain sz with
    | ok r =>
      right
      refine ⟨r, rfl, ?_⟩
      cases chain with
      | nil =>
        obtain ⟨b, hb, _⟩ := hl
        simp at hb
      | cons c cs => exact find_loop_last_free P sz _ [] (c :: cs) r hl hf
    | fault => left; rfl
    | out_of_fuel => exact absurd hf (find_good_or_last_fuel P sz chain)
  · intro b e
    subst e
    obtain ⟨c, hc, hfree⟩ := hl
    simp only [List.getLast?_singleton, Option.some.injEq] at hc
    subst hc
    simp [find_good_or_last, find_loop, merge_loop, try_merge_with_next, hfree]

/-- Witness of C12: on the single free block of 8175 bytes that `heap_init(1024)`
leaves, the scan for 10000 bytes faults; on a chain whose free final block is
too small it faults as well. -/
theorem C12_witness :
    find_good_or_last linux64 fresh_heap.blocks 10000 = Outcome.fault ∧
    find_good_or_last linux64
      [{ addr := 67371008, capacity := 8058, is_free := false },
       { addr := 67379083, capacity := 100, is_free := true }] 200 = Outcome.fault :=
  ⟨(C12_scan_reads_through_null_at_free_final_block linux64 fresh_heap.blocks 10000
      ⟨{ addr := 67371008, capacity := 8175, is_free := true }, by decide, rfl⟩).2
      { addr := 67371008, capacity := 8175, is_free := true } (by decide),
   by decide⟩

/-! ## Merge and split, header by header -/

/-- C13 (the code faults): `try_merge_with_next` on a free block without a
successor reads `is_free` through the null `next` instead of returning `false`.
For the rest the function is as claimed: a used block without a successor gives
`false` and no change; with a successor `n` the call returns `true` exactly
when both are free and `n` is at `block + H + capacity`, and then (the sum not
overflowing `size_t`) the block gets capacity `capacity + H + n.capacity`, the
successors of `n`, stays free and ends where `n` ended; otherwise it returns
`false` and changes nothing. -/
theorem C13_merge_without_successor_reads_through_null (P : Platform) (b : block_header) :
    (b.is_free = true → try_merge_with_next P [b] = Outcome.fault) ∧
    (b.is_free = false → try_merge_with_next P [b] = Outcome.ok (false, [b])) ∧
    (∀ n rest,
      (mergeable P b n = true ↔
        (b.is_free = true ∧ n.is_free = true ∧ n.addr = b.addr + P.H + b.capacity)) ∧
      (mergeable P b n = false →
        try_merge_with_next P (b :: n :: rest) = Outcome.ok (false, b :: n :: rest)) ∧
      (mergeable P b n = true → b.capacity + P.H + n.capacity < SIZE_MOD →
        try_merge_with_next P (b :: n :: rest) =
          Outcome.ok (true,
            { addr := b.addr, capacity := b.capacity + P.H + n.capacity, is_free := true } ::
              rest) ∧
        block_after P
            { addr := b.addr, capacity := b.capacity + P.H + n.capacity, is_free := true } =
          block_after P n)) := by
  refine ⟨?_, ?_, ?_⟩
  · intro hf
    simp [try_merge_with_next, hf]
  · intro hf
    simp [try_merge_with_next, hf]
  · intro n rest
    refine ⟨?_, ?_, ?_⟩
    · simp [mergeable, blocks_continuous, block_after, and_assoc]
    · intro hm
      simp [try_merge_with_next, hm]
    · intro hm hsum
      have hm1 := hm
      simp only [mergeable, blocks_continuous, block_after, Bool.and_eq_true,
        beq_iff_eq] at hm1
      constructor
      · simp only [try_merge_with_next, hm, if_true, Outcome.ok.injEq, Prod.mk.injEq, true_and,
          List.cons.injEq, and_true, block_init, block_header.mk.injEq]
        simp only [capacity_from_size, size_from_capacity, size_add, size_sub, SIZE_MOD] at *
        omega
      · simp only [block_after]
        omega

/-- Witness of C13: on the single free block that `heap_init(1024)` leaves, the
call faults. -/
theorem C13_witness :
    try_merge_with_next linux64 [{ addr := 67371008, capacity := 8175, is_free := true }] =
      Outcome.fault :=
  (C13_merge_without_successor_reads_through_null linux64
    { addr := 67371008, capacity := 8175, is_free := true }).1 rfl

/-- C14 (the code returns no value): for every block and every query whose sum
with `H + 24` does not overflow `size_t`, when the block is free and
`q + H + 24 <= capacity` the call returns `true`, shrinks the block to `q`, and
puts behind it a free header at `contents + q` with capacity `capacity - q - H`
and the old successors, which ends where the block ended; otherwise no header
changes, and the call reaches the end of the function without a `return`: it
returns no value, not `false`. -/
theorem C14_split_without_return_value (P : Platform) (b : block_header)
    (rest : List block_header) (q : Nat) (hcap : b.capacity < SIZE_MOD)
    (hq : q + P.H + BLOCK_MIN_CAPACITY < SIZE_MOD) :
    ((b.is_free = true ∧ q + P.H + BLOCK_MIN_CAPACITY ≤ b.capacity) →
      split_if_too_big P q (b :: rest) =
        Outcome.ok (some true,
          { b with capacity := q } ::
            { addr := b.addr + P.H + q, capacity := b.capacity - q - P.H, is_free := true } ::
              rest) ∧
      block_after P
          { addr := b.addr + P.H + q, capacity := b.capacity - q - P.H, is_free := true } =
        block_after P b) ∧
    (¬ (b.is_free = true ∧ q + P.H + BLOCK_MIN_CAPACITY ≤ b.capacity) →
      split_if_too_big P q (b :: rest) = Outcome.ok (none, b :: rest)) := by
  constructor
  · intro hs
    obtain ⟨hfree, hle⟩ := hs
    have hsp : block_splittable P b q = true := by
      simp only [block_splittable, hfree, Bool.true_and, decide_eq_true_eq, size_add, SIZE_MOD,
        BLOCK_MIN_CAPACITY] at *
      omega
    constructor
    · simp only [split_if_too_big, hsp, if_true, Outcome.ok.injEq, Prod.mk.injEq, true_and,
        List.cons.injEq, and_true, block_init, block_header.mk.injEq]
      simp only [capacity_from_size, size_sub, SIZE_MOD, BLOCK_MIN_CAPACITY] at *
      omega
    · simp only [block_after, BLOCK_MIN_CAPACITY] at *
      omega
  · intro hs
    have hsp : block_splittable P b q = false := by
      simp only [block_splittable, Bool.and_eq_false_imp, decide_eq_false_iff_not]
      intro hfree
      have h3 : ¬ (q + P.H + BLOCK_MIN_CAPACITY ≤ b.capacity) := fun h => hs ⟨hfree, h⟩
      simp only [size_add, SIZE_MOD, BLOCK_MIN_CAPACITY] at *
      omega
    simp [split_if_too_big, hsp]

/-- Witness of C14: `split_if_too_big` with a query of 100 bytes on a free block
of 100 bytes changes nothing and returns no value. -/
theorem C14_witness :
    split_if_too_big linux64 100 [{ addr := 67371008, capacity := 100, is_free := true }] =
      Outcome.ok (none, [{ addr := 67371008, capacity := 100, is_free := true }]) :=
  (C14_split_without_return_value linux64 { addr := 67371008, capacity := 100, is_free := true }
    [] 100 (by decide) (by decide)).2 (by decide)

theorem size_add_lt (a b : Nat) : size_add a b < SIZE_MOD := by
  simp only [size_add, SIZE_MOD]
  omega

theorem size_sub_add_cancel (x h : Nat) (hx : x < SIZE_MOD) :
    size_sub (size_add x h) h = x := by
  simp only [size_sub, size_add, SIZE_MOD] at *
  omega

/-- C15 (as stated, refuted): after three allocations of 100 bytes and the
release of the second, the third and the first, the last `_free` returns with
the first block merged with its neighbour only: the block of 217 bytes at
the payload just freed is free, and its successor is free and starts where it
ends. -/
theorem C15_free_leaves_free_contiguous_successor :
    run linux64 calls_free_backwards session_free_used =
      Outcome.ok session_after_free_backwards ∧
    mergeable linux64 { addr := 67371008, capacity := 217, is_free := true }
      { addr := 67371242, capacity := 7824, is_free := true } = true := by
  decide

/-- C15 (amended): when `_free(p)` returns for a non-null `p`, the header at
`p - H` has a successor `n`, and the call has made one merge attempt: either
`n` is used or not address-contiguous, and the chain is as before with the
block marked free; or `n` was free and contiguous, and the block, marked free,
has absorbed `n` and nothing more, so that its new successor is the block that
followed `n`, whatever its state. -/
theorem C15_free_merges_at_most_once (P : Platform) (p : Nat) (s s1 : heap) (hp : p ≠ 0)
    (h : _free P p s = Outcome.ok s1) :
    ∃ before header n rest,
      locate (p - P.H) s.blocks = some (before, header :: n :: rest) ∧
      header.addr + P.H = p ∧
      ((mergeable P { header with is_free := true } n = false ∧
          s1.blocks = before ++ { header with is_free := true } :: n :: rest) ∨
       (n.is_free = true ∧ n.addr = block_after P header ∧
          ∃ b1, s1.blocks = before ++ b1 :: rest ∧ b1.addr = header.addr ∧
            b1.is_free = true ∧
            (header.capacity + P.H + n.capacity < SIZE_MOD →
              b1.capacity = header.capacity + P.H + n.capacity))) := by
  simp only [_free, hp, if_false] at h
  split at h
  · simp at h
  · rename_i hge
    split at h
    · simp at h
    · simp at h
    · rename_i before header rest hloc
      obtain ⟨_, _, b, rest0, hchain, haddr⟩ := locate_some _ _ _ _ hloc
      cases hchain
      have hpa : header.addr + P.H = p := by omega
      cases rest with
      | nil =>
        cases hfree : header.is_free <;> simp [try_merge_with_next] at h
      | cons n rest1 =>
        refine ⟨before, header, n, rest1, hloc, hpa, ?_⟩
        cases hm : mergeable P { header with is_free := true } n with
        | false =>
          left
          simp only [try_merge_with_next, hm, Bool.false_eq_true, if_false,
            Outcome.ok.injEq] at h
          subst h
          exact ⟨rfl, rfl⟩
        | true =>
          right
          simp only [try_merge_with_next, hm, if_true, Outcome.ok.injEq] at h
          subst h
          simp only [mergeable, blocks_continuous, block_after, Bool.and_eq_true,
            beq_iff_eq, Bool.true_and] at hm
          refine ⟨hm.1, hm.2, _, rfl, rfl, rfl, ?_⟩
          intro hsum
          simp only [block_init, capacity_from_size, size_from_capacity, size_add, size_sub,
            SIZE_MOD] at *
          omega

/-- Witness of C15 (amended): on the heap that the first five calls of
`calls_free_backwards` leave, `_free` of the first payload merges the first
block with its neighbour of 100 bytes and stops in front of the free block
of 7824 bytes. -/
theorem C15_witness :
    ∃ before header n rest,
      locate (67371025 - linux64.H)
          [{ addr := 67371008, capacity := 100, is_free := false },
           { addr := 67371125, capacity := 100, is_free := true },
           { addr := 67371242, capacity := 7824, is_free := true },
           { addr := 67379083, capacity := 100, is_free := false }] =
        some (before, header :: n :: rest) ∧
      header.addr + linux64.H = 67371025 ∧
      ((mergeable linux64 { header with is_free := true } n = false ∧
          session_after_free_backwards.h.blocks =
            before ++ { header with is_free := true } :: n :: rest) ∨
       (n.is_free = true ∧ n.addr = block_after linux64 header ∧
          ∃ b1, session_after_free_backwards.h.blocks = before ++ b1 :: rest ∧
            b1.addr = header.addr ∧ b1.is_free = true ∧
            (header.capacity + linux64.H + n.capacity < SIZE_MOD →
              b1.capacity = header.capacity + linux64.H + n.capacity))) :=
  C15_free_merges_at_most_once linux64 67371025
    { blocks := [{ addr := 67371008, capacity := 100, is_free := false },
                 { addr := 67371125, capacity := 100, is_free := true },
                 { addr := 67371242, capacity := 7824, is_free := true },
                 { addr := 67379083, capacity := 100, is_free := false }],
      mapped := [(67371008, 8192)] }
    session_after_free_backwards.h (by decide) (by decide)

/-! ## The number of steps of a scan -/

theorem merge_loop_count_outcome (P : Platform) :
    ∀ (fuel : Nat) (chain : List block_header),
      (merge_loop_count P fuel chain).2 = merge_loop P fuel chain := by
  intro fuel
  induction fuel with
  | zero => intro chain; rfl
  | succ fuel ih =>
    intro chain
    simp only [merge_loop_count, merge_loop]
    cases hm : try_merge_with_next P chain with
    | ok res =>
      obtain ⟨flag, chain1⟩ := res
      cases flag with
      | true => simp only [ih]
      | false => rfl
    | fault => rfl
    | out_of_fuel => rfl

theorem merge_loop_count_bound (P : Platform) :
    ∀ (fuel : Nat) (chain : List block_header), chain ≠ [] →
      (merge_loop_count P fuel chain).1 + 1 ≤ chain.length ∧
      ∀ chain1, (merge_loop_count P fuel chain).2 = Outcome.ok chain1 →
        chain1.length + (merge_loop_count P fuel chain).1 = chain.length := by
  intro fuel
  induction fuel with
  | zero =>
    intro chain hne
    cases chain with
    | nil => exact absurd rfl hne
    | cons b rest => simp [merge_loop_count]
  | succ fuel ih =>
    intro chain hne
    have hpos : 1 ≤ chain.length := by
      cases chain with
      | nil => exact absurd rfl hne
      | cons b rest => simp
    simp only [merge_loop_count]
    cases hm : try_merge_with_next P chain with
    | ok res =>
      obtain ⟨flag, chain1⟩ := res
      obtain ⟨h1, h2, h3⟩ := try_merge_with_next_length P chain chain1 flag hm
      cases flag with
      | true =>
        have hl := h2 rfl
        obtain ⟨i1, i2⟩ := ih chain1 h1
        refine ⟨by simp only; omega, ?_⟩
        intro chain2 hc2
        have := i2 chain2 hc2
        simp only
        omega
      | false =>
        have := h3 rfl
        subst this
        refine ⟨by simpa using hpos, ?_⟩
        intro chain2 hc2
        simp only [Outcome.ok.injEq] at hc2
        subst hc2
        simp
    | fault => exact ⟨by simpa using hpos, by simp⟩
    | out_of_fuel => exact ⟨by simpa using hpos, by simp⟩

theorem find_loop_count_outcome (P : Platform) (sz : Nat) :
    ∀ (fuel : Nat) (passed chain : List block_header),
      (find_loop_count P sz fuel passed chain).2 = find_loop P sz fuel passed chain := by
  intro fuel
  induction fuel with
  | zero => intro passed chain; rfl
  | succ fuel ih =>
    intro passed chain
    cases chain with
    | nil =>
      cases passed with
      | nil => rfl
      | cons l before => rfl
    | cons block rest =>
      simp only [find_loop_count, find_loop]
      have e := merge_loop_count_outcome P (rest.length + 1) (block :: rest)
      rcases hc : merge_loop_count P (rest.length + 1) (block :: rest) with ⟨m, o⟩
      rw [hc] at e
      simp only at e
      rw [← e]
      cases o with
      | ok chain1 =>
        cases chain1 with
        | nil => rfl
        | cons block1 rest1 =>
          simp only
          split
          · rfl
          · exact ih _ _
      | fault => rfl
      | out_of_fuel => rfl

theorem find_loop_count_bound (P : Platform) (sz : Nat) :
    ∀ (fuel : Nat) (passed chain : List block_header),
      (find_loop_count P sz fuel passed chain).1.merges +
        (find_loop_count P sz fuel passed chain).1.advances ≤ chain.length := by
  intro fuel
  induction fuel with
  | zero => intro passed chain; simp [find_loop_count]
  | succ fuel ih =>
    intro passed chain
    cases chain with
    | nil =>
      cases passed with
      | nil => simp [find_loop_count]
      | cons l before => simp [find_loop_count]
    | cons block rest =>
      simp only [find_loop_count]
      obtain ⟨b1, b2⟩ := merge_loop_count_bound P (rest.length + 1) (block :: rest) (by simp)
      rcases hc : merge_loop_count P (rest.length + 1) (block :: rest) with ⟨m, o⟩
      rw [hc] at b1 b2
      simp only [List.length_cons] at b1 b2 ⊢
      cases o with
      | ok chain1 =>
        cases chain1 with
        | nil => simp only; omega
        | cons block1 rest1 =>
          have hl := b2 (block1 :: rest1) rfl
          simp only [List.length_cons] at hl
          simp only
          split
          · simp only; omega
          · have := ih (block1 :: passed) rest1
            simp only
            omega
      | fault => simp only; omega
      | out_of_fuel => simp only; omega

/-- C20: `find_good_or_last` ends on every chain, by a return or by the fault,
never by exhausting the budget of its loops; each successful
`try_merge_with_next` removes one header from the chain, and the number of
successful merges plus the number of advances `block = block->next` is at most
the number of headers of the chain at entry. -/
theorem C20_scan_ends_within_the_length_of_the_chain (P : Platform)
    (chain : List block_header) (sz : Nat) :
    (find_good_or_last_count P chain sz).2 = find_good_or_last P chain sz ∧
    find_good_or_last P chain sz ≠ Outcome.out_of_fuel ∧
    (∀ c c1, try_merge_with_next P c = Outcome.ok (true, c1) → c1.length + 1 = c.length) ∧
    (find_good_or_last_count P chain sz).1.merges +
      (find_good_or_last_count P chain sz).1.advances ≤ chain.length := by
  refine ⟨?_, find_good_or_last_fuel P sz chain, ?_, ?_⟩
  · cases chain with
    | nil => rfl
    | cons b rest => exact find_loop_count_outcome P sz _ [] (b :: rest)
  · intro c c1 h
    exact (try_merge_with_next_length P c c1 true h).2.1 rfl
  · cases chain with
    | nil => simp [find_good_or_last_count]
    | cons b rest => exact find_loop_count_bound P sz _ [] (b :: rest)

/-! ## The size of a region -/

theorem ceil_div_eq (x p : Nat) (hp : 0 < p) :
    x / p + (if x % p > 0 then 1 else 0) = ceil_div x p := by
  have hx := Nat.div_add_mod x p
  have hr := Nat.mod_lt x hp
  unfold ceil_div
  symm
  split
  · apply Nat.div_eq_of_lt_le
    · rw [Nat.add_mul, Nat.mul_comm (x / p) p]
      omega
    · rw [Nat.succ_mul, Nat.add_mul, Nat.mul_comm (x / p) p]
      omega
  · apply Nat.div_eq_of_lt_le
    · rw [Nat.add_zero, Nat.mul_comm (x / p) p]
      omega
    · rw [Nat.add_zero, Nat.succ_mul, Nat.mul_comm (x / p) p]
      omega

theorem le_ceil_div_mul (x p : Nat) (hp : 0 < p) : x ≤ ceil_div x p * p := by
  have h := Nat.lt_mul_div_succ (x + p - 1) hp
  unfold ceil_div
  rw [Nat.mul_add, Nat.mul_one, Nat.mul_comm] at h
  omega

theorem ceil_div_mul_le (x p k : Nat) (hp : 0 < p) (h : x ≤ p * k) :
    ceil_div x p * p ≤ p * k := by
  have h1 : ceil_div x p < k + 1 := by
    unfold ceil_div
    apply Nat.div_lt_of_lt_mul
    rw [Nat.mul_add, Nat.mul_one]
    omega
  rw [Nat.mul_comm]
  exact Nat.mul_le_mul_left p (by omega)

theorem round_pages_eq (P : Platform) (x : Nat) (hps : 0 < P.pagesize)
    (hno : ceil_div x P.pagesize * P.pagesize < SIZE_MOD) :
    round_pages P x = ceil_div x P.pagesize * P.pagesize := by
  have hc : ceil_div x P.pagesize < SIZE_MOD := by
    have : ceil_div x P.pagesize * 1 ≤ ceil_div x P.pagesize * P.pagesize :=
      Nat.mul_le_mul_left _ hps
    omega
  have hpc : pages_count P x = ceil_div x P.pagesize := by
    simp only [pages_count, size_add]
    rw [ceil_div_eq x P.pagesize hps]
    exact Nat.mod_eq_of_lt hc
  simp only [round_pages, size_mul, hpc]
  rw [Nat.mul_comm]
  exact Nat.mod_eq_of_lt hno

theorem region_actual_size_eq (P : Platform) (q : Nat) (hps : 0 < P.pagesize)
    (hno : ceil_div (q + P.H) P.pagesize * P.pagesize < SIZE_MOD) :
    region_actual_size P (size_from_capacity P q) = spec_region_size P q := by
  have hle := le_ceil_div_mul (q + P.H) P.pagesize hps
  have hq : size_from_capacity P q = q + P.H := by
    simp only [size_from_capacity, size_add]
    exact Nat.mod_eq_of_lt (by omega)
  rw [hq]
  simp only [region_actual_size, spec_region_size, size_max, round_pages_eq P _ hps hno]
  split
  · rename_i h; exact (max_eq_left h).symm
  · rename_i h; exact (max_eq_right (by omega)).symm

/-- C18 (as stated, refuted): for the payload size `2^64 - 18`, for which
`q + H = 2^64 - 1` does not overflow, and pages of 4096 bytes, rounding up to a
page multiple wraps around to 0, and the size mapped is the minimum region size,
8192, which is below `q + H`. -/
theorem C18_rounding_up_wraps_around :
    18446744073709551598 + linux64.H < SIZE_MOD ∧
    0 < linux64.pagesize ∧ linux64.REGION_MIN_SIZE % linux64.pagesize = 0 ∧
    region_actual_size linux64 (size_from_capacity linux64 18446744073709551598) = 8192 ∧
    (alloc_region linux64 67379200 18446744073709551598 (os_at 67379200)).size = 8192 ∧
    ¬ (18446744073709551598 + linux64.H ≤ 8192) := by
  decide

/-- C18 (amended): for every requested payload size `q` and page size `P > 0`
dividing `REGION_MIN_SIZE`, such that `q + H` rounded up to a multiple of `P`
does not overflow `size_t`, the size `alloc_region` maps equals
`max(ceil((q + H) / P) * P, REGION_MIN_SIZE)`: it is a multiple of `P`, at least
`q + H`, at least `REGION_MIN_SIZE`, and the smallest value with these three
properties. -/
theorem C18_region_size_is_least_fitting_multiple (P : Platform) (q : Nat)
    (hps : 0 < P.pagesize) (hdiv : P.pagesize ∣ P.REGION_MIN_SIZE)
    (hno : ceil_div (q + P.H) P.pagesize * P.pagesize < SIZE_MOD) :
    region_actual_size P (size_from_capacity P q) = spec_region_size P q ∧
    (∀ addr os, region_is_invalid (alloc_region P addr q os) = false →
      (alloc_region P addr q os).size = spec_region_size P q) ∧
    P.pagesize ∣ spec_region_size P q ∧
    q + P.H ≤ spec_region_size P q ∧
    P.REGION_MIN_SIZE ≤ spec_region_size P q ∧
    (∀ v, P.pagesize ∣ v → q + P.H ≤ v → P.REGION_MIN_SIZE ≤ v →
      spec_region_size P q ≤ v) := by
  have heq := region_actual_size_eq P q hps hno
  have hle := le_ceil_div_mul (q + P.H) P.pagesize hps
  refine ⟨heq, ?_, ?_, ?_, ?_, ?_⟩
  · intro addr os hvalid
    simp only [alloc_region] at hvalid ⊢
    cases hn : os.noreplace with
    | some a => simp only [heq]
    | none =>
      cases hm : os.anywhere with
      | some a => simp only [heq]
      | none => simp [hn, hm, region_is_invalid, REGION_INVALID] at hvalid
  · simp only [spec_region_size]
    rcases max_choice (ceil_div (q + P.H) P.pagesize * P.pagesize) P.REGION_MIN_SIZE
      with h | h
    · rw [h]; exact Dvd.intro_left _ rfl
    · rw [h]; exact hdiv
  · exact le_trans hle (le_max_left _ _)
  · exact le_max_right _ _
  · intro v hv hx hmin
    obtain ⟨k, hk⟩ := hv
    subst hk
    exact max_le (ceil_div_mul_le _ _ k hps hx) hmin

/-- Witness of C18 (amended): for 10000 bytes, a header of 17 bytes and pages of
4096 bytes, the region has three pages. -/
theorem C18_witness :
    region_actual_size linux64 (size_from_capacity linux64 10000) =
      spec_region_size linux64 10000 ∧
    spec_region_size linux64 10000 = 12288 :=
  ⟨(C18_region_size_is_least_fitting_multiple linux64 10000 (by decide)
      ⟨2, by decide⟩ (by decide)).1,
   by decide⟩

/-! ## Growth -/

theorem alloc_region_mapped (P : Platform) (addr q : Nat) (os : mmap_outcome) (a : Nat)
    (hps : 0 < P.pagesize)
    (hno : ceil_div (q + P.H) P.pagesize * P.pagesize < SIZE_MOD)
    (hmap : os.noreplace = some a ∨ (os.noreplace = none ∧ os.anywhere = some a)) :
    alloc_region P addr q os =
      { addr := a, size := spec_region_size P q, extends_ := a == addr } := by
  simp only [alloc_region, region_actual_size_eq P q hps hno]
  rcases hmap with h | ⟨h1, h2⟩
  · simp only [h]
  · simp only [h1, h2]

/-- C17 (as stated, refuted): for the query `2^64 - 1`, on the heap whose only
block is in use, the region acquisition succeeds with a region of 8192 bytes,
because the sum of query and header overflows; `grow_heap` returns the new
header, whose capacity 8175 is not at least the query. -/
theorem C17_grown_block_smaller_than_query :
    grow_heap linux64 18446744073709551615 (os_at 67379200) heap_one_used.blocks =
      Outcome.ok { passed := [{ addr := 67371008, capacity := 8175, is_free := false }],
                   block := [{ addr := 67379200, capacity := 8175, is_free := true }],
                   acquired := [(67379200, 8192)] } ∧
    ¬ (size_max 18446744073709551615 BLOCK_MIN_CAPACITY ≤ 8175) := by
  decide

/-- C17 (amended): when `max(query, 24) + H` rounded up to a page multiple does
not overflow `size_t` and the OS maps the region at a non-null address `a`,
inside the address space: if `last` is free and `a` is the address just after
its payload, `last` absorbs the region (its capacity grows by the whole region
size, it has no successor) and `grow_heap` returns `last`; otherwise `last` is
unchanged, its `next` is the new header, and `grow_heap` returns the new header,
which is free, has no successor and has capacity
`region size - H >= max(query, 24)`. -/
theorem C17_grow_heap_links_or_absorbs (P : Platform) (query : Nat) (os : mmap_outcome)
    (last : block_header) (rest : List block_header) (a : Nat)
    (hH : 0 < P.H) (hmin : P.H ≤ P.REGION_MIN_SIZE) (hps : 0 < P.pagesize)
    (hno : ceil_div (size_max query BLOCK_MIN_CAPACITY + P.H) P.pagesize * P.pagesize <
      SIZE_MOD)
    (ha : a ≠ 0)
    (hmap : os.noreplace = some a ∨ (os.noreplace = none ∧ os.anywhere = some a))
    (hspace : a + spec_region_size P (size_max query BLOCK_MIN_CAPACITY) ≤ SIZE_MOD) :
    ((last.is_free = true ∧ a = block_after P last) →
      grow_heap P query os (last :: rest) =
        Outcome.ok
          { passed := [],
            block := [{ addr := last.addr,
                        capacity := last.capacity +
                          spec_region_size P (size_max query BLOCK_MIN_CAPACITY),
                        is_free := true }],
            acquired := [(a, spec_region_size P (size_max query BLOCK_MIN_CAPACITY))] }) ∧
    (¬ (last.is_free = true ∧ a = block_after P last) →
      grow_heap P query os (last :: rest) =
        Outcome.ok
          { passed := [last],
            block := [{ addr := a,
                        capacity :=
                          spec_region_size P (size_max query BLOCK_MIN_CAPACITY) - P.H,
                        is_free := true }],
            acquired := [(a, spec_region_size P (size_max query BLOCK_MIN_CAPACITY))] } ∧
      next_of [last,
          { addr := a,
            capacity := spec_region_size P (size_max query BLOCK_MIN_CAPACITY) - P.H,
            is_free := true }] = a ∧
      size_max query BLOCK_MIN_CAPACITY ≤
        spec_region_size P (size_max query BLOCK_MIN_CAPACITY) - P.H) := by
  have hreg := alloc_region_mapped P (block_after P last) (size_max query BLOCK_MIN_CAPACITY)
    os a hps hno hmap
  have hSmin : P.REGION_MIN_SIZE ≤ spec_region_size P (size_max query BLOCK_MIN_CAPACITY) :=
    le_max_right _ _
  have hSle : size_max query BLOCK_MIN_CAPACITY + P.H ≤
      spec_region_size P (size_max query BLOCK_MIN_CAPACITY) :=
    le_trans (le_ceil_div_mul _ _ hps) (le_max_left _ _)
  have hcap : capacity_from_size P (spec_region_size P (size_max query BLOCK_MIN_CAPACITY)) =
      spec_region_size P (size_max query BLOCK_MIN_CAPACITY) - P.H := by
    simp only [capacity_from_size, size_sub, SIZE_MOD] at *
    omega
  have hinv : region_is_invalid
      { addr := a, size := spec_region_size P (size_max query BLOCK_MIN_CAPACITY),
        extends_ := a == block_after P last } = false := by
    simp [region_is_invalid, ha]
  have hnew : block_init P a (spec_region_size P (size_max query BLOCK_MIN_CAPACITY)) =
      { addr := a, capacity := spec_region_size P (size_max query BLOCK_MIN_CAPACITY) - P.H,
        is_free := true } := by
    simp only [block_init, hcap]
  constructor
  · intro hc
    obtain ⟨hfree, hat⟩ := hc
    have hm : mergeable P last
        { addr := a, capacity := spec_region_size P (size_max query BLOCK_MIN_CAPACITY) - P.H,
          is_free := true } = true := by
      simp [mergeable, blocks_continuous, hfree, hat]
    have hback : size_from_capacity P
        (spec_region_size P (size_max query BLOCK_MIN_CAPACITY) - P.H) =
        spec_region_size P (size_max query BLOCK_MIN_CAPACITY) := by
      simp only [size_from_capacity, size_add, SIZE_MOD] at *
      omega
    have hsum : size_add last.capacity
        (spec_region_size P (size_max query BLOCK_MIN_CAPACITY)) =
        last.capacity + spec_region_size P (size_max query BLOCK_MIN_CAPACITY) := by
      simp only [block_after] at hat
      simp only [size_add, SIZE_MOD] at *
      omega
    have hlt : last.capacity + spec_region_size P (size_max query BLOCK_MIN_CAPACITY) <
        SIZE_MOD := by
      rw [← hsum]; exact size_add_lt _ _
    simp only [grow_heap, hreg, hinv, Bool.false_eq_true, if_false, hfree, if_true, hnew]
    simp only [try_merge_with_next, hm, if_true, hback, hsum]
    simp only [block_init, capacity_from_size, size_from_capacity,
      size_sub_add_cancel _ _ hlt]
  · intro hc
    refine ⟨?_, rfl, by omega⟩
    cases hfree : last.is_free with
    | false =>
      simp only [grow_heap, hreg, hinv, Bool.false_eq_true, if_false, hfree, hnew]
    | true =>
      have hat : ¬ a = block_after P last := fun e => hc ⟨hfree, e⟩
      have hm : mergeable P last
          { addr := a, capacity := spec_region_size P (size_max query BLOCK_MIN_CAPACITY) - P.H,
            is_free := true } = false := by
        simp [mergeable, blocks_continuous, hfree, hat]
      simp only [grow_heap, hreg, hinv, Bool.false_eq_true, if_false, hfree, if_true, hnew]
      simp only [try_merge_with_next, hm, Bool.false_eq_true, if_false]

/-- Witness of C17 (amended): on the heap whose only block is in use, `grow_heap`
for 10000 bytes with a region mapped right after the heap links a free header
of 12271 bytes behind the block and returns it. -/
theorem C17_witness :
    spec_region_size linux64 (size_max 10000 BLOCK_MIN_CAPACITY) = 12288 ∧
    grow_heap linux64 10000 (os_at 67379200)
        [{ addr := 67371008, capacity := 8175, is_free := false }] =
      Outcome.ok
        { passed := [{ addr := 67371008, capacity := 8175, is_free := false }],
          block := [{ addr := 67379200,
                      capacity := spec_region_size linux64 (size_max 10000 BLOCK_MIN_CAPACITY) -
                        linux64.H,
                      is_free := true }],
          acquired := [(67379200,
            spec_region_size linux64 (size_max 10000 BLOCK_MIN_CAPACITY))] } :=
  ⟨by decide,
   ((C17_grow_heap_links_or_absorbs linux64 10000 (os_at 67379200)
      { addr := 67371008, capacity := 8175, is_free := false } [] 67379200
      (by decide) (by decide) (by decide) (by decide) (by decide) (Or.inl rfl)
      (by decide)).2 (by decide)).1⟩

/-- Witness of C20: the scan of the six headers of `chain_two_free` for 400
bytes makes one merge and three advances. -/
theorem C20_witness :
    (find_good_or_last_count linux64 chain_two_free 400).1 = { merges := 1, advances := 3 } ∧
    (find_good_or_last_count linux64 chain_two_free 400).1.merges +
      (find_good_or_last_count linux64 chain_two_free 400).1.advances ≤ chain_two_free.length :=
  ⟨by decide,
   (C20_scan_ends_within_the_length_of_the_chain linux64 chain_two_free 400).2.2.2⟩

end PL4
